import Mathlib

/-!
rlms: a shallow embedding of the Minesweeper engine

The definitions below follow `src/src/rlms.hpp` and `src/src/rlms.cpp`.

* C++ `int` values are Lean `Int`s.  The only arithmetic on them is the product
  `width * height - 9` of `config::validate` (taken in exact arithmetic: signed
  overflow is undefined behaviour in the source) and the comparisons of a
  `std::size_t` container size with an `int`, where the `int` operand is converted
  to a 64 bit unsigned value (`to_size_t`).  Where the range of `int` matters (the
  allocation done by `reset`) it is the hypothesis `is_int`.
* `std::vector<std::vector<cell>>` is a list of columns, `board[x][y]`.  The methods
  index the vectors without checking their sizes, so the theorems are about engines
  whose board has the configured size (`minesweeper.sized`), as `ensure_size` leaves
  it.
* A method that mutates the engine is a function returning the new engine value.
  Exceptions are values of `exn` carried by `Except`.
* `std::mt19937` and `std::shuffle` are library code: they are a parameter
  (`rng`) of `generate_mines`, and theorems quantify over every shuffle that
  returns a permutation of its argument.
* The two unbounded `while` loops (the queue loop of `reveal`, the `progress`
  loop of `logically_solvable`) take a step budget; exhausting it is the value
  `exn.out_of_fuel`, and the theorems prove that this value is never produced.
-/

namespace rlms

/-- Exceptions of the engine: `std::invalid_argument` (thrown by `at`),
`std::runtime_error` (thrown by `generate_mines`), `std::length_error` (thrown by
`std::vector::resize`), and the marker of an exhausted loop budget. -/
inductive exn where
  | invalid_argument
  | runtime_error
  | length_error
  | out_of_fuel
  deriving DecidableEq

/-- Minesweeper board configuration (`struct config`). -/
structure config where
  width : Int := 8
  height : Int := 8
  mines : Int := 10
  seed : Int := -1
  attempts : Int := 100
  deriving DecidableEq

/-- Minesweeper cell state (`enum class cell_state`). -/
inductive cell_state where
  | revealed
  | hidden
  | flagged
  | qmarked
  deriving DecidableEq

/-- Minesweeper cell (`struct cell`). -/
structure cell where
  is_mine : Bool := false
  n_mines : Int := 0
  state : cell_state := cell_state.hidden
  deriving DecidableEq

instance : Inhabited cell := ⟨{}⟩

/-- Minesweeper game state (`enum class game_state`). -/
inductive game_state where
  | first_click
  | playing
  | won
  | lost
  deriving DecidableEq

/-- The engine (`struct minesweeper`). -/
structure minesweeper where
  cfg : config
  state : game_state
  unsolvable : Bool := false
  board : List (List cell) := []
  deriving DecidableEq

/-- Conversion of an `int` to `std::size_t` (64 bit), as done by the usual
arithmetic conversions when a container size is compared with an `int`. -/
def to_size_t (v : Int) : Nat := (v % (2 ^ 64 : Int)).toNat

/-- The method `config::validate`. -/
def config.validate (c : config) : Bool :=
  if c.width < 1 ∨ c.height < 1 ∨ c.attempts < 1 then false
  else if c.mines > c.width * c.height - 9 then false
  else true

/-- The guard `x < 0 || x >= cfg.width || y < 0 || y >= cfg.height`. -/
def config.out_of_range (c : config) (x y : Int) : Bool :=
  decide (x < 0) || decide (x ≥ c.width) || decide (y < 0) || decide (y ≥ c.height)

/-- The unchecked access `board[x][y]`.  On a board of the configured size (`sized`)
and coordinates inside the board the element exists; elsewhere, where the C++ access is
undefined, the value is the default cell. -/
def minesweeper.cell_at (m : minesweeper) (x y : Int) : cell :=
  (m.board.getD x.toNat []).getD y.toNat default

/-- The accessor `at(x, y)` used as a read. -/
def minesweeper.get_at (m : minesweeper) (x y : Int) : Except exn cell :=
  if m.cfg.out_of_range x y then Except.error exn.invalid_argument
  else Except.ok (m.cell_at x y)

/-- The board with `board[x][y]` replaced by `f board[x][y]` (unchanged where the
element does not exist). -/
def minesweeper.upd (m : minesweeper) (x y : Int) (f : cell → cell) : minesweeper :=
  let column := (m.board.getD x.toNat []).set y.toNat (f (m.cell_at x y))
  { m with board := m.board.set x.toNat column }

/-- The accessor `at(x, y)` used as a write: `at(x, y) = v`, or an assignment to one
of its fields. -/
def minesweeper.modify_at (m : minesweeper) (x y : Int) (f : cell → cell) :
    Except exn minesweeper :=
  if m.cfg.out_of_range x y then Except.error exn.invalid_argument
  else Except.ok (m.upd x y f)

/-- The call `v.resize(n)` of a vector, with `n` an `int`: a negative `n` converts to
a size beyond `max_size()`. -/
def resize {α : Type} [Inhabited α] (v : List α) (n : Int) : Except exn (List α) :=
  if n < 0 then Except.error exn.length_error
  else Except.ok (v.take n.toNat ++ List.replicate (n.toNat - v.length) default)

/-- The method `ensure_size`. -/
def minesweeper.ensure_size (m : minesweeper) : Except exn minesweeper := do
  let b ← if m.board.length ≠ to_size_t m.cfg.width then resize m.board m.cfg.width
          else pure m.board
  let b ← b.mapM fun linear =>
    if linear.length ≠ to_size_t m.cfg.height then resize linear m.cfg.height
    else pure linear
  pure { m with board := b }

/-- The method `initialize_board`. -/
def minesweeper.initialize_board (m : minesweeper) : Except exn minesweeper :=
  minesweeper.ensure_size { m with state := game_state.first_click }

/-- The method `reset`. -/
def minesweeper.reset (m : minesweeper) : Except exn minesweeper :=
  minesweeper.initialize_board { m with board := [] }

/-- The offsets visited by `for (int d = -1; d <= 1; d++)`. -/
def offsets : List Int := [-1, 0, 1]

/-- The method `neighbors`. -/
def minesweeper.neighbors (m : minesweeper) (x y : Int) : List (Int × Int) :=
  if m.cfg.out_of_range x y then []
  else
    offsets.flatMap fun dx =>
      offsets.filterMap fun dy =>
        if dx = 0 ∧ dy = 0 then none
        else
          let nx := dx + x
          let ny := dy + y
          if m.cfg.out_of_range nx ny then none else some (nx, ny)

/-- The coordinates visited by
`for (int x = 0; x < cfg.width; x++) for (int y = 0; y < cfg.height; y++)`, in
order. -/
def config.coords (c : config) : List (Int × Int) :=
  (List.range c.width.toNat).flatMap fun (x : Nat) =>
    (List.range c.height.toNat).map fun (y : Nat) => ((x : Int), (y : Int))

/-- The loop `for (auto [nx, ny] : ps) if (p(at(nx, ny))) out.emplace_back(nx, ny);`
collecting the coordinates whose cell satisfies `p`. -/
def minesweeper.select (m : minesweeper) (p : cell → Bool) :
    List (Int × Int) → Except exn (List (Int × Int))
  | [] => pure []
  | (nx, ny) :: rest => do
    let c ← m.get_at nx ny
    let tl ← m.select p rest
    pure (if p c then (nx, ny) :: tl else tl)

/-- The method `check_won`, from the position of the scan given by the list. -/
def minesweeper.check_won_from (m : minesweeper) : List (Int × Int) → Except exn Bool
  | [] => pure true
  | (x, y) :: rest => do
    let c ← m.get_at x y
    if !c.is_mine && c.state ≠ cell_state.revealed then pure false
    else m.check_won_from rest

/-- The method `check_won`. -/
def minesweeper.check_won (m : minesweeper) : Except exn Bool :=
  m.check_won_from m.cfg.coords

/-- The method `cells_flagged`. -/
def minesweeper.cells_flagged (m : minesweeper) : Except exn Int :=
  m.cfg.coords.foldlM
    (fun (flagged_count : Int) (p : Int × Int) => do
      let c ← m.get_at p.1 p.2
      pure (if c.state = cell_state.flagged then flagged_count + 1 else flagged_count))
    0

/-- The queue loop of `reveal`; the first argument bounds the number of dequeues. -/
def reveal_loop : Nat → List (Int × Int) → minesweeper → Except exn minesweeper
  | _, [], m => pure m
  | 0, _ :: _, _ => Except.error exn.out_of_fuel
  | fuel + 1, (cx, cy) :: queue, m => do
    let c ← m.get_at cx cy
    if c.state ≠ cell_state.hidden then reveal_loop fuel queue m
    else
      let m ← m.modify_at cx cy fun c => { c with state := cell_state.revealed }
      let c ← m.get_at cx cy
      if c.n_mines ≠ 0 then reveal_loop fuel queue m
      else
        let hidden ← m.select (fun c => c.state = cell_state.hidden) (m.neighbors cx cy)
        reveal_loop fuel (queue ++ hidden) m

/-- The budget of the queue loop of `reveal`: every dequeue either reveals a hidden
cell, adding at most 8 entries, or adds nothing. -/
def minesweeper.reveal_fuel (m : minesweeper) : Nat :=
  9 * (m.cfg.width.toNat * m.cfg.height.toNat) + 1

/-- The method `reveal`. -/
def minesweeper.reveal (m : minesweeper) (x y : Int) : Except exn minesweeper := do
  if m.cfg.out_of_range x y then pure m
  else
    let c ← m.get_at x y
    if c.is_mine then
      let m ← m.modify_at x y fun c => { c with state := cell_state.revealed }
      pure { m with state := game_state.lost }
    else reveal_loop m.reveal_fuel [(x, y)] m

/-- The loop `for (auto [rx, ry] : ps) reveal(rx, ry);`. -/
def minesweeper.reveal_all (m : minesweeper) (ps : List (Int × Int)) :
    Except exn minesweeper :=
  ps.foldlM (fun m p => m.reveal p.1 p.2) m

/-- The loop `for (auto [rx, ry] : ps) at(rx, ry).state = cell_state::flagged;`. -/
def minesweeper.flag_all (m : minesweeper) (ps : List (Int × Int)) :
    Except exn minesweeper :=
  ps.foldlM (fun m p => m.modify_at p.1 p.2 fun c => { c with state := cell_state.flagged }) m

/-- The method `speed_reveal`. -/
def minesweeper.speed_reveal (m : minesweeper) (x y : Int) : Except exn minesweeper := do
  if m.cfg.out_of_range x y then pure m
  else
    let marked ← m.select
      (fun c => c.state = cell_state.flagged || c.state = cell_state.qmarked) (m.neighbors x y)
    let hidden ← m.select (fun c => c.state = cell_state.hidden) (m.neighbors x y)
    let c ← m.get_at x y
    if marked.length = to_size_t c.n_mines then m.reveal_all hidden else pure m

/-- The method `toggle`. -/
def minesweeper.toggle (m : minesweeper) (x y : Int) : Except exn minesweeper := do
  if m.cfg.out_of_range x y then pure m
  else
    let c ← m.get_at x y
    if c.state = cell_state.hidden then
      m.modify_at x y fun c => { c with state := cell_state.flagged }
    else if c.state = cell_state.flagged then
      m.modify_at x y fun c => { c with state := cell_state.qmarked }
    else if c.state = cell_state.qmarked then
      m.modify_at x y fun c => { c with state := cell_state.hidden }
    else pure m

/-- The method `speed_flag`. -/
def minesweeper.speed_flag (m : minesweeper) (x y : Int) : Except exn minesweeper := do
  if m.cfg.out_of_range x y then pure m
  else
    let hidden ← m.select (fun c => c.state ≠ cell_state.revealed) (m.neighbors x y)
    let c ← m.get_at x y
    if hidden.length = to_size_t c.n_mines then m.flag_all hidden else pure m

/-- The body of the scan of the deduction loop of `logically_solvable` for the cell
`(x, y)`: the two rules, with the scanned cell as the clue cell. -/
def minesweeper.deduce_cell (m : minesweeper) (progress : Bool) (x y : Int) :
    Except exn (minesweeper × Bool) := do
  let c ← m.get_at x y
  if c.state ≠ cell_state.hidden then pure (m, progress)
  else
    let flagged ← m.select (fun c => c.state = cell_state.flagged) (m.neighbors x y)
    let hidden ← m.select (fun c => c.state = cell_state.hidden) (m.neighbors x y)
    -- Rule 1
    let c ← m.get_at x y
    let (m, progress) ←
      if flagged.length = to_size_t c.n_mines then do
        let m ← m.reveal_all hidden
        pure (m, progress || !hidden.isEmpty)
      else pure (m, progress)
    -- Rule 2
    let c ← m.get_at x y
    if flagged.length + hidden.length = to_size_t c.n_mines then do
      let m ← m.flag_all hidden
      pure (m, progress || !hidden.isEmpty)
    else pure (m, progress)

/-- One pass of the deduction loop: `progress = false;` followed by the scan of all
cells. -/
def minesweeper.deduce_pass (m : minesweeper) : Except exn (minesweeper × Bool) :=
  m.cfg.coords.foldlM
    (fun (s : minesweeper × Bool) (p : Int × Int) => s.1.deduce_cell s.2 p.1 p.2)
    (m, false)

/-- The loop `while (progress)` of `logically_solvable`; the first argument bounds the
number of passes. -/
def deduction_loop : Nat → minesweeper → Except exn minesweeper
  | 0, _ => Except.error exn.out_of_fuel
  | fuel + 1, m => do
    let (m, progress) ← m.deduce_pass
    if progress then deduction_loop fuel m else pure m

/-- The budget of the deduction loop: a pass that sets `progress` takes at least one
cell out of the hidden state. -/
def minesweeper.deduction_fuel (m : minesweeper) : Nat :=
  m.cfg.width.toNat * m.cfg.height.toNat + 1

/-- The loop resetting every cell state to hidden at the end of
`logically_solvable`. -/
def minesweeper.hide_all (m : minesweeper) : Except exn minesweeper :=
  m.cfg.coords.foldlM
    (fun m p => m.modify_at p.1 p.2 fun c => { c with state := cell_state.hidden }) m

/-- The method `logically_solvable`: the returned value and the engine it leaves. -/
def minesweeper.logically_solvable (m : minesweeper) (x y : Int) :
    Except exn (Bool × minesweeper) := do
  let m ← m.reveal x y
  let m ← deduction_loop m.deduction_fuel m
  let solved ← m.check_won
  let m ← m.hide_all
  pure (solved, m)

/-- The generator `std::mt19937` with the algorithm `std::shuffle`: the state made
from a seed, and the shuffle of a list of coordinates, which returns the shuffled
list and the next state of the generator. -/
structure rng (G : Type) where
  seed : Int → G
  shuffle : G → List (Int × Int) → List (Int × Int) × G

/-- What the C++ standard promises of `std::shuffle`: the result is a permutation of
the argument. -/
def rng.lawful {G : Type} (R : rng G) : Prop :=
  ∀ g l, (R.shuffle g l).1.Perm l

/-- The loop resetting the board completely at the start of an attempt. -/
def minesweeper.clear_all (m : minesweeper) : Except exn minesweeper :=
  m.cfg.coords.foldlM (fun m p => m.modify_at p.1 p.2 fun _ => ({} : cell)) m

/-- The list of allowed positions of an attempt. -/
def minesweeper.allowed (m : minesweeper) (forb : List (Int × Int)) : List (Int × Int) :=
  m.cfg.coords.filter fun p => decide (p ∉ forb)

/-- The loop placing the mines: `allowed[j]` for `j` from 0 to `cfg.mines - 1` (the
caller has checked that `cfg.mines` does not exceed the size of the list). -/
def minesweeper.place_mines (m : minesweeper) (allowed : List (Int × Int)) :
    Except exn minesweeper :=
  (allowed.take m.cfg.mines.toNat).foldlM
    (fun m p => m.modify_at p.1 p.2 fun c => { c with is_mine := true }) m

/-- The loop computing the neighbor mines count of every cell. -/
def minesweeper.count_all (m : minesweeper) : Except exn minesweeper :=
  m.cfg.coords.foldlM
    (fun m p => do
      let mines ← m.select (fun c => c.is_mine) (m.neighbors p.1 p.2)
      m.modify_at p.1 p.2 fun c => { c with n_mines := (mines.length : Int) })
    m

/-- The body of the loop over the attempts of `generate_mines`, up to the call of
`logically_solvable`: its result, the next generator state and the engine. -/
def minesweeper.attempt {G : Type} (R : rng G) (m : minesweeper) (forb : List (Int × Int))
    (x y : Int) (gen : G) : Except exn (Bool × G × minesweeper) := do
  let m ← m.clear_all
  let allowed := m.allowed forb
  if allowed.length < to_size_t m.cfg.mines then Except.error exn.runtime_error
  else
    let shuffled := R.shuffle gen allowed
    let m ← m.place_mines shuffled.1
    let m ← m.count_all
    let r ← m.logically_solvable x y
    pure (r.1, shuffled.2, r.2)

/-- The loop `for (int i = 0; i < cfg.attempts; i++)` of `generate_mines`; the
first argument is the number of iterations left. -/
def generate_loop {G : Type} (R : rng G) (forb : List (Int × Int)) (x y : Int) :
    Nat → G → minesweeper → Except exn minesweeper
  | 0, _, m => pure m
  | n + 1, gen, m => do
    let r ← m.attempt R forb x y gen
    if r.1 then pure { r.2.2 with unsolvable := false }
    else generate_loop R forb x y n r.2.1 r.2.2

/-- The method `generate_mines`. -/
def minesweeper.generate_mines {G : Type} (R : rng G) (m : minesweeper) (x y : Int) :
    Except exn minesweeper :=
  if !m.cfg.validate then pure m
  else if m.cfg.out_of_range x y then pure m
  else
    let forb := (x, y) :: m.neighbors x y
    let gen := R.seed m.cfg.seed
    generate_loop R forb x y m.cfg.attempts.toNat gen { m with unsolvable := true }

/-- The end of both click methods: `if (check_won()) state = game_state::won;`. -/
def minesweeper.settle (m : minesweeper) : Except exn minesweeper := do
  let won ← m.check_won
  if won then pure { m with state := game_state.won } else pure m

/-- The method `primary_click`. -/
def minesweeper.primary_click {G : Type} (R : rng G) (m : minesweeper) (x y : Int) :
    Except exn minesweeper := do
  if m.cfg.out_of_range x y then pure m
  else if m.state = game_state.first_click then
    let m ← m.generate_mines R x y
    let m ← m.reveal x y
    minesweeper.settle { m with state := game_state.playing }
  else if m.state ≠ game_state.playing then pure m
  else
    let c ← m.get_at x y
    if c.state = cell_state.flagged ∨ c.state = cell_state.qmarked then pure m
    else if c.is_mine then
      let m ← m.modify_at x y fun c => { c with state := cell_state.revealed }
      pure { m with state := game_state.lost }
    else
      let m ←
        if c.state ≠ cell_state.revealed then m.reveal x y
        else if c.n_mines > 0 then m.speed_reveal x y
        else pure m
      m.settle

/-- The method `secondary_click`. -/
def minesweeper.secondary_click (m : minesweeper) (x y : Int) : Except exn minesweeper := do
  if m.cfg.out_of_range x y then pure m
  else if m.state ≠ game_state.playing then pure m
  else
    let c ← m.get_at x y
    let m ← if c.state ≠ cell_state.revealed then m.toggle x y else m.speed_flag x y
    m.settle

/-- The shuffle that leaves the list as it is, with a generator without state. -/
def rng_id : rng Unit := ⟨fun _ => (), fun g l => (l, g)⟩

/-- A shuffle that reverses the list, with a generator without state. -/
def rng_rev : rng Unit := ⟨fun _ => (), fun g l => (l.reverse, g)⟩

/-! ## Coordinates inside the board, and boards of the configured size -/

/-- The coordinates `(x, y)` lie inside the board. -/
def config.inb (c : config) (x y : Int) : Prop :=
  0 ≤ x ∧ x < c.width ∧ 0 ≤ y ∧ y < c.height

instance (c : config) (x y : Int) : Decidable (c.inb x y) := by
  unfold config.inb; infer_instance

/-- The board has `cfg.width` columns of `cfg.height` cells: the invariant that
`ensure_size` establishes, and on which `board[x][y]` is defined for all
coordinates inside the board. -/
def minesweeper.sized (m : minesweeper) : Prop :=
  (m.board.length : Int) = m.cfg.width ∧ ∀ col ∈ m.board, (col.length : Int) = m.cfg.height

instance (m : minesweeper) : Decidable m.sized := by
  unfold minesweeper.sized; infer_instance

/-! ## Relations between two engine values -/

/-- The board after `board[p] = F p board[p]` for the coordinates `p` of a list, in
order. -/
def minesweeper.upd_all (m : minesweeper) (F : Int × Int → cell → cell)
    (ps : List (Int × Int)) : minesweeper :=
  ps.foldl (fun m p => m.upd p.1 p.2 (F p)) m

/-- From `m` to `m'` the configuration, the size of the board, the flag `unsolvable`
and every cell's `is_mine` and `n_mines` are kept, and every cell's state changes
along the relation `T`. -/
structure evolves (T : cell_state → cell_state → Prop) (m m' : minesweeper) : Prop where
  cfg : m'.cfg = m.cfg
  sized : m'.sized
  unsolvable : m'.unsolvable = m.unsolvable
  is_mine : ∀ x y, m.cfg.inb x y → (m'.cell_at x y).is_mine = (m.cell_at x y).is_mine
  n_mines : ∀ x y, m.cfg.inb x y → (m'.cell_at x y).n_mines = (m.cell_at x y).n_mines
  state : ∀ x y, m.cfg.inb x y → T (m.cell_at x y).state (m'.cell_at x y).state

/-- A state is kept, or goes from hidden to revealed. -/
def T_uncover (s s' : cell_state) : Prop :=
  s' = s ∨ (s = cell_state.hidden ∧ s' = cell_state.revealed)

/-- A state is kept, or becomes revealed. -/
def T_open (s s' : cell_state) : Prop :=
  s' = s ∨ s' = cell_state.revealed

/-- No state becomes hidden. -/
def T_solve (s s' : cell_state) : Prop :=
  s' = cell_state.hidden → s = cell_state.hidden

/-- Any change of state. -/
def T_any (_ _ : cell_state) : Prop := True

/-- The number of hidden cells of the board. -/
def minesweeper.hidden_count (m : minesweeper) : Nat :=
  m.cfg.coords.countP fun p => decide ((m.cell_at p.1 p.2).state = cell_state.hidden)

/-- Every cell of the board is hidden. -/
def minesweeper.all_hidden (m : minesweeper) : Prop :=
  ∀ x y, m.cfg.inb x y → (m.cell_at x y).state = cell_state.hidden

/-! ## Paths of the flood fill -/

/-- Two distinct cells are 8-adjacent: their coordinates differ by at most one. -/
def adjacent (a b : Int × Int) : Prop :=
  a ≠ b ∧ |a.1 - b.1| ≤ 1 ∧ |a.2 - b.2| ≤ 1

instance (a b : Int × Int) : Decidable (adjacent a b) := by
  unfold adjacent; infer_instance

/-- The cells `a`, then those of the list, form a path of 8-adjacent cells of the
board that ends at `c`, in which every cell is hidden and every cell except
possibly the last has `n_mines = 0`. -/
def minesweeper.walk (m : minesweeper) : Int × Int → List (Int × Int) → Int × Int → Prop
  | a, [], c => a = c ∧ m.cfg.inb a.1 a.2 ∧ (m.cell_at a.1 a.2).state = cell_state.hidden
  | a, b :: l, c =>
    m.cfg.inb a.1 a.2 ∧ (m.cell_at a.1 a.2).state = cell_state.hidden ∧
      (m.cell_at a.1 a.2).n_mines = 0 ∧ adjacent a b ∧ m.walk b l c

/-- The cells reached from `s` by steps from a cell with `n_mines = 0` to a hidden
neighbor. -/
inductive minesweeper.reach (m : minesweeper) (s : Int × Int) : Int × Int → Prop where
  | start : m.reach s s
  | step {c n : Int × Int} : m.reach s c → (m.cell_at c.1 c.2).n_mines = 0 →
      n ∈ m.neighbors c.1 c.2 → (m.cell_at n.1 n.2).state = cell_state.hidden → m.reach s n

/-! ## Engines that differ in the game state and the flag only -/

/-- Two engines have the same configuration and the same board. -/
def same_board (a b : minesweeper) : Prop :=
  a.cfg = b.cfg ∧ a.board = b.board

/-- Two results are both the same exception, or both values related by `R`. -/
def sim {α : Type} (R : α → α → Prop) : Except exn α → Except exn α → Prop
  | Except.ok a, Except.ok b => R a b
  | Except.error e, Except.error e' => e = e'
  | _, _ => False

/-- Two results of a scan: engines with the same board, and the same flag. -/
def same_scan (a b : minesweeper × Bool) : Prop :=
  same_board a.1 b.1 ∧ a.2 = b.2

/-- Two results of `logically_solvable`: the same value, and engines with the same
board. -/
def same_answer (a b : Bool × minesweeper) : Prop :=
  a.1 = b.1 ∧ same_board a.2 b.2

/-! ## What generation establishes -/

/-- The value fits the C++ type `int` (32 bit). -/
def is_int (v : Int) : Prop := -2147483648 ≤ v ∧ v ≤ 2147483647

instance (v : Int) : Decidable (is_int v) := by
  unfold is_int; infer_instance

/-- The number of cells of the board with `is_mine = true`. -/
def minesweeper.mine_count (m : minesweeper) : Nat :=
  m.cfg.coords.countP fun p => (m.cell_at p.1 p.2).is_mine

/-- The number of cells in `neighbors(x, y)` with `is_mine = true`. -/
def minesweeper.mines_around (m : minesweeper) (x y : Int) : Nat :=
  (m.neighbors x y).countP fun p => (m.cell_at p.1 p.2).is_mine

/-- The number of cells of the board whose state is flagged. -/
def minesweeper.flag_count (m : minesweeper) : Nat :=
  m.cfg.coords.countP fun p => decide ((m.cell_at p.1 p.2).state = cell_state.flagged)

/-- The layout `m'` is one that an attempt of `generate_mines` on `m` with the
forbidden cells `forb` produces: the board of the configured size, every cell hidden,
no mine on a forbidden cell, exact neighbor counts, and `cfg.mines` mines. -/
structure generated (m : minesweeper) (forb : List (Int × Int)) (m' : minesweeper) : Prop where
  cfg : m'.cfg = m.cfg
  sized : m'.sized
  hidden : m'.all_hidden
  forbidden : ∀ p ∈ forb, m.cfg.inb p.1 p.2 → (m'.cell_at p.1 p.2).is_mine = false
  counts : ∀ a b, m.cfg.inb a b → (m'.cell_at a b).n_mines = (m'.mines_around a b : Int)
  total : (m'.mine_count : Int) = m.cfg.mines

/-- The outcome of attempt number `k` (from 0) of `generate_mines`, when the attempts
before it have run: the value of `logically_solvable`, the state of the generator
and the engine after the attempt. -/
def nth_attempt {G : Type} (R : rng G) (forb : List (Int × Int)) (x y : Int) :
    Nat → G → minesweeper → Except exn (Bool × G × minesweeper)
  | 0, gen, m => m.attempt R forb x y gen
  | k + 1, gen, m => do
    let r ← m.attempt R forb x y gen
    nth_attempt R forb x y k r.2.1 r.2.2

/-! ## Example engines -/

/-- A freshly allocated board of `w` columns of `h` hidden cells without mines, for a
configuration with `n` mines, awaiting the first click. -/
def fresh (w h n : Int) : minesweeper :=
  { cfg := { width := w, height := h, mines := n, seed := 0, attempts := 100 }
    state := game_state.first_click
    board := List.replicate w.toNat (List.replicate h.toNat {}) }

/-- A game in play on a 3x3 board with a single mine at `(2, 2)`, all cells hidden. -/
def corner_mine : minesweeper :=
  { cfg := { width := 3, height := 3, mines := 1, seed := 0, attempts := 100 }
    state := game_state.playing
    board :=
      [[{}, {}, {}],
       [{}, { n_mines := 1 }, { n_mines := 1 }],
       [{}, { n_mines := 1 }, { is_mine := true }]] }

/-- The game `corner_mine` with a flag on the mine and a question mark on `(0, 2)`. -/
def corner_mine_marked : minesweeper :=
  { cfg := { width := 3, height := 3, mines := 1, seed := 0, attempts := 100 }
    state := game_state.playing
    board :=
      [[{}, {}, { state := cell_state.qmarked }],
       [{}, { n_mines := 1 }, { n_mines := 1 }],
       [{}, { n_mines := 1 }, { is_mine := true, state := cell_state.flagged }]] }

/-! ## Notions used by the statements about clicks and neighbors -/

/-- The number of cells in `neighbors(x, y)` whose state is flagged or
question-marked. -/
def minesweeper.marked_around (m : minesweeper) (x y : Int) : Nat :=
  (m.neighbors x y).countP fun p =>
    decide ((m.cell_at p.1 p.2).state = cell_state.flagged ∨
      (m.cell_at p.1 p.2).state = cell_state.qmarked)

/-- The number of cells in `neighbors(x, y)` whose state is not revealed. -/
def minesweeper.covered_around (m : minesweeper) (x y : Int) : Nat :=
  (m.neighbors x y).countP fun p => decide ((m.cell_at p.1 p.2).state ≠ cell_state.revealed)

/-- The cycle of `toggle`: hidden, flagged, question-marked, hidden; a revealed cell
stays revealed. -/
def toggled : cell_state → cell_state
  | cell_state.hidden => cell_state.flagged
  | cell_state.flagged => cell_state.qmarked
  | cell_state.qmarked => cell_state.hidden
  | cell_state.revealed => cell_state.revealed

/-- The lexicographic order of coordinates: first `x`, then `y`. -/
def lex_lt (a b : Int × Int) : Prop :=
  a.1 < b.1 ∨ (a.1 = b.1 ∧ a.2 < b.2)

instance (a b : Int × Int) : Decidable (lex_lt a b) := by
  unfold lex_lt; infer_instance

/-- Every cell of the board is hidden, is not a mine and has `n_mines = 0`. -/
def minesweeper.blank (m : minesweeper) : Prop :=
  ∀ x y, m.cfg.inb x y → m.cell_at x y = {}

/-- A game in play on a 3x3 board with mines at `(0, 0)` and `(0, 1)`, both flagged,
the cell `(1, 1)` with `n_mines = 2` revealed and every other cell hidden. -/
def chord_ready : minesweeper :=
  { cfg := { width := 3, height := 3, mines := 2, seed := 0, attempts := 100 }
    state := game_state.playing
    board :=
      [[{ is_mine := true, n_mines := 1, state := cell_state.flagged },
        { is_mine := true, n_mines := 1, state := cell_state.flagged },
        { n_mines := 1 }],
       [{ n_mines := 2 }, { n_mines := 2, state := cell_state.revealed }, { n_mines := 1 }],
       [{}, {}, {}]] }

/-- A game in play on a 3x3 board with a single mine at `(2, 2)`, where every cell
except the mine is revealed. -/
def corner_mine_open : minesweeper :=
  { cfg := { width := 3, height := 3, mines := 1, seed := 0, attempts := 100 }
    state := game_state.playing
    board :=
      [[{ state := cell_state.revealed }, { state := cell_state.revealed },
        { state := cell_state.revealed }],
       [{ state := cell_state.revealed }, { n_mines := 1, state := cell_state.revealed },
        { n_mines := 1, state := cell_state.revealed }],
       [{ state := cell_state.revealed }, { n_mines := 1, state := cell_state.revealed },
        { is_mine := true }]] }

/-! ## Soundness of the deduction, and the invariants of a game -/

/-- Every cell's `n_mines` is the number of its neighbors that are mines. -/
def minesweeper.exact (m : minesweeper) : Prop :=
  ∀ x y, m.cfg.inb x y → (m.cell_at x y).n_mines = (m.mines_around x y : Int)

/-- No revealed cell is a mine. -/
def minesweeper.safe (m : minesweeper) : Prop :=
  ∀ x y, m.cfg.inb x y → (m.cell_at x y).state = cell_state.revealed →
    (m.cell_at x y).is_mine = false

/-- Every flagged cell is a mine. -/
def minesweeper.flags_true (m : minesweeper) : Prop :=
  ∀ x y, m.cfg.inb x y → (m.cell_at x y).state = cell_state.flagged →
    (m.cell_at x y).is_mine = true

/-- The deductions made so far are right: every flagged cell is a mine and no revealed
cell is a mine. -/
def minesweeper.sound (m : minesweeper) : Prop :=
  m.flags_true ∧ m.safe

/-- No cell is question-marked. -/
def minesweeper.unmarked (m : minesweeper) : Prop :=
  ∀ x y, m.cfg.inb x y → (m.cell_at x y).state ≠ cell_state.qmarked

/-- Every cell that is not a mine is revealed: what `check_won` tests. -/
def minesweeper.cleared (m : minesweeper) : Prop :=
  ∀ x y, m.cfg.inb x y → (m.cell_at x y).is_mine = false →
    (m.cell_at x y).state = cell_state.revealed

/-- Some mine is revealed. -/
def minesweeper.mine_revealed (m : minesweeper) : Prop :=
  ∃ x y, m.cfg.inb x y ∧ (m.cell_at x y).is_mine = true ∧
    (m.cell_at x y).state = cell_state.revealed

/-- A revealed cell stays revealed. -/
def T_keep (s s' : cell_state) : Prop :=
  s = cell_state.revealed → s' = cell_state.revealed

/-- A cell is revealed after exactly when it was revealed before. -/
def T_mark (s s' : cell_state) : Prop :=
  s = cell_state.revealed ↔ s' = cell_state.revealed

/-- The engine after `k` passes of the deduction loop of `logically_solvable`. -/
def passes : Nat → minesweeper → Except exn minesweeper
  | 0, m => pure m
  | k + 1, m => do
    let r ← m.deduce_pass
    passes k r.1

/-- The engine states reached from `reset()` on `m0` by a finite sequence of
`primary_click` and `secondary_click` calls with any coordinates. -/
inductive reachable {G : Type} (R : rng G) (m0 : minesweeper) : minesweeper → Prop where
  | start {m : minesweeper} : m0.reset = Except.ok m → reachable R m0 m
  | primary {m m' : minesweeper} (x y : Int) :
      reachable R m0 m → m.primary_click R x y = Except.ok m' → reachable R m0 m'
  | secondary {m m' : minesweeper} (x y : Int) :
      reachable R m0 m → m.secondary_click x y = Except.ok m' → reachable R m0 m'

/-- The invariant of the engine states of a game with the configuration `c`. -/
structure game_inv (c : config) (m : minesweeper) : Prop where
  cfg : m.cfg = c
  sized : m.sized
  exact : m.exact
  fresh_blank : m.state = game_state.first_click → m.blank
  won_iff : m.state = game_state.won ↔ m.cleared
  lost_iff : m.state = game_state.lost ↔ m.mine_revealed

/-- A 5x2 board with a single mine at `(3, 0)` and exact counts, all cells hidden, for
a configuration that passes `validate`.  After a click at `(0, 0)` the numbers that
are revealed, the two 1s of column 2, do not tell which cell of column 3 is the
mine. -/
def guess_board : minesweeper :=
  { cfg := { width := 5, height := 2, mines := 1, seed := 0, attempts := 100 }
    state := game_state.first_click
    board :=
      [[{}, {}], [{}, {}], [{ n_mines := 1 }, { n_mines := 1 }],
       [{ is_mine := true }, { n_mines := 1 }], [{ n_mines := 1 }, { n_mines := 1 }]] }

/-- The board of `corner_mine`, a single mine forced at `(2, 2)`, in an engine that
awaits the first click; its configuration, 3x3 with one mine, fails `validate`. -/
def first_click_mine : minesweeper :=
  { corner_mine with state := game_state.first_click }

/-- The scan of the deduction loop over the cells `ps`, in order, from
`progress = false`; a pass of the loop is the scan of all the cells of the board. -/
def minesweeper.scan (m : minesweeper) (ps : List (Int × Int)) :
    Except exn (minesweeper × Bool) :=
  ps.foldlM
    (fun (s : minesweeper × Bool) (p : Int × Int) => s.1.deduce_cell s.2 p.1 p.2)
    (m, false)

theorem out_of_range_of_inb {c : config} {x y : Int} (h : c.inb x y) :
    c.out_of_range x y = false := by
  obtain ⟨h1, h2, h3, h4⟩ := h
  simp [config.out_of_range]
  omega

theorem out_of_range_of_not_inb {c : config} {x y : Int} (h : ¬ c.inb x y) :
    c.out_of_range x y = true := by
  unfold config.inb at h
  simp [config.out_of_range]
  omega

theorem out_of_range_eq_false_iff {c : config} {x y : Int} :
    c.out_of_range x y = false ↔ c.inb x y := by
  constructor
  · intro h
    by_contra hn
    rw [out_of_range_of_not_inb hn] at h
    cases h
  · exact out_of_range_of_inb

@[simp] theorem ok_bind {ε α β : Type} (a : α) (f : α → Except ε β) :
    (Except.ok a >>= f) = f a := rfl

@[simp] theorem error_bind {ε α β : Type} (e : ε) (f : α → Except ε β) :
    ((Except.error e : Except ε α) >>= f) = Except.error e := rfl

@[simp] theorem pure_eq_ok {ε α : Type} (a : α) : (pure a : Except ε α) = Except.ok a := rfl

theorem get_at_ok {m : minesweeper} {x y : Int} (h : m.cfg.inb x y) :
    m.get_at x y = Except.ok (m.cell_at x y) := by
  simp [minesweeper.get_at, out_of_range_of_inb h]

theorem modify_at_ok {m : minesweeper} {x y : Int} (h : m.cfg.inb x y) (f : cell → cell) :
    m.modify_at x y f = Except.ok (m.upd x y f) := by
  simp [minesweeper.modify_at, out_of_range_of_inb h]

@[simp] theorem upd_cfg (m : minesweeper) (x y : Int) (f : cell → cell) :
    (m.upd x y f).cfg = m.cfg := rfl

@[simp] theorem upd_state (m : minesweeper) (x y : Int) (f : cell → cell) :
    (m.upd x y f).state = m.state := rfl

@[simp] theorem upd_unsolvable (m : minesweeper) (x y : Int) (f : cell → cell) :
    (m.upd x y f).unsolvable = m.unsolvable := rfl

theorem column_mem {m : minesweeper} {x y : Int} (hs : m.sized) (h : m.cfg.inb x y) :
    x.toNat < m.board.length ∧ y.toNat < (m.board.getD x.toNat []).length ∧
      m.board.getD x.toNat [] ∈ m.board := by
  obtain ⟨h1, h2, h3, h4⟩ := h
  have hx : x.toNat < m.board.length := by have := hs.1; omega
  have hmem : m.board.getD x.toNat [] ∈ m.board := by
    rw [List.getD_eq_getElem _ _ hx]
    exact List.getElem_mem _
  refine ⟨hx, ?_, hmem⟩
  have := hs.2 _ hmem
  omega

theorem sized_upd {m : minesweeper} {x y : Int} (hs : m.sized) (h : m.cfg.inb x y)
    (f : cell → cell) : (m.upd x y f).sized := by
  obtain ⟨hx, hy, hmem⟩ := column_mem hs h
  refine ⟨?_, ?_⟩
  · simpa [minesweeper.upd] using hs.1
  · intro col hcol
    simp only [minesweeper.upd] at hcol
    rcases List.mem_or_eq_of_mem_set hcol with hc | hc
    · exact hs.2 col hc
    · subst hc
      simpa using hs.2 _ hmem

theorem cell_at_upd_same {m : minesweeper} {x y : Int} (hs : m.sized) (h : m.cfg.inb x y)
    (f : cell → cell) : (m.upd x y f).cell_at x y = f (m.cell_at x y) := by
  obtain ⟨hx, hy, _⟩ := column_mem hs h
  have hy' : y.toNat < (m.board[x.toNat]).length := by
    simpa [List.getD_eq_getElem?_getD, hx] using hy
  simp [minesweeper.upd, minesweeper.cell_at, List.getD_eq_getElem?_getD, hx, hy']

theorem cell_at_upd_other {m : minesweeper} {x y a b : Int} (hx : 0 ≤ x) (hy : 0 ≤ y)
    (ha : 0 ≤ a) (hb : 0 ≤ b) (hne : (a, b) ≠ (x, y)) (f : cell → cell) :
    (m.upd x y f).cell_at a b = m.cell_at a b := by
  by_cases hax : a = x
  · subst hax
    have hby : y.toNat ≠ b.toNat := by
      intro hh
      apply hne
      have : b = y := by omega
      rw [this]
    by_cases hlt : a.toNat < m.board.length
    · simp [minesweeper.upd, minesweeper.cell_at, List.getD_eq_getElem?_getD, hlt,
        List.getElem?_set, hby]
    · have hnone : m.board[a.toNat]? = none := List.getElem?_eq_none (by omega)
      simp [minesweeper.upd, minesweeper.cell_at, List.getD_eq_getElem?_getD, hlt,
        List.getElem?_set, hnone]
  · have hxa : x.toNat ≠ a.toNat := by omega
    simp [minesweeper.upd, minesweeper.cell_at, List.getD_eq_getElem?_getD,
      List.getElem?_set, hxa]

theorem cell_at_upd {m : minesweeper} {x y a b : Int} (hs : m.sized) (h : m.cfg.inb x y)
    (hab : m.cfg.inb a b) (f : cell → cell) :
    (m.upd x y f).cell_at a b = if (a, b) = (x, y) then f (m.cell_at x y) else m.cell_at a b := by
  by_cases he : (a, b) = (x, y)
  · obtain ⟨rfl, rfl⟩ := Prod.mk.inj he
    simp [cell_at_upd_same hs h]
  · rw [if_neg he]
    exact cell_at_upd_other h.1 h.2.2.1 hab.1 hab.2.2.1 he f

theorem board_ext {m m' : minesweeper} (hs : m.sized) (hs' : m'.sized) (hc : m'.cfg = m.cfg)
    (h : ∀ x y, m.cfg.inb x y → m'.cell_at x y = m.cell_at x y) : m'.board = m.board := by
  have hlen : m'.board.length = m.board.length := by
    have h1 := hs.1
    have h2 := hs'.1
    rw [hc] at h2
    omega
  apply List.ext_getElem hlen
  intro i hi' hi
  have hci' : ((m'.board[i]).length : Int) = m.cfg.height := by
    rw [← hc]; exact hs'.2 _ (List.getElem_mem _)
  have hci : ((m.board[i]).length : Int) = m.cfg.height := hs.2 _ (List.getElem_mem _)
  apply List.ext_getElem (by omega)
  intro j hj' hj
  have hin : m.cfg.inb (i : Int) (j : Int) := by
    have := hs.1
    refine ⟨by omega, by omega, by omega, by omega⟩
  have := h i j hin
  simpa [minesweeper.cell_at, List.getD_eq_getElem?_getD, hi, hi', hj, hj'] using this

theorem mem_coords {c : config} {p : Int × Int} : p ∈ c.coords ↔ c.inb p.1 p.2 := by
  obtain ⟨a, b⟩ := p
  simp only [config.coords, List.mem_flatMap, List.mem_map, List.mem_range, Prod.mk.injEq,
    config.inb]
  constructor
  · rintro ⟨i, hi, j, hj, rfl, rfl⟩
    omega
  · rintro ⟨h1, h2, h3, h4⟩
    exact ⟨a.toNat, by omega, b.toNat, by omega, by omega, by omega⟩

theorem nodup_coords (c : config) : c.coords.Nodup := by
  unfold config.coords
  rw [List.nodup_flatMap]
  refine ⟨?_, ?_⟩
  · intro i _
    refine (List.nodup_range _).map ?_
    intro a b h
    simpa using h
  · have hnd : List.Pairwise (fun a b : Nat => a ≠ b) (List.range c.width.toNat) :=
      List.nodup_range _
    refine List.Pairwise.imp ?_ hnd
    intro a b hab
    simp only [Function.onFun, List.Disjoint, List.mem_map]
    rintro p ⟨j, _, rfl⟩ ⟨k, _, hk⟩
    simp at hk
    omega

theorem mem_neighbors {m : minesweeper} {x y : Int} {p : Int × Int} :
    p ∈ m.neighbors x y ↔
      m.cfg.inb x y ∧ m.cfg.inb p.1 p.2 ∧ p ≠ (x, y) ∧ |p.1 - x| ≤ 1 ∧ |p.2 - y| ≤ 1 := by
  obtain ⟨a, b⟩ := p
  unfold minesweeper.neighbors
  by_cases h : m.cfg.inb x y
  · rw [out_of_range_of_inb h]
    simp only [offsets, List.mem_flatMap, List.mem_filterMap, List.mem_cons,
      List.mem_singleton, Bool.false_eq_true, if_false, List.not_mem_nil, or_false]
    constructor
    · rintro ⟨dx, hdx, dy, hdy, hh⟩
      split at hh
      · cases hh
      · rename_i hz
        split at hh
        · cases hh
        · rename_i ho
          simp only [Option.some.injEq, Prod.mk.injEq] at hh
          obtain ⟨rfl, rfl⟩ := hh
          have hin := out_of_range_eq_false_iff.1 (by simpa using ho)
          refine ⟨h, hin, ?_, ?_, ?_⟩
          · intro he
            simp only [Prod.mk.injEq] at he
            apply hz
            constructor <;> omega
          · rw [abs_le]; omega
          · rw [abs_le]; omega
    · rintro ⟨_, hin, hne, h1, h2⟩
      rw [abs_le] at h1 h2
      refine ⟨a - x, by omega, b - y, by omega, ?_⟩
      have hz : ¬ (a - x = 0 ∧ b - y = 0) := by
        rintro ⟨e1, e2⟩
        apply hne
        simp only [Prod.mk.injEq]
        constructor <;> omega
      rw [if_neg hz]
      have e1 : a - x + x = a := by omega
      have e2 : b - y + y = b := by omega
      simp only [e1, e2, out_of_range_of_inb hin, Bool.false_eq_true, if_false]
  · rw [out_of_range_of_not_inb h]
    simp [h]

theorem inb_of_mem_neighbors {m : minesweeper} {x y : Int} {p : Int × Int}
    (h : p ∈ m.neighbors x y) : m.cfg.inb p.1 p.2 := (mem_neighbors.1 h).2.1

theorem neighbors_congr {m m' : minesweeper} (h : m'.cfg = m.cfg) (x y : Int) :
    m'.neighbors x y = m.neighbors x y := by
  simp [minesweeper.neighbors, h]

theorem select_ok (m : minesweeper) (p : cell → Bool) :
    ∀ ps : List (Int × Int), (∀ q ∈ ps, m.cfg.inb q.1 q.2) →
      m.select p ps = Except.ok (ps.filter fun q => p (m.cell_at q.1 q.2))
  | [], _ => rfl
  | (nx, ny) :: rest, h => by
    have h1 : m.cfg.inb nx ny := h (nx, ny) (List.mem_cons_self _ _)
    have h2 := select_ok m p rest (fun q hq => h q (List.mem_cons_of_mem _ hq))
    simp only [minesweeper.select, get_at_ok h1, h2, ok_bind, pure_eq_ok, List.filter_cons]

theorem select_neighbors (m : minesweeper) (p : cell → Bool) (x y : Int) :
    m.select p (m.neighbors x y) =
      Except.ok ((m.neighbors x y).filter fun q => p (m.cell_at q.1 q.2)) :=
  select_ok m p _ fun _ hq => inb_of_mem_neighbors hq

/-! ## Loops that assign to the cells of a list of coordinates -/

theorem upd_all_nil (m : minesweeper) (F : Int × Int → cell → cell) :
    m.upd_all F [] = m := rfl

theorem upd_all_cons (m : minesweeper) (F : Int × Int → cell → cell) (p : Int × Int)
    (ps : List (Int × Int)) :
    m.upd_all F (p :: ps) = (m.upd p.1 p.2 (F p)).upd_all F ps := rfl

theorem foldlM_modify_at (F : Int × Int → cell → cell) :
    ∀ (ps : List (Int × Int)) (m : minesweeper), (∀ p ∈ ps, m.cfg.inb p.1 p.2) →
      ps.foldlM (fun m p => m.modify_at p.1 p.2 (F p)) m = Except.ok (m.upd_all F ps)
  | [], _, _ => rfl
  | p :: ps, m, h => by
    have h1 : m.cfg.inb p.1 p.2 := h p (List.mem_cons_self _ _)
    rw [List.foldlM_cons, modify_at_ok h1, ok_bind, upd_all_cons]
    exact foldlM_modify_at F ps _ fun q hq => h q (List.mem_cons_of_mem _ hq)

theorem upd_all_cfg (F : Int × Int → cell → cell) :
    ∀ (ps : List (Int × Int)) (m : minesweeper), (m.upd_all F ps).cfg = m.cfg
  | [], _ => rfl
  | p :: ps, m => by rw [upd_all_cons, upd_all_cfg F ps]; rfl

theorem upd_all_state (F : Int × Int → cell → cell) :
    ∀ (ps : List (Int × Int)) (m : minesweeper), (m.upd_all F ps).state = m.state
  | [], _ => rfl
  | p :: ps, m => by rw [upd_all_cons, upd_all_state F ps]; rfl

theorem upd_all_unsolvable (F : Int × Int → cell → cell) :
    ∀ (ps : List (Int × Int)) (m : minesweeper), (m.upd_all F ps).unsolvable = m.unsolvable
  | [], _ => rfl
  | p :: ps, m => by rw [upd_all_cons, upd_all_unsolvable F ps]; rfl

theorem upd_all_sized (F : Int × Int → cell → cell) :
    ∀ (ps : List (Int × Int)) (m : minesweeper), m.sized → (∀ p ∈ ps, m.cfg.inb p.1 p.2) →
      (m.upd_all F ps).sized
  | [], _, hs, _ => hs
  | p :: ps, m, hs, h => by
    rw [upd_all_cons]
    exact upd_all_sized F ps _ (sized_upd hs (h p (List.mem_cons_self _ _)) _)
      fun q hq => h q (List.mem_cons_of_mem _ hq)

theorem upd_all_not_mem (F : Int × Int → cell → cell) (a b : Int) :
    ∀ (ps : List (Int × Int)) (m : minesweeper), m.sized → (∀ p ∈ ps, m.cfg.inb p.1 p.2) →
      m.cfg.inb a b → (a, b) ∉ ps → (m.upd_all F ps).cell_at a b = m.cell_at a b
  | [], _, _, _, _, _ => rfl
  | p :: ps, m, hs, h, hab, hn => by
    have hp : m.cfg.inb p.1 p.2 := h p (List.mem_cons_self _ _)
    rw [upd_all_cons,
      upd_all_not_mem F a b ps _ (sized_upd hs hp _) (fun q hq => h q (List.mem_cons_of_mem _ hq))
        hab (fun hm => hn (List.mem_cons_of_mem _ hm))]
    apply cell_at_upd_other hp.1 hp.2.2.1 hab.1 hab.2.2.1
    intro he
    exact hn (by rw [he]; exact List.mem_cons_self _ _)

theorem upd_all_mem (F : Int × Int → cell → cell) (a b : Int) :
    ∀ (ps : List (Int × Int)) (m : minesweeper), m.sized → (∀ p ∈ ps, m.cfg.inb p.1 p.2) →
      ps.Nodup → (a, b) ∈ ps → (m.upd_all F ps).cell_at a b = F (a, b) (m.cell_at a b)
  | [], _, _, _, _, hm => by cases hm
  | p :: ps, m, hs, h, hnd, hm => by
    have hp : m.cfg.inb p.1 p.2 := h p (List.mem_cons_self _ _)
    have hps : ∀ q ∈ ps, (m.upd p.1 p.2 (F p)).cfg.inb q.1 q.2 :=
      fun q hq => h q (List.mem_cons_of_mem _ hq)
    rw [List.nodup_cons] at hnd
    rw [upd_all_cons]
    rcases List.mem_cons.1 hm with he | hin
    · subst he
      rw [upd_all_not_mem F _ _ ps _ (sized_upd hs hp _) hps hp hnd.1]
      exact cell_at_upd_same hs hp _
    · rw [upd_all_mem F a b ps _ (sized_upd hs hp _) hps hnd.2 hin]
      congr 1
      apply cell_at_upd_other hp.1 hp.2.2.1 (h _ hm).1 (h _ hm).2.2.1
      intro he
      have he' : (a, b) = p := he
      exact hnd.1 (he' ▸ hin)

/-! ## The relation `evolves` -/

theorem evolves_refl {T : cell_state → cell_state → Prop} (hT : ∀ s, T s s)
    {m : minesweeper} (hs : m.sized) : evolves T m m :=
  ⟨rfl, hs, rfl, fun _ _ _ => rfl, fun _ _ _ => rfl, fun _ _ _ => hT _⟩

theorem evolves_trans {T : cell_state → cell_state → Prop}
    (hT : ∀ a b c, T a b → T b c → T a c) {m m' m'' : minesweeper}
    (h1 : evolves T m m') (h2 : evolves T m' m'') : evolves T m m'' where
  cfg := h2.cfg.trans h1.cfg
  sized := h2.sized
  unsolvable := h2.unsolvable.trans h1.unsolvable
  is_mine x y h := (h2.is_mine x y (h1.cfg ▸ h)).trans (h1.is_mine x y h)
  n_mines x y h := (h2.n_mines x y (h1.cfg ▸ h)).trans (h1.n_mines x y h)
  state x y h := hT _ _ _ (h1.state x y h) (h2.state x y (h1.cfg ▸ h))

theorem evolves_mono {T T' : cell_state → cell_state → Prop} (hT : ∀ a b, T a b → T' a b)
    {m m' : minesweeper} (h : evolves T m m') : evolves T' m m' :=
  ⟨h.cfg, h.sized, h.unsolvable, h.is_mine, h.n_mines, fun x y hi => hT _ _ (h.state x y hi)⟩

theorem evolves_game_state {T : cell_state → cell_state → Prop} {m m' : minesweeper}
    (h : evolves T m m') (g : game_state) : evolves T m { m' with state := g } :=
  ⟨h.cfg, h.sized, h.unsolvable, h.is_mine, h.n_mines, h.state⟩

theorem T_uncover_refl (s : cell_state) : T_uncover s s := Or.inl rfl

theorem T_uncover_trans (a b c : cell_state) (h1 : T_uncover a b) (h2 : T_uncover b c) :
    T_uncover a c := by
  unfold T_uncover at *
  rcases h1 with h1 | ⟨h1, h1'⟩ <;> rcases h2 with h2 | ⟨h2, h2'⟩ <;> subst_vars <;> simp_all

theorem T_open_refl (s : cell_state) : T_open s s := Or.inl rfl

theorem T_open_trans (a b c : cell_state) (h1 : T_open a b) (h2 : T_open b c) :
    T_open a c := by
  unfold T_open at *
  rcases h1 with h1 | h1 <;> rcases h2 with h2 | h2 <;> subst_vars <;> simp_all

theorem T_solve_refl (s : cell_state) : T_solve s s := fun h => h

theorem T_solve_trans (a b c : cell_state) (h1 : T_solve a b) (h2 : T_solve b c) :
    T_solve a c := fun h => h1 (h2 h)

theorem T_uncover_open (a b : cell_state) (h : T_uncover a b) : T_open a b := by
  rcases h with h | ⟨_, h⟩
  · exact Or.inl h
  · exact Or.inr h

theorem T_open_solve (a b : cell_state) (h : T_open a b) : T_solve a b := by
  intro hb
  rcases h with h | h
  · rw [← h]; exact hb
  · rw [h] at hb; cases hb

/-- Assigning `f c` to one cell, where `f` keeps `is_mine` and `n_mines`. -/
theorem evolves_upd {T : cell_state → cell_state → Prop} (hT : ∀ s, T s s) {m : minesweeper}
    {x y : Int} (hs : m.sized) (h : m.cfg.inb x y) (f : cell → cell)
    (h1 : (f (m.cell_at x y)).is_mine = (m.cell_at x y).is_mine)
    (h2 : (f (m.cell_at x y)).n_mines = (m.cell_at x y).n_mines)
    (h3 : T (m.cell_at x y).state (f (m.cell_at x y)).state) : evolves T m (m.upd x y f) where
  cfg := rfl
  sized := sized_upd hs h f
  unsolvable := rfl
  is_mine a b hab := by
    rw [cell_at_upd hs h hab]
    split
    · next he => obtain ⟨rfl, rfl⟩ := Prod.mk.inj he; exact h1
    · rfl
  n_mines a b hab := by
    rw [cell_at_upd hs h hab]
    split
    · next he => obtain ⟨rfl, rfl⟩ := Prod.mk.inj he; exact h2
    · rfl
  state a b hab := by
    rw [cell_at_upd hs h hab]
    split
    · next he => obtain ⟨rfl, rfl⟩ := Prod.mk.inj he; exact h3
    · exact hT _

/-! ## The number of hidden cells -/

theorem countP_lt_of_mem {α : Type} (p q : α → Bool) :
    ∀ (l : List α) (a : α), (∀ x ∈ l, p x = true → q x = true) → a ∈ l → q a = true →
      p a = false → l.countP p < l.countP q
  | [], _, _, hm, _, _ => by cases hm
  | b :: l, a, himp, hm, hq, hp => by
    have hle : l.countP p ≤ l.countP q :=
      List.countP_mono_left fun x hx => himp x (List.mem_cons_of_mem _ hx)
    rcases List.mem_cons.1 hm with he | hin
    · subst he
      rw [List.countP_cons_of_pos _ _ hq, List.countP_cons_of_neg _ _ (by simp [hp])]
      omega
    · have ih := countP_lt_of_mem p q l a (fun x hx => himp x (List.mem_cons_of_mem _ hx))
        hin hq hp
      by_cases hpb : p b = true
      · rw [List.countP_cons_of_pos _ _ hpb,
          List.countP_cons_of_pos _ _ (himp b (List.mem_cons_self _ _) hpb)]
        omega
      · rw [List.countP_cons_of_neg _ _ hpb]
        by_cases hqb : q b = true
        · rw [List.countP_cons_of_pos _ _ hqb]; omega
        · rw [List.countP_cons_of_neg _ _ hqb]; exact ih

theorem hidden_count_le {m m' : minesweeper} (h : evolves T_solve m m') :
    m'.hidden_count ≤ m.hidden_count := by
  unfold minesweeper.hidden_count
  rw [h.cfg]
  apply List.countP_mono_left
  intro p hp hh
  have hin := mem_coords.1 hp
  simp only [decide_eq_true_eq] at hh ⊢
  exact h.state p.1 p.2 hin hh

theorem hidden_count_lt {m m' : minesweeper} (h : evolves T_solve m m') {x y : Int}
    (hin : m.cfg.inb x y) (h1 : (m.cell_at x y).state = cell_state.hidden)
    (h2 : (m'.cell_at x y).state ≠ cell_state.hidden) : m'.hidden_count < m.hidden_count := by
  unfold minesweeper.hidden_count
  rw [h.cfg]
  apply countP_lt_of_mem _ _ _ (x, y)
  · intro p hp hh
    simp only [decide_eq_true_eq] at hh ⊢
    exact h.state p.1 p.2 (mem_coords.1 hp) hh
  · exact mem_coords.2 hin
  · simpa using h1
  · simpa using h2

theorem length_coords (c : config) : c.coords.length = c.width.toNat * c.height.toNat := by
  have h : (List.length ∘ fun (x : Nat) =>
      List.map (fun (y : Nat) => ((x : Int), (y : Int))) (List.range c.height.toNat)) =
      fun _ => c.height.toNat := by
    funext x
    simp
  simp [config.coords, List.length_flatMap, h]

theorem hidden_count_bound (m : minesweeper) :
    m.hidden_count ≤ m.cfg.width.toNat * m.cfg.height.toNat := by
  rw [← length_coords]
  exact List.countP_le_length _

/-! ## The queue loop of `reveal` -/

theorem neighbors_length_le (m : minesweeper) (x y : Int) : (m.neighbors x y).length ≤ 8 := by
  unfold minesweeper.neighbors
  split
  · simp
  · simp only [offsets, List.flatMap_cons, List.flatMap_nil, List.append_nil, List.length_append]
    have key : ∀ f g h : Int → Option (Int × Int), g 0 = none →
        (List.filterMap f [-1, 0, 1]).length + ((List.filterMap g [-1, 0, 1]).length +
          (List.filterMap h [-1, 0, 1]).length) ≤ 8 := by
      intro f g h hg
      have e : List.filterMap g [-1, 0, 1] = List.filterMap g [-1, 1] := by
        simp [List.filterMap_cons, hg]
      have e1 : (List.filterMap f [-1, 0, 1]).length ≤ 3 :=
        (List.length_filterMap_le _ _).trans (by simp)
      have e2 : (List.filterMap g [-1, 1]).length ≤ 2 :=
        (List.length_filterMap_le _ _).trans (by simp)
      have e3 : (List.filterMap h [-1, 0, 1]).length ≤ 3 :=
        (List.length_filterMap_le _ _).trans (by simp)
      rw [e]
      omega
    exact key _ _ _ (by simp)

/-- The assignment `at(cx, cy).state = cell_state::revealed`. -/
theorem evolves_reveal_cell {m : minesweeper} {x y : Int} (hs : m.sized) (h : m.cfg.inb x y)
    (hh : (m.cell_at x y).state = cell_state.hidden) :
    evolves T_uncover m (m.upd x y fun c => { c with state := cell_state.revealed }) :=
  evolves_upd T_uncover_refl hs h _ rfl rfl (Or.inr ⟨hh, rfl⟩)

theorem hidden_count_reveal_cell {m : minesweeper} {x y : Int} (hs : m.sized)
    (h : m.cfg.inb x y) (hh : (m.cell_at x y).state = cell_state.hidden) :
    (m.upd x y fun c => { c with state := cell_state.revealed }).hidden_count
      < m.hidden_count := by
  apply hidden_count_lt (evolves_mono (fun a b hab => T_open_solve a b (T_uncover_open a b hab))
    (evolves_reveal_cell hs h hh)) h hh
  rw [cell_at_upd_same hs h]
  simp

/-- Rule for the queue loop of `reveal`: a property of the queue and the engine that
holds at the start and is kept by each of the three ways through the loop body holds
at the end, and the loop ends within the budget. -/
theorem reveal_loop_rule (I : List (Int × Int) → minesweeper → Prop)
    (hskip : ∀ p q m, m.sized → (∀ r ∈ p :: q, m.cfg.inb r.1 r.2) → I (p :: q) m →
      (m.cell_at p.1 p.2).state ≠ cell_state.hidden → I q m)
    (hstop : ∀ p q m, m.sized → (∀ r ∈ p :: q, m.cfg.inb r.1 r.2) → I (p :: q) m →
      (m.cell_at p.1 p.2).state = cell_state.hidden → (m.cell_at p.1 p.2).n_mines ≠ 0 →
      I q (m.upd p.1 p.2 fun c => { c with state := cell_state.revealed }))
    (hgrow : ∀ p q m, m.sized → (∀ r ∈ p :: q, m.cfg.inb r.1 r.2) → I (p :: q) m →
      (m.cell_at p.1 p.2).state = cell_state.hidden → (m.cell_at p.1 p.2).n_mines = 0 →
      I (q ++ (m.neighbors p.1 p.2).filter fun r =>
          decide (((m.upd p.1 p.2 fun c => { c with state := cell_state.revealed }).cell_at
            r.1 r.2).state = cell_state.hidden))
        (m.upd p.1 p.2 fun c => { c with state := cell_state.revealed })) :
    ∀ (fuel : Nat) (q : List (Int × Int)) (m : minesweeper), m.sized →
      (∀ r ∈ q, m.cfg.inb r.1 r.2) → q.length + 9 * m.hidden_count ≤ fuel → I q m →
      ∃ m', reveal_loop fuel q m = Except.ok m' ∧ I [] m' := by
  intro fuel
  induction fuel with
  | zero =>
    intro q m _ _ hf hI
    have : q = [] := List.length_eq_zero.1 (by omega)
    subst this
    exact ⟨m, rfl, hI⟩
  | succ fuel ih =>
    intro q m hs hq hf hI
    match q, hq, hf, hI with
    | [], _, _, hI => exact ⟨m, rfl, hI⟩
    | (cx, cy) :: q, hq, hf, hI =>
      have hp : m.cfg.inb cx cy := hq (cx, cy) (List.mem_cons_self _ _)
      have hq' : ∀ r ∈ q, m.cfg.inb r.1 r.2 := fun r hr => hq r (List.mem_cons_of_mem _ hr)
      simp only [List.length_cons] at hf
      by_cases hh : (m.cell_at cx cy).state = cell_state.hidden
      · have hs1 := sized_upd hs hp fun c => { c with state := cell_state.revealed }
        have hlt := hidden_count_reveal_cell hs hp hh
        have hn : ((m.upd cx cy fun c => { c with state := cell_state.revealed }).cell_at
            cx cy).n_mines = (m.cell_at cx cy).n_mines := by
          rw [cell_at_upd_same hs hp]
        by_cases hz : (m.cell_at cx cy).n_mines = 0
        · have hI' := hgrow (cx, cy) q m hs hq hI hh hz
          dsimp only at hI'
          have hsel := select_neighbors
            (m.upd cx cy fun c => { c with state := cell_state.revealed })
            (fun c => decide (c.state = cell_state.hidden)) cx cy
          rw [@neighbors_congr m (m.upd cx cy _) rfl] at hsel
          have hlen := neighbors_length_le m cx cy
          have hfl := List.length_filter_le (fun r : Int × Int =>
            decide (((m.upd cx cy fun c => { c with state := cell_state.revealed }).cell_at
              r.1 r.2).state = cell_state.hidden)) (m.neighbors cx cy)
          obtain ⟨m', hm', hI''⟩ := ih _ _ hs1
            (by
              intro r hr
              rcases List.mem_append.1 hr with hr | hr
              · exact hq' r hr
              · exact inb_of_mem_neighbors (List.mem_filter.1 hr).1)
            (by rw [List.length_append]; omega) hI'
          refine ⟨m', ?_, hI''⟩
          rw [← hm']
          simp only [reveal_loop, get_at_ok hp, ok_bind, hh, ne_eq, not_true_eq_false,
            if_false, modify_at_ok hp]
          rw [get_at_ok (m := m.upd cx cy _) hp, ok_bind, hn]
          simp only [hz, ne_eq, not_true_eq_false, if_false]
          rw [@neighbors_congr m (m.upd cx cy _) rfl, hsel, ok_bind]
        · have hI' := hstop (cx, cy) q m hs hq hI hh hz
          obtain ⟨m', hm', hI''⟩ := ih _ _ hs1 hq' (by omega) hI'
          refine ⟨m', ?_, hI''⟩
          rw [← hm']
          simp only [reveal_loop, get_at_ok hp, ok_bind, hh, ne_eq, not_true_eq_false,
            if_false, modify_at_ok hp]
          rw [get_at_ok (m := m.upd cx cy _) hp, ok_bind, hn]
          simp only [hz, ne_eq, not_false_eq_true, if_true]
      · have hI' := hskip (cx, cy) q m hs hq hI hh
        obtain ⟨m', hm', hI''⟩ := ih _ _ hs hq' (by omega) hI'
        refine ⟨m', ?_, hI''⟩
        rw [← hm']
        simp only [reveal_loop, get_at_ok hp, ok_bind, ne_eq, hh, not_false_eq_true, if_true]

/-! ## The method `reveal` -/

theorem cell_at_set_state (m : minesweeper) (g : game_state) (x y : Int) :
    ({ m with state := g } : minesweeper).cell_at x y = m.cell_at x y := rfl

theorem cell_at_set_unsolvable (m : minesweeper) (u : Bool) (x y : Int) :
    ({ m with unsolvable := u } : minesweeper).cell_at x y = m.cell_at x y := rfl

theorem reveal_fuel_enough (m : minesweeper) (x y : Int) :
    [(x, y)].length + 9 * m.hidden_count ≤ m.reveal_fuel := by
  have := hidden_count_bound m
  simp only [List.length_singleton, minesweeper.reveal_fuel]
  omega

/-- The queue loop ends, changes cells from hidden to revealed only, keeps the game
state, and leaves no cell of the initial queue hidden. -/
theorem reveal_loop_uncover (fuel : Nat) (q : List (Int × Int)) (m : minesweeper)
    (hs : m.sized) (hq : ∀ r ∈ q, m.cfg.inb r.1 r.2) (hf : q.length + 9 * m.hidden_count ≤ fuel) :
    ∃ m', reveal_loop fuel q m = Except.ok m' ∧ evolves T_uncover m m' ∧ m'.state = m.state ∧
      ∀ r ∈ q, (m'.cell_at r.1 r.2).state ≠ cell_state.hidden := by
  obtain ⟨m', h1, h2, h3, h4⟩ := reveal_loop_rule
    (fun q' m' => evolves T_uncover m m' ∧ m'.state = m.state ∧
      ∀ r ∈ q, r ∈ q' ∨ (m'.cell_at r.1 r.2).state ≠ cell_state.hidden)
    (by
      rintro p q' m1 hs1 hq1 ⟨e, st, hd⟩ hh
      refine ⟨e, st, fun r hr => ?_⟩
      rcases hd r hr with h | h
      · rcases List.mem_cons.1 h with h | h
        · right; rw [h]; exact hh
        · left; exact h
      · right; exact h)
    (by
      rintro p q' m1 hs1 hq1 ⟨e, st, hd⟩ hh hz
      have hp := hq1 p (List.mem_cons_self _ _)
      have e1 := evolves_reveal_cell hs1 hp hh
      refine ⟨evolves_trans T_uncover_trans e e1, st, fun r hr => ?_⟩
      rcases hd r hr with h | h
      · rcases List.mem_cons.1 h with h | h
        · right; rw [h, cell_at_upd_same hs1 hp]; simp
        · left; exact h
      · right
        intro hc
        exact h (evolves_mono (fun a b hab => T_open_solve a b (T_uncover_open a b hab)) e1
          |>.state r.1 r.2 (e.cfg ▸ hq r hr) hc))
    (by
      rintro p q' m1 hs1 hq1 ⟨e, st, hd⟩ hh hz
      have hp := hq1 p (List.mem_cons_self _ _)
      have e1 := evolves_reveal_cell hs1 hp hh
      refine ⟨evolves_trans T_uncover_trans e e1, st, fun r hr => ?_⟩
      rcases hd r hr with h | h
      · rcases List.mem_cons.1 h with h | h
        · right; rw [h, cell_at_upd_same hs1 hp]; simp
        · left; exact List.mem_append_left _ h
      · right
        intro hc
        exact h (evolves_mono (fun a b hab => T_open_solve a b (T_uncover_open a b hab)) e1
          |>.state r.1 r.2 (e.cfg ▸ hq r hr) hc))
    fuel q m hs hq hf ⟨evolves_refl T_uncover_refl hs, rfl, fun r hr => Or.inl hr⟩
  refine ⟨m', h1, h2, h3, fun r hr => ?_⟩
  rcases h4 r hr with h | h
  · cases h
  · exact h

/-- On a cell that is not a mine, `reveal` returns, changes cells from hidden to
revealed only, keeps the game state, and leaves the cell not hidden. -/
theorem reveal_safe {m : minesweeper} {x y : Int} (hs : m.sized)
    (hnm : (m.cell_at x y).is_mine = false) :
    ∃ m', m.reveal x y = Except.ok m' ∧ evolves T_uncover m m' ∧ m'.state = m.state ∧
      (m.cfg.inb x y → (m'.cell_at x y).state ≠ cell_state.hidden) := by
  by_cases hin : m.cfg.inb x y
  · obtain ⟨m', h1, h2, h3, h4⟩ := reveal_loop_uncover m.reveal_fuel [(x, y)] m hs
      (by simpa using hin) (reveal_fuel_enough m x y)
    refine ⟨m', ?_, h2, h3, fun _ => h4 (x, y) (List.mem_singleton_self _)⟩
    simp only [minesweeper.reveal, out_of_range_of_inb hin, get_at_ok hin, hnm, ok_bind,
      Bool.false_eq_true, if_false]
    exact h1
  · refine ⟨m, ?_, evolves_refl T_uncover_refl hs, rfl, fun h => absurd h hin⟩
    simp [minesweeper.reveal, out_of_range_of_not_inb hin]

/-- On a mine, `reveal` marks the cell revealed and the game lost. -/
theorem reveal_mine {m : minesweeper} {x y : Int} (hin : m.cfg.inb x y)
    (hm : (m.cell_at x y).is_mine = true) :
    m.reveal x y = Except.ok
      { m.upd x y fun c => { c with state := cell_state.revealed } with
        state := game_state.lost } := by
  simp [minesweeper.reveal, out_of_range_of_inb hin, get_at_ok hin, hm, modify_at_ok hin]

/-- The method `reveal` returns on every board of the configured size; it keeps mines
and counts, a cell keeps its state or becomes revealed, and a cell inside the board
that it is called on is not hidden afterwards. -/
theorem reveal_total {m : minesweeper} (hs : m.sized) (x y : Int) :
    ∃ m', m.reveal x y = Except.ok m' ∧ evolves T_open m m' ∧
      (m'.state = m.state ∨ m'.state = game_state.lost) ∧
      (m.cfg.inb x y → (m'.cell_at x y).state ≠ cell_state.hidden) := by
  by_cases hm : (m.cell_at x y).is_mine = true
  · by_cases hin : m.cfg.inb x y
    · refine ⟨_, reveal_mine hin hm, ?_, Or.inr rfl, fun _ => ?_⟩
      · exact evolves_game_state
          (evolves_upd T_open_refl hs hin _ rfl rfl (Or.inr rfl)) _
      · rw [cell_at_set_state, cell_at_upd_same hs hin]
        simp
    · refine ⟨m, ?_, evolves_refl T_open_refl hs, Or.inl rfl, fun h => absurd h hin⟩
      simp [minesweeper.reveal, out_of_range_of_not_inb hin]
  · obtain ⟨m', h1, h2, h3, h4⟩ := reveal_safe (x := x) (y := y) hs (by simpa using hm)
    exact ⟨m', h1, evolves_mono T_uncover_open h2, Or.inl h3, h4⟩

/-! ## The flood fill of `reveal` -/

theorem uncover_hidden_of_hidden {m m' : minesweeper} (e : evolves T_uncover m m') {a b : Int}
    (h : m.cfg.inb a b) (hh : (m'.cell_at a b).state = cell_state.hidden) :
    (m.cell_at a b).state = cell_state.hidden := by
  rcases e.state a b h with h1 | ⟨_, h1⟩
  · rw [← h1]; exact hh
  · rw [h1] at hh; cases hh

theorem uncover_cases {m m' : minesweeper} (e : evolves T_uncover m m') {a b : Int}
    (h : m.cfg.inb a b) (hh : (m.cell_at a b).state = cell_state.hidden) :
    (m'.cell_at a b).state = cell_state.hidden ∨ (m'.cell_at a b).state = cell_state.revealed := by
  rcases e.state a b h with h1 | ⟨_, h1⟩
  · left; rw [h1]; exact hh
  · right; exact h1

theorem walk_head {m : minesweeper} :
    ∀ {l : List (Int × Int)} {a c : Int × Int}, m.walk a l c →
      m.cfg.inb a.1 a.2 ∧ (m.cell_at a.1 a.2).state = cell_state.hidden
  | [], _, _, h => h.2
  | _ :: _, _, _, h => ⟨h.1, h.2.1⟩

theorem mem_neighbors_of_adjacent {m : minesweeper} {a b : Int × Int}
    (ha : m.cfg.inb a.1 a.2) (hb : m.cfg.inb b.1 b.2) (h : adjacent a b) :
    b ∈ m.neighbors a.1 a.2 := by
  rw [mem_neighbors]
  obtain ⟨h1, h2, h3⟩ := h
  refine ⟨ha, hb, fun he => h1 he.symm, ?_, ?_⟩
  · rw [abs_sub_comm]; exact h2
  · rw [abs_sub_comm]; exact h3

theorem adjacent_of_mem_neighbors {m : minesweeper} {a b : Int × Int}
    (h : b ∈ m.neighbors a.1 a.2) : adjacent a b := by
  obtain ⟨_, _, h1, h2, h3⟩ := mem_neighbors.1 h
  refine ⟨fun he => h1 he.symm, ?_, ?_⟩
  · rw [abs_sub_comm]; exact h2
  · rw [abs_sub_comm]; exact h3

theorem reach_of_walk {m : minesweeper} {s : Int × Int} :
    ∀ (l : List (Int × Int)) (a c : Int × Int), m.walk a l c → m.reach s a → m.reach s c
  | [], _, _, h, hr => h.1 ▸ hr
  | b :: l, a, c, h, hr => by
    obtain ⟨ha, _, hz, hadj, hw⟩ := h
    obtain ⟨hb, hbh⟩ := walk_head hw
    exact reach_of_walk l b c hw (hr.step hz (mem_neighbors_of_adjacent ha hb hadj) hbh)

theorem walk_snoc {m : minesweeper} {c n : Int × Int} (hz : (m.cell_at c.1 c.2).n_mines = 0)
    (hadj : adjacent c n) (hn : m.cfg.inb n.1 n.2)
    (hh : (m.cell_at n.1 n.2).state = cell_state.hidden) :
    ∀ (l : List (Int × Int)) (a : Int × Int), m.walk a l c → m.walk a (l ++ [n]) n
  | [], a, h => by
    obtain ⟨rfl, ha, hah⟩ := h
    exact ⟨ha, hah, hz, hadj, rfl, hn, hh⟩
  | b :: l, a, h => by
    obtain ⟨ha, hah, haz, hab, hw⟩ := h
    exact ⟨ha, hah, haz, hab, walk_snoc hz hadj hn hh l b hw⟩

theorem walk_of_reach {m : minesweeper} {s : Int × Int} (hs : m.cfg.inb s.1 s.2)
    (hh : (m.cell_at s.1 s.2).state = cell_state.hidden) {c : Int × Int} (h : m.reach s c) :
    ∃ l, m.walk s l c := by
  induction h with
  | start => exact ⟨[], rfl, hs, hh⟩
  | step _ hz hn hnh ih =>
    obtain ⟨l, hl⟩ := ih
    exact ⟨_, walk_snoc hz (adjacent_of_mem_neighbors hn) (inb_of_mem_neighbors hn) hnh l s hl⟩

/-- The queue loop started on a hidden cell reveals the cells reached from it, and
nothing else. -/
theorem reveal_loop_reach {m : minesweeper} {x y : Int} (hs : m.sized) (hin : m.cfg.inb x y)
    (hh : (m.cell_at x y).state = cell_state.hidden) :
    ∃ m', reveal_loop m.reveal_fuel [(x, y)] m = Except.ok m' ∧ evolves T_uncover m m' ∧
      m'.state = m.state ∧
      ∀ a b, m.cfg.inb a b → (m.cell_at a b).state = cell_state.hidden →
        ((m'.cell_at a b).state = cell_state.revealed ↔ m.reach (x, y) (a, b)) := by
  obtain ⟨m', h1, he, hst, hb, hc, hd, hcl⟩ := reveal_loop_rule
    (fun q m' => evolves T_uncover m m' ∧ m'.state = m.state ∧
      (∀ p ∈ q, m.reach (x, y) p) ∧
      (∀ a b, m.cfg.inb a b → (m.cell_at a b).state = cell_state.hidden →
        (m'.cell_at a b).state = cell_state.revealed → m.reach (x, y) (a, b)) ∧
      ((x, y) ∈ q ∨ (m'.cell_at x y).state = cell_state.revealed) ∧
      (∀ c : Int × Int, m.cfg.inb c.1 c.2 → (m.cell_at c.1 c.2).state = cell_state.hidden →
        (m'.cell_at c.1 c.2).state = cell_state.revealed →
        (m.cell_at c.1 c.2).n_mines = 0 → ∀ n ∈ m.neighbors c.1 c.2,
        (m.cell_at n.1 n.2).state = cell_state.hidden →
        n ∈ q ∨ (m'.cell_at n.1 n.2).state = cell_state.revealed))
    (by
      rintro p q m1 hs1 hq1 ⟨e, st, hb, hc, hd, hcl⟩ hnh
      have hp : m.cfg.inb p.1 p.2 := e.cfg ▸ hq1 p (List.mem_cons_self _ _)
      have hpr : m.reach (x, y) p := hb p (List.mem_cons_self _ _)
      have hprev : (m.cell_at p.1 p.2).state = cell_state.hidden → 
          (m1.cell_at p.1 p.2).state = cell_state.revealed := fun h0 =>
        (uncover_cases e hp h0).resolve_left hnh
      have hp0 : m.reach (x, y) p → (m.cell_at p.1 p.2).state = cell_state.hidden := by
        intro hr
        cases hr with
        | start => exact hh
        | step _ _ _ h => exact h
      refine ⟨e, st, fun r hr => hb r (List.mem_cons_of_mem _ hr), hc, ?_, ?_⟩
      · rcases hd with h | h
        · rcases List.mem_cons.1 h with h | h
          · right; rw [← h] at hprev; exact hprev hh
          · left; exact h
        · right; exact h
      · intro c hcin hc0 hcr hcz n hn hnh0
        rcases hcl c hcin hc0 hcr hcz n hn hnh0 with h | h
        · rcases List.mem_cons.1 h with h | h
          · right; rw [h]; exact hprev (hp0 hpr)
          · left; exact h
        · right; exact h)
    (by
      rintro p q m1 hs1 hq1 ⟨e, st, hb, hc, hd, hcl⟩ hph hnz
      have hp1 : m1.cfg.inb p.1 p.2 := hq1 p (List.mem_cons_self _ _)
      have hp : m.cfg.inb p.1 p.2 := e.cfg ▸ hp1
      have hpr : m.reach (x, y) p := hb p (List.mem_cons_self _ _)
      have e1 := evolves_reveal_cell hs1 hp1 hph
      have hnew : ∀ a b, m.cfg.inb a b →
          ((m1.upd p.1 p.2 fun c => { c with state := cell_state.revealed }).cell_at a b).state
            = cell_state.revealed →
          (a, b) = p ∨ (m1.cell_at a b).state = cell_state.revealed := by
        intro a b hab hr
        rw [cell_at_upd hs1 hp1 (e.cfg ▸ hab)] at hr
        split at hr
        · next he => left; exact he
        · right; exact hr
      have hkeep : ∀ a b, m.cfg.inb a b → (m1.cell_at a b).state = cell_state.revealed →
          ((m1.upd p.1 p.2 fun c => { c with state := cell_state.revealed }).cell_at a b).state
            = cell_state.revealed := by
        intro a b hab hr
        rcases e1.state a b (e.cfg ▸ hab) with h | ⟨h, _⟩
        · rw [h]; exact hr
        · rw [h] at hr; cases hr
      have hpz : (m.cell_at p.1 p.2).n_mines ≠ 0 := by rw [← e.n_mines _ _ hp]; exact hnz
      refine ⟨evolves_trans T_uncover_trans e e1, st,
        fun r hr => hb r (List.mem_cons_of_mem _ hr), ?_, ?_, ?_⟩
      · intro a b hab h0 hr
        rcases hnew a b hab hr with h | h
        · rw [h]; exact hpr
        · exact hc a b hab h0 h
      · rcases hd with h | h
        · rcases List.mem_cons.1 h with h | h
          · right; rw [show x = p.1 from congrArg Prod.fst h, show y = p.2 from congrArg Prod.snd h,
              cell_at_upd_same hs1 hp1]
          · left; exact h
        · right; exact hkeep x y hin h
      · intro c hcin hc0 hcr hcz n hn hnh0
        have hnin := inb_of_mem_neighbors hn
        rcases hnew c.1 c.2 hcin hcr with h | h
        · exact absurd (by rw [← h]; exact hcz) hpz
        · rcases hcl c hcin hc0 h hcz n hn hnh0 with h | h
          · rcases List.mem_cons.1 h with h | h
            · right; rw [h, cell_at_upd_same hs1 hp1]
            · left; exact h
          · right; exact hkeep n.1 n.2 hnin h)
    (by
      rintro p q m1 hs1 hq1 ⟨e, st, hb, hc, hd, hcl⟩ hph hz
      have hp1 : m1.cfg.inb p.1 p.2 := hq1 p (List.mem_cons_self _ _)
      have hp : m.cfg.inb p.1 p.2 := e.cfg ▸ hp1
      have hpr : m.reach (x, y) p := hb p (List.mem_cons_self _ _)
      have e1 := evolves_reveal_cell hs1 hp1 hph
      have e2 := evolves_trans T_uncover_trans e e1
      have hnew : ∀ a b, m.cfg.inb a b →
          ((m1.upd p.1 p.2 fun c => { c with state := cell_state.revealed }).cell_at a b).state
            = cell_state.revealed →
          (a, b) = p ∨ (m1.cell_at a b).state = cell_state.revealed := by
        intro a b hab hr
        rw [cell_at_upd hs1 hp1 (e.cfg ▸ hab)] at hr
        split at hr
        · next he => left; exact he
        · right; exact hr
      have hkeep : ∀ a b, m.cfg.inb a b → (m1.cell_at a b).state = cell_state.revealed →
          ((m1.upd p.1 p.2 fun c => { c with state := cell_state.revealed }).cell_at a b).state
            = cell_state.revealed := by
        intro a b hab hr
        rcases e1.state a b (e.cfg ▸ hab) with h | ⟨h, _⟩
        · rw [h]; exact hr
        · rw [h] at hr; cases hr
      have hpz : (m.cell_at p.1 p.2).n_mines = 0 := by rw [← e.n_mines _ _ hp]; exact hz
      have hnb : m1.neighbors p.1 p.2 = m.neighbors p.1 p.2 := neighbors_congr e.cfg _ _
      refine ⟨e2, st, ?_, ?_, ?_, ?_⟩
      · intro r hr
        rcases List.mem_append.1 hr with h | h
        · exact hb r (List.mem_cons_of_mem _ h)
        · obtain ⟨h1, h2⟩ := List.mem_filter.1 h
          rw [hnb] at h1
          have hrin := inb_of_mem_neighbors h1
          exact hpr.step hpz h1 (uncover_hidden_of_hidden e2 hrin (by simpa using h2))
      · intro a b hab h0 hr
        rcases hnew a b hab hr with h | h
        · rw [h]; exact hpr
        · exact hc a b hab h0 h
      · rcases hd with h | h
        · rcases List.mem_cons.1 h with h | h
          · right; rw [show x = p.1 from congrArg Prod.fst h, show y = p.2 from congrArg Prod.snd h,
              cell_at_upd_same hs1 hp1]
          · left; exact List.mem_append_left _ h
        · right; exact hkeep x y hin h
      · intro c hcin hc0 hcr hcz n hn hnh0
        have hnin := inb_of_mem_neighbors hn
        rcases hnew c.1 c.2 hcin hcr with h | h
        · have hc' : c = p := h
          subst hc'
          rcases uncover_cases e2 hnin hnh0 with h' | h'
          · left
            apply List.mem_append_right
            rw [List.mem_filter, hnb]
            exact ⟨hn, by simpa using h'⟩
          · right; exact h'
        · rcases hcl c hcin hc0 h hcz n hn hnh0 with h | h
          · rcases List.mem_cons.1 h with h | h
            · right; rw [h, cell_at_upd_same hs1 hp1]
            · left; exact List.mem_append_left _ h
          · right; exact hkeep n.1 n.2 hnin h)
    m.reveal_fuel [(x, y)] m hs (by simpa using hin) (reveal_fuel_enough m x y)
    (by
      refine ⟨evolves_refl T_uncover_refl hs, rfl, ?_, ?_, Or.inl (List.mem_singleton_self _), ?_⟩
      · intro p hp
        rw [List.mem_singleton.1 hp]
        exact minesweeper.reach.start
      · intro a b _ h0 hr
        rw [h0] at hr
        cases hr
      · intro c _ h0 hr
        rw [h0] at hr
        cases hr)
  have hsr : (m'.cell_at x y).state = cell_state.revealed := by
    rcases hd with h | h
    · cases h
    · exact h
  have hall : ∀ c : Int × Int, m.reach (x, y) c →
      m.cfg.inb c.1 c.2 ∧ (m.cell_at c.1 c.2).state = cell_state.hidden ∧
        (m'.cell_at c.1 c.2).state = cell_state.revealed := by
    intro c hr
    induction hr with
    | start => exact ⟨hin, hh, hsr⟩
    | step _ hz hn hnh ih =>
      obtain ⟨i1, i2, i3⟩ := ih
      refine ⟨inb_of_mem_neighbors hn, hnh, ?_⟩
      rcases hcl _ i1 i2 i3 hz _ hn hnh with h | h
      · cases h
      · exact h
  exact ⟨m', h1, he, hst, fun a b hab h0 => ⟨hc a b hab h0, fun hr => (hall _ hr).2.2⟩⟩

/-! ## The deduction loop of `logically_solvable` -/

theorem foldlM_rule {σ α : Type} (f : σ → α → Except exn σ) (I : σ → Prop) :
    ∀ (l : List α) (s : σ), I s →
      (∀ s a, a ∈ l → I s → ∃ s', f s a = Except.ok s' ∧ I s') →
      ∃ s', l.foldlM f s = Except.ok s' ∧ I s'
  | [], s, h, _ => ⟨s, rfl, h⟩
  | a :: l, s, h, hf => by
    obtain ⟨s1, h1, h2⟩ := hf s a (List.mem_cons_self _ _) h
    obtain ⟨s', h3, h4⟩ := foldlM_rule f I l s1 h2
      fun s b hb hi => hf s b (List.mem_cons_of_mem _ hb) hi
    exact ⟨s', by rw [List.foldlM_cons, h1, ok_bind, h3], h4⟩

/-- A loop over a list of coordinates whose body takes its cell out of the hidden
state, and makes no cell hidden, leaves no cell of the list hidden. -/
theorem foldlM_cover (f : minesweeper → Int × Int → Except exn minesweeper)
    (hf : ∀ m p, m.sized → m.cfg.inb p.1 p.2 → ∃ m', f m p = Except.ok m' ∧
      evolves T_solve m m' ∧ (m'.cell_at p.1 p.2).state ≠ cell_state.hidden) :
    ∀ (ps : List (Int × Int)) (m : minesweeper), m.sized → (∀ p ∈ ps, m.cfg.inb p.1 p.2) →
      ∃ m', ps.foldlM f m = Except.ok m' ∧ evolves T_solve m m' ∧
        ∀ p ∈ ps, (m'.cell_at p.1 p.2).state ≠ cell_state.hidden
  | [], m, hs, _ => ⟨m, rfl, evolves_refl T_solve_refl hs, fun _ h => by cases h⟩
  | p :: ps, m, hs, h => by
    have hp := h p (List.mem_cons_self _ _)
    obtain ⟨m1, h1, e1, c1⟩ := hf m p hs hp
    obtain ⟨m', h2, e2, c2⟩ := foldlM_cover f hf ps m1 e1.sized
      fun q hq => e1.cfg ▸ h q (List.mem_cons_of_mem _ hq)
    refine ⟨m', by rw [List.foldlM_cons, h1, ok_bind, h2], evolves_trans T_solve_trans e1 e2, ?_⟩
    intro q hq
    rcases List.mem_cons.1 hq with rfl | hq
    · exact fun hc => c1 (e2.state _ _ (e1.cfg ▸ hp) hc)
    · exact c2 q hq

theorem reveal_all_total {m : minesweeper} (hs : m.sized) (ps : List (Int × Int))
    (h : ∀ p ∈ ps, m.cfg.inb p.1 p.2) :
    ∃ m', m.reveal_all ps = Except.ok m' ∧ evolves T_solve m m' ∧
      ∀ p ∈ ps, (m'.cell_at p.1 p.2).state ≠ cell_state.hidden :=
  foldlM_cover _
    (fun m p hs hp => by
      obtain ⟨m', h1, h2, _, h4⟩ := reveal_total hs p.1 p.2
      exact ⟨m', h1, evolves_mono T_open_solve h2, h4 hp⟩)
    ps m hs h

theorem flag_all_total {m : minesweeper} (hs : m.sized) (ps : List (Int × Int))
    (h : ∀ p ∈ ps, m.cfg.inb p.1 p.2) :
    ∃ m', m.flag_all ps = Except.ok m' ∧ evolves T_solve m m' ∧
      ∀ p ∈ ps, (m'.cell_at p.1 p.2).state ≠ cell_state.hidden :=
  foldlM_cover _
    (fun m p hs hp => by
      refine ⟨_, modify_at_ok hp _, ?_, ?_⟩
      · exact evolves_upd T_solve_refl hs hp _ rfl rfl (fun hc => by cases hc)
      · rw [cell_at_upd_same hs hp]; simp)
    ps m hs h

/-- The scan of one cell returns, makes no cell hidden, and sets `progress` only when
it takes a cell out of the hidden state. -/
theorem deduce_cell_total {m : minesweeper} (hs : m.sized) (progress : Bool) {x y : Int}
    (hin : m.cfg.inb x y) :
    ∃ m' p', m.deduce_cell progress x y = Except.ok (m', p') ∧ evolves T_solve m m' ∧
      (p' = progress ∨ (p' = true ∧ m'.hidden_count < m.hidden_count)) := by
  unfold minesweeper.deduce_cell
  simp only [get_at_ok hin, ok_bind, select_neighbors]
  by_cases hh : (m.cell_at x y).state = cell_state.hidden
  swap
  · exact ⟨m, progress, by simp [hh], evolves_refl T_solve_refl hs, Or.inl rfl⟩
  simp only [hh, ne_eq, not_true_eq_false, if_false]
  generalize hF : (m.neighbors x y).filter
    (fun q => decide ((m.cell_at q.1 q.2).state = cell_state.flagged)) = flagged
  generalize hH : (m.neighbors x y).filter
    (fun q => decide ((m.cell_at q.1 q.2).state = cell_state.hidden)) = hidden
  have hHin : ∀ p ∈ hidden, m.cfg.inb p.1 p.2 := by
    intro p hp
    rw [← hH] at hp
    exact inb_of_mem_neighbors (List.mem_filter.1 hp).1
  have hHh : ∀ p ∈ hidden, (m.cell_at p.1 p.2).state = cell_state.hidden := by
    intro p hp
    rw [← hH] at hp
    simpa using (List.mem_filter.1 hp).2
  have strict : ∀ m' : minesweeper, evolves T_solve m m' →
      (∀ p ∈ hidden, (m'.cell_at p.1 p.2).state ≠ cell_state.hidden) →
      ((progress || !hidden.isEmpty) = progress ∨
        ((progress || !hidden.isEmpty) = true ∧ m'.hidden_count < m.hidden_count)) := by
    intro m' e hc
    cases hidden with
    | nil => left; simp
    | cons p ps =>
      right
      refine ⟨by simp, ?_⟩
      exact hidden_count_lt e (hHin p (List.mem_cons_self _ _)) (hHh p (List.mem_cons_self _ _))
        (hc p (List.mem_cons_self _ _))
  by_cases h1 : flagged.length = to_size_t (m.cell_at x y).n_mines
  · obtain ⟨m1, r1, e1, c1⟩ := reveal_all_total hs hidden hHin
    have hin1 : m1.cfg.inb x y := e1.cfg ▸ hin
    have hn1 : (m1.cell_at x y).n_mines = (m.cell_at x y).n_mines := e1.n_mines x y hin
    simp only [h1, if_true, r1, ok_bind, pure_eq_ok, get_at_ok hin1, hn1]
    by_cases h2 : to_size_t (m.cell_at x y).n_mines + hidden.length
        = to_size_t (m.cell_at x y).n_mines
    · have hnil : hidden = [] := List.length_eq_zero.1 (by omega)
      subst hnil
      simp only [List.length_nil, add_zero, if_true]
      refine ⟨m1, _, rfl, e1, Or.inl (by simp)⟩
    · simp only [h2, if_false]
      exact ⟨m1, _, rfl, e1, strict m1 e1 c1⟩
  · simp only [h1, if_false, ok_bind, pure_eq_ok, get_at_ok hin]
    by_cases h2 : flagged.length + hidden.length = to_size_t (m.cell_at x y).n_mines
    · obtain ⟨m2, r2, e2, c2⟩ := flag_all_total hs hidden hHin
      simp only [h2, if_true, r2, ok_bind]
      exact ⟨m2, _, rfl, e2, strict m2 e2 c2⟩
    · simp only [h2, if_false]
      exact ⟨m, progress, rfl, evolves_refl T_solve_refl hs, Or.inl rfl⟩

/-- A pass of the deduction loop returns, makes no cell hidden, and reports progress
only when the number of hidden cells went down. -/
theorem deduce_pass_total {m : minesweeper} (hs : m.sized) :
    ∃ m' p', m.deduce_pass = Except.ok (m', p') ∧ evolves T_solve m m' ∧
      (p' = true → m'.hidden_count < m.hidden_count) := by
  obtain ⟨⟨m', p'⟩, h1, h2, h3⟩ := foldlM_rule
    (fun (s : minesweeper × Bool) (p : Int × Int) => s.1.deduce_cell s.2 p.1 p.2)
    (fun s => evolves T_solve m s.1 ∧ (s.2 = true → s.1.hidden_count < m.hidden_count))
    m.cfg.coords (m, false) ⟨evolves_refl T_solve_refl hs, fun h => by cases h⟩
    (by
      rintro ⟨m1, p1⟩ p hp ⟨e1, c1⟩
      have hin : m1.cfg.inb p.1 p.2 := e1.cfg ▸ mem_coords.1 hp
      obtain ⟨m2, p2, r, e2, c2⟩ := deduce_cell_total e1.sized p1 hin
      refine ⟨(m2, p2), r, evolves_trans T_solve_trans e1 e2, fun h => ?_⟩
      have hle := hidden_count_le e2
      have hle1 := hidden_count_le e1
      rcases c2 with c2 | ⟨_, c2⟩
      · have := c1 (c2 ▸ h)
        exact lt_of_le_of_lt hle this
      · exact lt_of_lt_of_le c2 hle1)
  exact ⟨m', p', h1, h2, h3⟩

/-- The deduction loop ends within a budget above the number of hidden cells. -/
theorem deduction_loop_total :
    ∀ (fuel : Nat) (m : minesweeper), m.sized → m.hidden_count < fuel →
      ∃ m', deduction_loop fuel m = Except.ok m' ∧ evolves T_solve m m'
  | 0, _, _, h => by omega
  | fuel + 1, m, hs, h => by
    obtain ⟨m1, p1, r, e1, c1⟩ := deduce_pass_total hs
    cases p1 with
    | false =>
      refine ⟨m1, ?_, e1⟩
      simp [deduction_loop, r]
    | true =>
      have hlt := c1 rfl
      obtain ⟨m', r', e'⟩ := deduction_loop_total fuel m1 e1.sized (by omega)
      refine ⟨m', ?_, evolves_trans T_solve_trans e1 e'⟩
      simp [deduction_loop, r, r']

theorem check_won_from_ok (m : minesweeper) :
    ∀ l : List (Int × Int), (∀ p ∈ l, m.cfg.inb p.1 p.2) →
      m.check_won_from l = Except.ok (l.all fun p =>
        (m.cell_at p.1 p.2).is_mine || decide ((m.cell_at p.1 p.2).state = cell_state.revealed))
  | [], _ => rfl
  | (x, y) :: l, h => by
    have hp : m.cfg.inb x y := h (x, y) (List.mem_cons_self _ _)
    have ih := check_won_from_ok m l fun q hq => h q (List.mem_cons_of_mem _ hq)
    simp only [minesweeper.check_won_from, get_at_ok hp, ok_bind, ih, List.all_cons]
    cases hm : (m.cell_at x y).is_mine <;>
      by_cases hr : (m.cell_at x y).state = cell_state.revealed <;> simp [hr]

/-- The value of `check_won`: every cell that is not a mine is revealed. -/
theorem check_won_ok (m : minesweeper) :
    m.check_won = Except.ok (m.cfg.coords.all fun p =>
      (m.cell_at p.1 p.2).is_mine || decide ((m.cell_at p.1 p.2).state = cell_state.revealed)) :=
  check_won_from_ok m _ fun _ hp => mem_coords.1 hp

theorem hide_all_ok {m : minesweeper} (hs : m.sized) :
    ∃ m', m.hide_all = Except.ok m' ∧ evolves T_any m m' ∧ m'.state = m.state ∧
      m'.all_hidden := by
  refine ⟨_, foldlM_modify_at (fun _ c => { c with state := cell_state.hidden }) _ m
    (fun _ hp => mem_coords.1 hp), ?_, upd_all_state _ _ _, ?_⟩
  · have hcell : ∀ a b, m.cfg.inb a b →
        (m.upd_all (fun _ c => { c with state := cell_state.hidden }) m.cfg.coords).cell_at a b
          = { m.cell_at a b with state := cell_state.hidden } := fun a b hab =>
      upd_all_mem _ a b _ m hs (fun _ hp => mem_coords.1 hp) (nodup_coords _) (mem_coords.2 hab)
    exact ⟨upd_all_cfg _ _ _, upd_all_sized _ _ _ hs (fun _ hp => mem_coords.1 hp),
      upd_all_unsolvable _ _ _, fun a b hab => by rw [hcell a b hab],
      fun a b hab => by rw [hcell a b hab], fun _ _ _ => trivial⟩
  · intro a b hab
    rw [upd_all_cfg] at hab
    rw [upd_all_mem _ a b _ m hs (fun _ hp => mem_coords.1 hp) (nodup_coords _)
      (mem_coords.2 hab)]

theorem evolves_any {T : cell_state → cell_state → Prop} {m m' : minesweeper}
    (h : evolves T m m') : evolves T_any m m' :=
  evolves_mono (fun _ _ _ => trivial) h

theorem T_any_trans (a b c : cell_state) (_ : T_any a b) (_ : T_any b c) : T_any a c := trivial

theorem deduction_fuel_enough (m : minesweeper) : m.hidden_count < m.deduction_fuel := by
  have := hidden_count_bound m
  unfold minesweeper.deduction_fuel
  omega

/-- The method `logically_solvable` returns on every board of the configured size,
keeps the configuration, the flag `unsolvable`, the mines and the counts, and leaves
every cell hidden. -/
theorem logically_solvable_total {m : minesweeper} (hs : m.sized) (x y : Int) :
    ∃ r m', m.logically_solvable x y = Except.ok (r, m') ∧ evolves T_any m m' ∧
      m'.all_hidden := by
  obtain ⟨m1, r1, e1, _, _⟩ := reveal_total hs x y
  obtain ⟨m2, r2, e2⟩ := deduction_loop_total m1.deduction_fuel m1 e1.sized
    (deduction_fuel_enough m1)
  obtain ⟨m3, r3, e3, _, h3⟩ := hide_all_ok e2.sized
  refine ⟨m2.cfg.coords.all fun p =>
      (m2.cell_at p.1 p.2).is_mine || decide ((m2.cell_at p.1 p.2).state = cell_state.revealed),
    m3, ?_, evolves_trans T_any_trans (evolves_any e1)
    (evolves_trans T_any_trans (evolves_any e2) e3), h3⟩
  simp only [minesweeper.logically_solvable, r1, ok_bind, r2, check_won_ok, r3, pure_eq_ok]

/-- On a board whose cells are all hidden, `logically_solvable` leaves the board as it
found it. -/
theorem logically_solvable_board {m : minesweeper} (hs : m.sized) (hh : m.all_hidden)
    (x y : Int) :
    ∃ r m', m.logically_solvable x y = Except.ok (r, m') ∧ m'.board = m.board ∧
      m'.cfg = m.cfg ∧ m'.unsolvable = m.unsolvable := by
  obtain ⟨r, m', h1, e, h2⟩ := logically_solvable_total hs x y
  refine ⟨r, m', h1, board_ext hs e.sized e.cfg fun a b hab => ?_, e.cfg, e.unsolvable⟩
  have i1 := e.is_mine a b hab
  have i2 := e.n_mines a b hab
  have i3 : (m'.cell_at a b).state = (m.cell_at a b).state := by
    rw [h2 a b (e.cfg ▸ hab), hh a b hab]
  cases hc : m'.cell_at a b
  cases hc0 : m.cell_at a b
  simp_all

/-! ## The methods read the configuration and the board only -/

theorem sim_bind {α β : Type} {R : α → α → Prop} {S : β → β → Prop}
    {r1 r2 : Except exn α} {f g : α → Except exn β} (h : sim R r1 r2)
    (hf : ∀ a b, R a b → sim S (f a) (g b)) : sim S (r1 >>= f) (r2 >>= g) := by
  cases r1 <;> cases r2
  · exact h
  · exact h.elim
  · exact h.elim
  · exact hf _ _ h

theorem sim_ok {α : Type} {R : α → α → Prop} {a b : α} (h : R a b) :
    sim R (Except.ok a) (Except.ok b) := h

theorem sim_error {α : Type} {R : α → α → Prop} (e : exn) :
    sim R (Except.error e) (Except.error e) := rfl

theorem sim_self {α : Type} {R : α → α → Prop} (hR : ∀ a, R a a) (r : Except exn α) :
    sim R r r := by
  cases r
  · rfl
  · exact hR _

theorem same_board_refl (a : minesweeper) : same_board a a := ⟨rfl, rfl⟩

theorem cell_at_congr {a b : minesweeper} (h : same_board a b) (x y : Int) :
    a.cell_at x y = b.cell_at x y := by
  simp [minesweeper.cell_at, h.2]

theorem get_at_congr {a b : minesweeper} (h : same_board a b) (x y : Int) :
    a.get_at x y = b.get_at x y := by
  simp [minesweeper.get_at, h.1, cell_at_congr h]

theorem neighbors_same {a b : minesweeper} (h : same_board a b) (x y : Int) :
    a.neighbors x y = b.neighbors x y := neighbors_congr h.1 x y

theorem select_congr {a b : minesweeper} (h : same_board a b) (p : cell → Bool) :
    ∀ ps : List (Int × Int), a.select p ps = b.select p ps
  | [] => rfl
  | (nx, ny) :: rest => by
    simp only [minesweeper.select, get_at_congr h, select_congr h p rest]

theorem modify_at_sim {a b : minesweeper} (h : same_board a b) (x y : Int) (f : cell → cell) :
    sim same_board (a.modify_at x y f) (b.modify_at x y f) := by
  unfold minesweeper.modify_at
  rw [h.1]
  split
  · rfl
  · exact ⟨h.1, by simp [minesweeper.upd, h.2, cell_at_congr h]⟩

theorem reveal_loop_sim :
    ∀ (fuel : Nat) (q : List (Int × Int)) (a b : minesweeper), same_board a b →
      sim same_board (reveal_loop fuel q a) (reveal_loop fuel q b)
  | _, [], _, _, h => by
    cases ‹Nat› <;> exact h
  | 0, _ :: _, _, _, _ => rfl
  | fuel + 1, (cx, cy) :: q, a, b, h => by
    simp only [reveal_loop, get_at_congr h]
    refine sim_bind (sim_self (fun _ => rfl) (b.get_at cx cy)) ?_
    rintro c _ rfl
    split
    · exact reveal_loop_sim fuel q a b h
    · refine sim_bind (modify_at_sim h cx cy _) ?_
      intro a1 b1 h1
      rw [get_at_congr h1]
      refine sim_bind (sim_self (fun _ => rfl) (b1.get_at cx cy)) ?_
      rintro c1 _ rfl
      split
      · exact reveal_loop_sim fuel q a1 b1 h1
      · rw [select_congr h1, neighbors_same h1]
        refine sim_bind (sim_self (fun _ => rfl) _) ?_
        rintro l _ rfl
        exact reveal_loop_sim fuel _ a1 b1 h1

theorem reveal_sim {a b : minesweeper} (h : same_board a b) (x y : Int) :
    sim same_board (a.reveal x y) (b.reveal x y) := by
  unfold minesweeper.reveal
  rw [h.1]
  split
  · exact h
  · rw [get_at_congr h]
    refine sim_bind (sim_self (fun _ => rfl) _) ?_
    rintro c _ rfl
    split
    · refine sim_bind (modify_at_sim h x y _) ?_
      intro a1 b1 h1
      exact ⟨h1.1, h1.2⟩
    · have : a.reveal_fuel = b.reveal_fuel := by simp [minesweeper.reveal_fuel, h.1]
      rw [this]
      exact reveal_loop_sim _ _ a b h

theorem foldlM_sim {σ α : Type} {R : σ → σ → Prop} (f : σ → α → Except exn σ)
    (hf : ∀ a b p, R a b → sim R (f a p) (f b p)) :
    ∀ (l : List α) (a b : σ), R a b → sim R (l.foldlM f a) (l.foldlM f b)
  | [], _, _, h => h
  | p :: l, a, b, h => by
    rw [List.foldlM_cons, List.foldlM_cons]
    exact sim_bind (hf a b p h) fun a1 b1 h1 => foldlM_sim f hf l a1 b1 h1

theorem reveal_all_sim {a b : minesweeper} (h : same_board a b) (ps : List (Int × Int)) :
    sim same_board (a.reveal_all ps) (b.reveal_all ps) :=
  foldlM_sim _ (fun _ _ p h => reveal_sim h p.1 p.2) ps a b h

theorem flag_all_sim {a b : minesweeper} (h : same_board a b) (ps : List (Int × Int)) :
    sim same_board (a.flag_all ps) (b.flag_all ps) :=
  foldlM_sim _ (fun _ _ p h => modify_at_sim h p.1 p.2 _) ps a b h

theorem hide_all_sim {a b : minesweeper} (h : same_board a b) :
    sim same_board a.hide_all b.hide_all := by
  unfold minesweeper.hide_all
  rw [h.1]
  exact foldlM_sim _ (fun _ _ p h => modify_at_sim h p.1 p.2 _) _ a b h

theorem deduce_cell_sim {a b : minesweeper} (h : same_board a b) (progress : Bool) (x y : Int) :
    sim same_scan (a.deduce_cell progress x y) (b.deduce_cell progress x y) := by
  unfold minesweeper.deduce_cell
  rw [get_at_congr h]
  refine sim_bind (sim_self (fun _ => rfl) _) ?_
  rintro c _ rfl
  split
  · exact ⟨h, rfl⟩
  · rw [select_congr h, neighbors_same h]
    refine sim_bind (sim_self (fun _ => rfl) _) ?_
    rintro flagged _ rfl
    rw [select_congr h]
    refine sim_bind (sim_self (fun _ => rfl) _) ?_
    rintro hidden _ rfl
    refine sim_bind (sim_self (fun _ => rfl) _) ?_
    rintro c1 _ rfl
    have tail : ∀ (a1 b1 : minesweeper) (pr : Bool), same_board a1 b1 →
        sim same_scan
          (a1.get_at x y >>= fun c =>
            if flagged.length + hidden.length = to_size_t c.n_mines then
              a1.flag_all hidden >>= fun m => pure (m, pr || !hidden.isEmpty)
            else pure (a1, pr))
          (b1.get_at x y >>= fun c =>
            if flagged.length + hidden.length = to_size_t c.n_mines then
              b1.flag_all hidden >>= fun m => pure (m, pr || !hidden.isEmpty)
            else pure (b1, pr)) := by
      intro a1 b1 pr h1
      rw [get_at_congr h1]
      refine sim_bind (sim_self (fun _ => rfl) _) ?_
      rintro c2 _ rfl
      split
      · exact sim_bind (flag_all_sim h1 hidden) fun a2 b2 h2 => ⟨h2, rfl⟩
      · exact ⟨h1, rfl⟩
    dsimp only
    split
    · refine sim_bind (reveal_all_sim h hidden) ?_
      intro a1 b1 h1
      simp only [pure_eq_ok, ok_bind]
      exact tail a1 b1 _ h1
    · simp only [pure_eq_ok, ok_bind]
      exact tail a b _ h

theorem deduce_pass_sim {a b : minesweeper} (h : same_board a b) :
    sim same_scan a.deduce_pass b.deduce_pass := by
  unfold minesweeper.deduce_pass
  rw [h.1]
  refine foldlM_sim (R := same_scan) _ ?_ _ (a, false) (b, false) ⟨h, rfl⟩
  rintro ⟨a1, p1⟩ ⟨b1, p2⟩ p ⟨h1, hp⟩
  simp only at h1 hp
  subst hp
  exact deduce_cell_sim h1 _ _ _

theorem deduction_loop_sim :
    ∀ (fuel : Nat) (a b : minesweeper), same_board a b →
      sim same_board (deduction_loop fuel a) (deduction_loop fuel b)
  | 0, _, _, _ => rfl
  | fuel + 1, a, b, h => by
    simp only [deduction_loop]
    refine sim_bind (deduce_pass_sim h) ?_
    rintro ⟨a1, p1⟩ ⟨b1, p2⟩ ⟨h1, hp⟩
    simp only at h1 hp
    subst hp
    simp only
    split
    · exact deduction_loop_sim fuel a1 b1 h1
    · exact h1

theorem check_won_congr {a b : minesweeper} (h : same_board a b) : a.check_won = b.check_won := by
  rw [check_won_ok, check_won_ok, h.1]
  simp only [cell_at_congr h]

/-- The value of `logically_solvable` and the board it leaves depend on the
configuration and the board only. -/
theorem logically_solvable_sim {a b : minesweeper} (h : same_board a b) (x y : Int) :
    sim same_answer (a.logically_solvable x y) (b.logically_solvable x y) := by
  unfold minesweeper.logically_solvable
  refine sim_bind (reveal_sim h x y) ?_
  intro a1 b1 h1
  have : a1.deduction_fuel = b1.deduction_fuel := by simp [minesweeper.deduction_fuel, h1.1]
  rw [this]
  refine sim_bind (deduction_loop_sim _ a1 b1 h1) ?_
  intro a2 b2 h2
  rw [check_won_congr h2]
  refine sim_bind (sim_self (fun _ => rfl) _) ?_
  rintro s _ rfl
  exact sim_bind (hide_all_sim h2) fun a3 b3 h3 => ⟨rfl, h3⟩

/-! ## One attempt of `generate_mines` -/

theorem clear_all_ok {m : minesweeper} (hs : m.sized) :
    ∃ m', m.clear_all = Except.ok m' ∧ m'.cfg = m.cfg ∧ m'.sized ∧
      m'.unsolvable = m.unsolvable ∧ m'.state = m.state ∧
      ∀ a b, m.cfg.inb a b → m'.cell_at a b = {} := by
  refine ⟨_, foldlM_modify_at (fun _ _ => ({} : cell)) _ m (fun _ hp => mem_coords.1 hp),
    upd_all_cfg _ _ _, upd_all_sized _ _ _ hs (fun _ hp => mem_coords.1 hp),
    upd_all_unsolvable _ _ _, upd_all_state _ _ _, fun a b hab => ?_⟩
  exact upd_all_mem _ a b _ m hs (fun _ hp => mem_coords.1 hp) (nodup_coords _)
    (mem_coords.2 hab)

theorem place_mines_ok {m : minesweeper} (hs : m.sized) (l : List (Int × Int))
    (hl : ∀ p ∈ l, m.cfg.inb p.1 p.2) (hnd : l.Nodup) :
    ∃ m', m.place_mines l = Except.ok m' ∧ m'.cfg = m.cfg ∧ m'.sized ∧
      m'.unsolvable = m.unsolvable ∧ m'.state = m.state ∧
      ∀ a b, m.cfg.inb a b → m'.cell_at a b =
        if (a, b) ∈ l.take m.cfg.mines.toNat then { m.cell_at a b with is_mine := true }
        else m.cell_at a b := by
  have hin : ∀ p ∈ l.take m.cfg.mines.toNat, m.cfg.inb p.1 p.2 :=
    fun p hp => hl p (List.take_subset _ _ hp)
  refine ⟨_, foldlM_modify_at (fun _ c => { c with is_mine := true }) _ m hin,
    upd_all_cfg _ _ _, upd_all_sized _ _ _ hs hin,
    upd_all_unsolvable _ _ _, upd_all_state _ _ _, fun a b hab => ?_⟩
  split
  · next h => exact upd_all_mem _ a b _ m hs hin (hnd.sublist (List.take_sublist _ _)) h
  · next h => exact upd_all_not_mem _ a b _ m hs hin hab h

theorem count_all_fold (m0 : minesweeper) :
    ∀ (l : List (Int × Int)) (m : minesweeper), m.cfg = m0.cfg → m.sized →
      (∀ p ∈ l, m.cfg.inb p.1 p.2) →
      (∀ a b, m.cfg.inb a b → (m.cell_at a b).is_mine = (m0.cell_at a b).is_mine) →
      l.foldlM
        (fun m p => do
          let mines ← m.select (fun c => c.is_mine) (m.neighbors p.1 p.2)
          m.modify_at p.1 p.2 fun c => { c with n_mines := (mines.length : Int) })
        m = Except.ok (m.upd_all
          (fun p c => { c with n_mines := (m0.mines_around p.1 p.2 : Int) }) l)
  | [], _, _, _, _, _ => rfl
  | p :: l, m, hc, hs, hl, hm => by
    have hp := hl p (List.mem_cons_self _ _)
    have hcount : ((m.neighbors p.1 p.2).filter fun q => (m.cell_at q.1 q.2).is_mine).length
        = m0.mines_around p.1 p.2 := by
      rw [minesweeper.mines_around, List.countP_eq_length_filter, neighbors_congr hc]
      congr 1
      apply List.filter_congr
      intro q hq
      rw [hm q.1 q.2 (hc ▸ inb_of_mem_neighbors hq)]
    rw [List.foldlM_cons, select_neighbors, ok_bind, modify_at_ok hp, ok_bind, hcount,
      upd_all_cons]
    apply count_all_fold m0 l _ (show (m.upd p.1 p.2 _).cfg = m0.cfg from hc) (sized_upd hs hp _)
      (fun q hq => hl q (List.mem_cons_of_mem _ hq))
    intro a b hab
    rw [cell_at_upd hs hp hab]
    split
    · next he => obtain ⟨rfl, rfl⟩ := Prod.mk.inj he; exact hm _ _ hp
    · exact hm a b hab

theorem count_all_ok {m : minesweeper} (hs : m.sized) :
    ∃ m', m.count_all = Except.ok m' ∧ m'.cfg = m.cfg ∧ m'.sized ∧
      m'.unsolvable = m.unsolvable ∧ m'.state = m.state ∧
      ∀ a b, m.cfg.inb a b → m'.cell_at a b =
        { m.cell_at a b with n_mines := (m.mines_around a b : Int) } := by
  refine ⟨_, count_all_fold m _ m rfl hs (fun _ hp => mem_coords.1 hp) (fun _ _ _ => rfl),
    upd_all_cfg _ _ _, upd_all_sized _ _ _ hs (fun _ hp => mem_coords.1 hp),
    upd_all_unsolvable _ _ _, upd_all_state _ _ _, fun a b hab => ?_⟩
  exact upd_all_mem _ a b _ m hs (fun _ hp => mem_coords.1 hp) (nodup_coords _)
    (mem_coords.2 hab)

theorem to_size_t_le {v : Int} (h : 0 ≤ v) : to_size_t v ≤ v.toNat := by
  unfold to_size_t
  have e : (2 ^ 64 : Int) = 18446744073709551616 := by norm_num
  rw [e]
  omega

theorem countP_mem_eq_length {α : Type} {l s : List α} (p : α → Bool)
    (hp : ∀ a, p a = true ↔ a ∈ s) (hl : l.Nodup) (hs : s.Nodup) (hsub : s ⊆ l) :
    l.countP p = s.length := by
  rw [List.countP_eq_length_filter]
  apply List.Perm.length_eq
  rw [List.perm_ext_iff_of_nodup (hl.filter _) hs]
  intro a
  simp only [List.mem_filter, hp]
  exact ⟨fun h => h.2, fun h => ⟨hsub h, h⟩⟩

theorem mines_around_congr {m m' : minesweeper} (hc : m'.cfg = m.cfg)
    (hm : ∀ a b, m.cfg.inb a b → (m'.cell_at a b).is_mine = (m.cell_at a b).is_mine)
    (x y : Int) : m'.mines_around x y = m.mines_around x y := by
  unfold minesweeper.mines_around
  rw [neighbors_congr hc]
  apply List.countP_congr
  intro p hp
  rw [hm p.1 p.2 (inb_of_mem_neighbors hp)]

theorem mines_around_le (m : minesweeper) (x y : Int) : m.mines_around x y ≤ 8 :=
  (List.countP_le_length _).trans (neighbors_length_le m x y)

theorem sized_of_same_board {a b : minesweeper} (h : same_board a b) (hs : b.sized) :
    a.sized := by
  unfold minesweeper.sized
  rw [h.1, h.2]
  exact hs

theorem generated_of_same_board {m a b : minesweeper} {forb : List (Int × Int)}
    (h : same_board a b) (hg : generated m forb b) : generated m forb a where
  cfg := h.1.trans hg.cfg
  sized := sized_of_same_board h hg.sized
  hidden := fun x y hxy => by rw [cell_at_congr h]; exact hg.hidden x y (h.1 ▸ hxy)
  forbidden := fun p hp hin => by rw [cell_at_congr h]; exact hg.forbidden p hp hin
  counts := fun x y hxy => by
    rw [cell_at_congr h, hg.counts x y hxy,
      @mines_around_congr b a h.1 (fun _ _ _ => by rw [cell_at_congr h])]
  total := by
    rw [← hg.total]
    unfold minesweeper.mine_count
    rw [h.1]
    simp only [cell_at_congr h]

theorem generated_of_cfg {m m1 m' : minesweeper} {forb : List (Int × Int)}
    (hc : m1.cfg = m.cfg) (hg : generated m1 forb m') : generated m forb m' where
  cfg := hg.cfg.trans hc
  sized := hg.sized
  hidden := hg.hidden
  forbidden := fun p hp hin => hg.forbidden p hp (hc ▸ hin)
  counts := fun x y hxy => hg.counts x y (hc ▸ hxy)
  total := hc ▸ hg.total

/-- One attempt of `generate_mines` returns; the layout it leaves has no mine on a
forbidden cell, exact counts and `cfg.mines` mines, and `logically_solvable` gives on it
the value that the attempt got. -/
theorem attempt_spec {G : Type} (R : rng G) (hR : R.lawful) {m : minesweeper} (hs : m.sized)
    (forb : List (Int × Int)) (x y : Int) (g : G) (hm : 0 ≤ m.cfg.mines)
    (hroom : m.cfg.mines.toNat ≤ (m.cfg.coords.filter fun p => decide (p ∉ forb)).length) :
    ∃ r g' m', m.attempt R forb x y g = Except.ok (r, g', m') ∧ generated m forb m' ∧
      m'.unsolvable = m.unsolvable ∧
      ∃ m'', m'.logically_solvable x y = Except.ok (r, m'') := by
  obtain ⟨m1, r1, c1, s1, u1, _, cell1⟩ := clear_all_ok hs
  have hal : m1.allowed forb = m.cfg.coords.filter fun p => decide (p ∉ forb) := by
    unfold minesweeper.allowed
    rw [c1]
  generalize hA : (m.cfg.coords.filter fun p => decide (p ∉ forb)) = allowed at hal hroom
  have hAmem : ∀ p ∈ allowed, m.cfg.inb p.1 p.2 ∧ p ∉ forb := by
    intro p hp
    rw [← hA, List.mem_filter] at hp
    exact ⟨mem_coords.1 hp.1, by simpa using hp.2⟩
  have hAnd : allowed.Nodup := by
    rw [← hA]
    exact (nodup_coords _).filter _
  have hperm := hR g allowed
  generalize hS : R.shuffle g allowed = sh at hperm
  have hthrow : ¬ allowed.length < to_size_t m1.cfg.mines := by
    rw [c1]
    have := to_size_t_le hm
    omega
  have hshin : ∀ p ∈ sh.1, m1.cfg.inb p.1 p.2 := fun p hp =>
    c1 ▸ (hAmem p (hperm.subset hp)).1
  obtain ⟨m2, r2, c2, s2, u2, _, cell2⟩ := place_mines_ok s1 sh.1 hshin (hperm.nodup_iff.2 hAnd)
  obtain ⟨m3, r3, c3, s3, u3, _, cell3⟩ := count_all_ok s2
  have c31 : m3.cfg = m.cfg := c3.trans (c2.trans c1)
  -- the cells after the attempt, before the solvability check
  have hcell : ∀ a b, m.cfg.inb a b → m3.cell_at a b =
      { is_mine := decide ((a, b) ∈ sh.1.take m.cfg.mines.toNat),
        n_mines := (m2.mines_around a b : Int), state := cell_state.hidden } := by
    intro a b hab
    rw [cell3 a b (c2 ▸ c1 ▸ hab), cell2 a b (c1 ▸ hab), cell1 a b hab, c1]
    split <;> simp [*]
  have hmine2 : ∀ a b, m.cfg.inb a b → (m3.cell_at a b).is_mine = (m2.cell_at a b).is_mine := by
    intro a b hab
    rw [cell3 a b (c2 ▸ c1 ▸ hab)]
  have h3hid : m3.all_hidden := fun a b hab => by rw [hcell a b (c31 ▸ hab)]
  obtain ⟨r, m4, r4, b4, c4, u4⟩ := logically_solvable_board s3 h3hid x y
  have hsame : same_board m4 m3 := ⟨c4, b4⟩
  refine ⟨r, sh.2, m4, ?_, ?_, ?_, ?_⟩
  · simp only [minesweeper.attempt, r1, ok_bind, hal, hthrow, if_false, hS, r2, r3, r4,
      pure_eq_ok]
  · refine generated_of_same_board hsame ⟨c31, s3, h3hid, ?_, ?_, ?_⟩
    · intro p hp hin
      rw [hcell p.1 p.2 hin]
      simp only [decide_eq_false_iff_not]
      intro hmem
      exact (hAmem p (hperm.subset (List.take_subset _ _ hmem))).2 hp
    · intro a b hab
      rw [hcell a b hab]
      simp only [Nat.cast_inj]
      exact (mines_around_congr c3 (fun a b h => by rw [cell3 a b h]) a b).symm
    · unfold minesweeper.mine_count
      rw [c31]
      have : m.cfg.coords.countP (fun p => (m3.cell_at p.1 p.2).is_mine) =
          m.cfg.coords.countP (fun p => decide (p ∈ sh.1.take m.cfg.mines.toNat)) := by
        apply List.countP_congr
        intro p hp
        rw [hcell p.1 p.2 (mem_coords.1 hp)]
      rw [this, countP_mem_eq_length (s := sh.1.take m.cfg.mines.toNat) _ (fun p => by simp)
        (nodup_coords _) ((hperm.nodup_iff.2 hAnd).sublist (List.take_sublist _ _))
        (fun p hp => mem_coords.2 (hAmem p (hperm.subset (List.take_subset _ _ hp))).1),
        List.length_take, hperm.length_eq, min_eq_left hroom]
      exact Int.toNat_of_nonneg hm
  · rw [u4, u3, u2, u1]
  · have hsim := logically_solvable_sim hsame x y
    rw [r4] at hsim
    cases hls : m4.logically_solvable x y with
    | error e => rw [hls] at hsim; exact hsim.elim
    | ok v =>
      rw [hls] at hsim
      obtain ⟨v1, v2⟩ := v
      have : v1 = r := hsim.1
      subst this
      exact ⟨v2, rfl⟩

/-! ## The loop over the attempts, and `generate_mines` -/

theorem validate_iff {c : config} : c.validate = true ↔
    1 ≤ c.width ∧ 1 ≤ c.height ∧ 1 ≤ c.attempts ∧ c.mines ≤ c.width * c.height - 9 := by
  unfold config.validate
  constructor
  · intro h
    split at h
    · cases h
    · split at h
      · cases h
      · omega
  · rintro ⟨h1, h2, h3, h4⟩
    rw [if_neg (by omega), if_neg (by omega)]

theorem allowed_room {c : config} (forb : List (Int × Int)) (hv : c.validate = true)
    (hf : forb.length ≤ 9) :
    c.mines.toNat ≤ (c.coords.filter fun p => decide (p ∉ forb)).length := by
  obtain ⟨h1, h2, _, h4⟩ := validate_iff.1 hv
  have hlen := length_coords c
  have hsplit := List.length_eq_countP_add_countP (fun p => decide (p ∉ forb)) c.coords
  have hin : c.coords.countP (fun p => ¬ (decide (p ∉ forb)) = true) ≤ forb.length := by
    rw [List.countP_eq_length_filter]
    apply List.Subperm.length_le
    apply List.Nodup.subperm ((nodup_coords c).filter _)
    intro p hp
    simpa using (List.mem_filter.1 hp).2
  rw [List.countP_eq_length_filter] at hsplit
  have hw : ((c.width.toNat * c.height.toNat : Nat) : Int) = c.width * c.height := by
    rw [Nat.cast_mul, Int.toNat_of_nonneg (by omega), Int.toNat_of_nonneg (by omega)]
  omega

theorem generated_set_unsolvable {m m' : minesweeper} {forb : List (Int × Int)}
    (hg : generated m forb m') (u : Bool) : generated m forb { m' with unsolvable := u } :=
  generated_of_same_board (b := m') ⟨rfl, rfl⟩ hg

theorem logically_solvable_of_same_board {a b : minesweeper} (h : same_board a b) {x y : Int}
    {r : Bool} (hb : ∃ m'', b.logically_solvable x y = Except.ok (r, m'')) :
    ∃ m'', a.logically_solvable x y = Except.ok (r, m'') := by
  obtain ⟨m'', hb⟩ := hb
  have hsim := logically_solvable_sim h x y
  rw [hb] at hsim
  cases hls : a.logically_solvable x y with
  | error e => rw [hls] at hsim; exact hsim.elim
  | ok v =>
    rw [hls] at hsim
    obtain ⟨v1, v2⟩ := v
    have : v1 = r := hsim.1
    subst this
    exact ⟨v2, rfl⟩

/-- The loop over the attempts returns the layout of the first attempt that
`logically_solvable` accepts, with `unsolvable` cleared, or, when there is none, the
layout of the last attempt with `unsolvable` as it was. -/
theorem generate_loop_spec {G : Type} (R : rng G) (hR : R.lawful) (forb : List (Int × Int))
    (x y : Int) :
    ∀ (n : Nat) (g : G) (m : minesweeper), m.sized → 0 ≤ m.cfg.mines →
      m.cfg.mines.toNat ≤ (m.cfg.coords.filter fun p => decide (p ∉ forb)).length →
      ∃ m' k r gk mk, generate_loop R forb x y (n + 1) g m = Except.ok m' ∧ k < n + 1 ∧
        nth_attempt R forb x y k g m = Except.ok (r, gk, mk) ∧ m'.board = mk.board ∧
        generated m forb m' ∧
        (∀ j, j < k → ∃ gj mj, nth_attempt R forb x y j g m = Except.ok (false, gj, mj)) ∧
        m'.unsolvable = (if r then false else m.unsolvable) ∧ (r = false → k = n) ∧
        ∃ m'', m'.logically_solvable x y = Except.ok (r, m'') := by
  intro n
  induction n with
  | zero =>
    intro g m hs hm hroom
    obtain ⟨r, g1, m1, h1, hg, hu, hl⟩ := attempt_spec R hR hs forb x y g hm hroom
    cases r with
    | true =>
      refine ⟨{ m1 with unsolvable := false }, 0, true, g1, m1, ?_, by omega, h1, rfl,
        generated_set_unsolvable hg _, (fun j hj => by omega), rfl, (fun h => by cases h),
        logically_solvable_of_same_board (a := { m1 with unsolvable := false }) (b := m1)
          ⟨rfl, rfl⟩ hl⟩
      simp [generate_loop, h1]
    | false =>
      refine ⟨m1, 0, false, g1, m1, ?_, by omega, h1, rfl, hg, fun j hj => by omega,
        by simpa using hu, fun _ => rfl, hl⟩
      simp [generate_loop, h1]
  | succ n ih =>
    intro g m hs hm hroom
    obtain ⟨r, g1, m1, h1, hg, hu, hl⟩ := attempt_spec R hR hs forb x y g hm hroom
    cases r with
    | true =>
      refine ⟨{ m1 with unsolvable := false }, 0, true, g1, m1, ?_, by omega, h1, rfl,
        generated_set_unsolvable hg _, (fun j hj => by omega), rfl, (fun h => by cases h),
        logically_solvable_of_same_board (a := { m1 with unsolvable := false }) (b := m1)
          ⟨rfl, rfl⟩ hl⟩
      simp [generate_loop, h1]
    | false =>
      obtain ⟨m', k, r', gk, mk, i1, i2, i3, i4, i5, i6, i7, i8, i9⟩ :=
        ih g1 m1 hg.sized (hg.cfg ▸ hm) (hg.cfg ▸ hroom)
      refine ⟨m', k + 1, r', gk, mk, ?_, by omega, ?_, i4, generated_of_cfg hg.cfg i5, ?_,
        by rw [i7, hu], fun h => by rw [i8 h], i9⟩
      · rw [← i1]
        simp [generate_loop, h1]
      · rw [← i3]
        simp [nth_attempt, h1]
      · intro j hj
        cases j with
        | zero => exact ⟨g1, m1, h1⟩
        | succ j =>
          obtain ⟨gj, mj, hj'⟩ := i6 j (by omega)
          exact ⟨gj, mj, by rw [← hj']; simp [nth_attempt, h1]⟩

/-- The forbidden cells of a click: at most nine. -/
theorem forb_length_le (m : minesweeper) (x y : Int) :
    ((x, y) :: m.neighbors x y).length ≤ 9 := by
  have := neighbors_length_le m x y
  simp only [List.length_cons]
  omega

/-- The method `generate_mines` on a valid configuration with `mines ≥ 0` and a click
inside the board. -/
theorem generate_mines_spec {G : Type} (R : rng G) (hR : R.lawful) {m : minesweeper}
    (hs : m.sized) (hv : m.cfg.validate = true) (hm : 0 ≤ m.cfg.mines) {x y : Int}
    (hin : m.cfg.inb x y) :
    ∃ (m' : minesweeper) (k : Nat) (r : Bool) (gk : G) (mk : minesweeper),
      m.generate_mines R x y = Except.ok m' ∧ (k : Int) < m.cfg.attempts ∧
      nth_attempt R ((x, y) :: m.neighbors x y) x y k (R.seed m.cfg.seed)
        { m with unsolvable := true } = Except.ok (r, gk, mk) ∧
      m'.board = mk.board ∧ generated m ((x, y) :: m.neighbors x y) m' ∧
      (∀ j, j < k → ∃ gj mj, nth_attempt R ((x, y) :: m.neighbors x y) x y j (R.seed m.cfg.seed)
        { m with unsolvable := true } = Except.ok (false, gj, mj)) ∧
      m'.unsolvable = !r ∧ (r = false → (k : Int) + 1 = m.cfg.attempts) ∧
      ∃ m'', m'.logically_solvable x y = Except.ok (r, m'') := by
  obtain ⟨_, _, ha, _⟩ := validate_iff.1 hv
  obtain ⟨n, hn⟩ : ∃ n : Nat, m.cfg.attempts.toNat = n + 1 :=
    ⟨m.cfg.attempts.toNat - 1, by omega⟩
  have hs' : ({ m with unsolvable := true } : minesweeper).sized := hs
  obtain ⟨m', k, r, gk, mk, i1, i2, i3, i4, i5, i6, i7, i8, i9⟩ :=
    generate_loop_spec R hR ((x, y) :: m.neighbors x y) x y n (R.seed m.cfg.seed)
      { m with unsolvable := true } hs' hm (allowed_room _ hv (forb_length_le m x y))
  have i5' : generated m ((x, y) :: m.neighbors x y) m' :=
    @generated_of_cfg m { m with unsolvable := true } m' _ rfl i5
  refine ⟨m', k, r, gk, mk, ?_, by omega, i3, i4, i5', i6, ?_,
    fun h => by have := i8 h; omega, i9⟩
  · rw [← i1, ← hn]
    simp [minesweeper.generate_mines, hv, out_of_range_of_inb hin]
  · rw [i7]
    cases r <;> rfl

/-! ## The methods `reset` and `cells_flagged` -/

theorem to_size_t_of_int {v : Int} (h0 : 0 ≤ v) (h : is_int v) : to_size_t v = v.toNat := by
  unfold to_size_t
  have e : (2 ^ 64 : Int) = 18446744073709551616 := by norm_num
  obtain ⟨_, h2⟩ := h
  rw [e]
  omega

theorem mapM_replicate_ok {α β : Type} (f : α → Except exn β) (a : α) (b : β)
    (h : f a = Except.ok b) :
    ∀ n : Nat, (List.replicate n a).mapM f = Except.ok (List.replicate n b)
  | 0 => rfl
  | n + 1 => by
    rw [List.replicate_succ, List.mapM_cons, h, mapM_replicate_ok f a b h n]
    rfl

/-- The board that `reset` allocates: `width` columns of `height` default cells. -/
theorem reset_ok {m : minesweeper} (hw : 1 ≤ m.cfg.width) (hh : 1 ≤ m.cfg.height)
    (iw : is_int m.cfg.width) (ih : is_int m.cfg.height) :
    m.reset = Except.ok { m with
      state := game_state.first_click
      board := List.replicate m.cfg.width.toNat (List.replicate m.cfg.height.toNat default) } := by
  have e1 : ¬ (0 = to_size_t m.cfg.width) := by
    rw [to_size_t_of_int (by omega) iw]; omega
  have e2 : ¬ (0 = to_size_t m.cfg.height) := by
    rw [to_size_t_of_int (by omega) ih]; omega
  have hcol : (fun linear : List cell =>
      if linear.length ≠ to_size_t m.cfg.height then resize linear m.cfg.height
      else pure linear) [] = Except.ok (List.replicate m.cfg.height.toNat default) := by
    simp [resize, e2, show ¬ m.cfg.height < 0 by omega]
  have hmap := mapM_replicate_ok (fun linear : List cell =>
      if linear.length ≠ to_size_t m.cfg.height then resize linear m.cfg.height
      else pure linear) [] _ hcol m.cfg.width.toNat
  have hres : resize ([] : List (List cell)) m.cfg.width =
      Except.ok (List.replicate m.cfg.width.toNat []) := by
    unfold resize
    rw [if_neg (by omega), List.take_nil, List.nil_append, List.length_nil, Nat.sub_zero]
    rfl
  unfold minesweeper.reset minesweeper.initialize_board minesweeper.ensure_size
  dsimp only [List.length_nil]
  rw [if_pos e1, hres, ok_bind, hmap]
  rfl

theorem getD_replicate {α : Type} (a d : α) (n i : Nat) (h : i < n) :
    (List.replicate n a).getD i d = a := by
  rw [List.getD_eq_getElem _ _ (by simpa using h)]
  simp

/-- After `reset` the board has the configured size and every cell is the default
cell. -/
theorem reset_spec {m : minesweeper} (hw : 1 ≤ m.cfg.width) (hh : 1 ≤ m.cfg.height)
    (iw : is_int m.cfg.width) (ih : is_int m.cfg.height) :
    ∃ m', m.reset = Except.ok m' ∧ m'.cfg = m.cfg ∧ m'.sized ∧
      m'.state = game_state.first_click ∧ m'.unsolvable = m.unsolvable ∧
      ∀ a b, m.cfg.inb a b → m'.cell_at a b = {} := by
  refine ⟨_, reset_ok hw hh iw ih, rfl, ⟨?_, ?_⟩, rfl, rfl, ?_⟩
  · simp only [List.length_replicate]
    omega
  · intro col hcol
    rw [List.eq_of_mem_replicate hcol]
    simp only [List.length_replicate]
    omega
  · rintro a b ⟨h1, h2, h3, h4⟩
    simp only [minesweeper.cell_at]
    rw [getD_replicate _ _ _ _ (by omega), getD_replicate _ _ _ _ (by omega)]
    rfl

theorem cells_flagged_fold (m : minesweeper) :
    ∀ (l : List (Int × Int)) (acc : Int), (∀ p ∈ l, m.cfg.inb p.1 p.2) →
      l.foldlM
        (fun (flagged_count : Int) (p : Int × Int) => do
          let c ← m.get_at p.1 p.2
          pure (if c.state = cell_state.flagged then flagged_count + 1 else flagged_count))
        acc = Except.ok (acc + (l.countP fun p =>
          decide ((m.cell_at p.1 p.2).state = cell_state.flagged) : Nat))
  | [], acc, _ => by simp
  | p :: l, acc, h => by
    have hp := h p (List.mem_cons_self _ _)
    rw [List.foldlM_cons, get_at_ok hp, ok_bind, pure_eq_ok, ok_bind,
      cells_flagged_fold m l _ fun q hq => h q (List.mem_cons_of_mem _ hq)]
    by_cases hf : (m.cell_at p.1 p.2).state = cell_state.flagged
    · rw [if_pos hf, List.countP_cons_of_pos _ _ (by simpa using hf)]
      congr 1
      push_cast
      ring
    · rw [if_neg hf, List.countP_cons_of_neg _ _ (by simpa using hf)]

/-- The value of `cells_flagged`: the number of flagged cells. -/
theorem cells_flagged_ok (m : minesweeper) :
    m.cells_flagged = Except.ok (m.flag_count : Int) := by
  rw [minesweeper.cells_flagged, cells_flagged_fold m _ 0 fun _ hp => mem_coords.1 hp,
    minesweeper.flag_count, zero_add]

theorem all_hidden_of_coords {m : minesweeper}
    (h : ∀ p ∈ m.cfg.coords, (m.cell_at p.1 p.2).state = cell_state.hidden) : m.all_hidden :=
  fun x y hxy => h (x, y) (mem_coords.2 hxy)

theorem rng_id_lawful : rng_id.lawful := fun _ l => List.Perm.refl l

theorem rng_rev_lawful : rng_rev.lawful := fun _ l => List.reverse_perm l

/-! ## The claims -/

/-- C1: for every configuration that passes `validate` with `mines ≥ 0` and every click
`(x, y)` inside the board, whatever permutation the shuffle returns and whichever
attempt is kept, `generate_mines(x, y)` returns and afterwards neither the cell
`(x, y)` nor any cell of `neighbors(x, y)` is a mine. -/
theorem generate_mines_forbidden_zone {G : Type} (R : rng G) (hR : R.lawful) (m : minesweeper)
    (x y : Int) (hs : m.sized) (hv : m.cfg.validate = true) (hm : 0 ≤ m.cfg.mines)
    (hin : m.cfg.inb x y) :
    ∃ m', m.generate_mines R x y = Except.ok m' ∧ (m'.cell_at x y).is_mine = false ∧
      ∀ p ∈ m'.neighbors x y, (m'.cell_at p.1 p.2).is_mine = false := by
  obtain ⟨m', _, _, _, _, h1, _, _, _, hg, _⟩ := generate_mines_spec R hR hs hv hm hin
  refine ⟨m', h1, hg.forbidden (x, y) (List.mem_cons_self _ _) hin, fun p hp => ?_⟩
  rw [neighbors_congr hg.cfg] at hp
  exact hg.forbidden p (List.mem_cons_of_mem _ hp) (inb_of_mem_neighbors hp)

theorem generate_mines_forbidden_zone_witness :
    rng_rev.lawful ∧ (fresh 4 4 5).sized ∧ (fresh 4 4 5).cfg.validate = true ∧
      (fresh 4 4 5).cfg.inb 1 1 ∧
      ∃ m', (fresh 4 4 5).generate_mines rng_rev 1 1 = Except.ok m' ∧
        (m'.cell_at 1 1).is_mine = false ∧
        ∀ p ∈ m'.neighbors 1 1, (m'.cell_at p.1 p.2).is_mine = false :=
  ⟨rng_rev_lawful, by decide, by decide, by decide,
    generate_mines_forbidden_zone rng_rev rng_rev_lawful (fresh 4 4 5) 1 1 (by decide)
      (by decide) (by decide) (by decide)⟩

/-- C2: for every configuration that passes `validate` with `mines ≥ 0` and every click
inside the board, after `generate_mines(x, y)` every cell of the board, mine or not,
has `n_mines` equal to the number of cells of its `neighbors` that are mines, a number
between 0 and 8. -/
theorem generate_mines_counts {G : Type} (R : rng G) (hR : R.lawful) (m : minesweeper)
    (x y : Int) (hs : m.sized) (hv : m.cfg.validate = true) (hm : 0 ≤ m.cfg.mines)
    (hin : m.cfg.inb x y) :
    ∃ m', m.generate_mines R x y = Except.ok m' ∧
      ∀ cx cy, m'.cfg.inb cx cy →
        (m'.cell_at cx cy).n_mines = (m'.mines_around cx cy : Int) ∧
        0 ≤ (m'.cell_at cx cy).n_mines ∧ (m'.cell_at cx cy).n_mines ≤ 8 := by
  obtain ⟨m', _, _, _, _, h1, _, _, _, hg, _⟩ := generate_mines_spec R hR hs hv hm hin
  refine ⟨m', h1, fun cx cy hc => ?_⟩
  have h := hg.counts cx cy (hg.cfg ▸ hc)
  have h8 := mines_around_le m' cx cy
  rw [h]
  exact ⟨rfl, by omega, by omega⟩

theorem generate_mines_counts_witness :
    ∃ m', (fresh 4 4 5).generate_mines rng_id 1 1 = Except.ok m' ∧
      ∀ cx cy, m'.cfg.inb cx cy →
        (m'.cell_at cx cy).n_mines = (m'.mines_around cx cy : Int) ∧
        0 ≤ (m'.cell_at cx cy).n_mines ∧ (m'.cell_at cx cy).n_mines ≤ 8 :=
  generate_mines_counts rng_id rng_id_lawful (fresh 4 4 5) 1 1 (by decide) (by decide)
    (by decide) (by decide)

/-- C3: for every configuration that passes `validate` with `mines ≥ 0` and every click
inside the board, after `generate_mines(x, y)` the number of cells with
`is_mine = true` is exactly `cfg.mines`. -/
theorem generate_mines_total {G : Type} (R : rng G) (hR : R.lawful) (m : minesweeper)
    (x y : Int) (hs : m.sized) (hv : m.cfg.validate = true) (hm : 0 ≤ m.cfg.mines)
    (hin : m.cfg.inb x y) :
    ∃ m', m.generate_mines R x y = Except.ok m' ∧ (m'.mine_count : Int) = m.cfg.mines := by
  obtain ⟨m', _, _, _, _, h1, _, _, _, hg, _⟩ := generate_mines_spec R hR hs hv hm hin
  exact ⟨m', h1, hg.total⟩

theorem generate_mines_total_witness :
    ∃ m', (fresh 5 4 11).generate_mines rng_rev 0 3 = Except.ok m' ∧
      (m'.mine_count : Int) = 11 :=
  generate_mines_total rng_rev rng_rev_lawful (fresh 5 4 11) 0 3 (by decide) (by decide)
    (by decide) (by decide)

/-- C4, at the failing input: the configuration 3x3 with `mines = -1` passes
`validate`, and `generate_mines(1, 1)` throws the `std::runtime_error` "Not enough free
cells to place mines": the `int` -1 converts to the largest `std::size_t`, above the
size of the list of allowed cells. -/
theorem generate_mines_throws_on_negative_mines :
    (fresh 3 3 (-1)).cfg.validate = true ∧ (fresh 3 3 (-1)).sized ∧
      (fresh 3 3 (-1)).cfg.inb 1 1 ∧
      (fresh 3 3 (-1)).generate_mines rng_id 1 1 = Except.error exn.runtime_error :=
  ⟨by decide, by decide, by decide, rfl⟩

/-- C5: for every configuration that passes `validate` with `mines ≥ 0` and every click
inside the board, `generate_mines(x, y)` returns, and on the engine it leaves
`logically_solvable(x, y)` returns a value `r` with `unsolvable = false` exactly when
`r` is true.  The board kept is the layout of an attempt `k` on which
`logically_solvable` returned `r`, every attempt before it was not solvable, and when
`r` is false, so that no attempt was solvable, `k` is the last attempt and
`unsolvable` is true. -/
theorem generate_mines_unsolvable_flag {G : Type} (R : rng G) (hR : R.lawful) (m : minesweeper)
    (x y : Int) (hs : m.sized) (hv : m.cfg.validate = true) (hm : 0 ≤ m.cfg.mines)
    (hin : m.cfg.inb x y) :
    ∃ (m' : minesweeper) (r : Bool) (m'' : minesweeper),
      m.generate_mines R x y = Except.ok m' ∧
      m'.logically_solvable x y = Except.ok (r, m'') ∧
      (m'.unsolvable = false ↔ r = true) ∧
      ∃ (k : Nat) (gk : G) (mk : minesweeper), (k : Int) < m.cfg.attempts ∧
        nth_attempt R ((x, y) :: m.neighbors x y) x y k (R.seed m.cfg.seed)
          { m with unsolvable := true } = Except.ok (r, gk, mk) ∧
        m'.board = mk.board ∧
        (∀ j, j < k → ∃ gj mj, nth_attempt R ((x, y) :: m.neighbors x y) x y j
          (R.seed m.cfg.seed) { m with unsolvable := true } = Except.ok (false, gj, mj)) ∧
        (r = false → (k : Int) + 1 = m.cfg.attempts ∧ m'.unsolvable = true) := by
  obtain ⟨m', k, r, gk, mk, h1, h2, h3, h4, _, h6, h7, h8, m'', h9⟩ :=
    generate_mines_spec R hR hs hv hm hin
  refine ⟨m', r, m'', h1, h9, ?_, k, gk, mk, h2, h3, h4, h6, fun hr => ⟨h8 hr, ?_⟩⟩
  · rw [h7]; cases r <;> simp
  · rw [h7, hr]; rfl

theorem generate_mines_unsolvable_flag_witness :
    ∃ (m' : minesweeper) (r : Bool) (m'' : minesweeper),
      (fresh 4 4 5).generate_mines rng_rev 1 1 = Except.ok m' ∧
      m'.logically_solvable 1 1 = Except.ok (r, m'') ∧
      (m'.unsolvable = false ↔ r = true) ∧
      ∃ (k : Nat) (gk : Unit) (mk : minesweeper), (k : Int) < (fresh 4 4 5).cfg.attempts ∧
        nth_attempt rng_rev ((1, 1) :: (fresh 4 4 5).neighbors 1 1) 1 1 k
          (rng_rev.seed (fresh 4 4 5).cfg.seed)
          { fresh 4 4 5 with unsolvable := true } = Except.ok (r, gk, mk) ∧
        m'.board = mk.board ∧
        (∀ j, j < k → ∃ gj mj, nth_attempt rng_rev ((1, 1) :: (fresh 4 4 5).neighbors 1 1) 1 1 j
          (rng_rev.seed (fresh 4 4 5).cfg.seed)
          { fresh 4 4 5 with unsolvable := true } = Except.ok (false, gj, mj)) ∧
        (r = false → (k : Int) + 1 = (fresh 4 4 5).cfg.attempts ∧ m'.unsolvable = true) :=
  generate_mines_unsolvable_flag rng_rev rng_rev_lawful (fresh 4 4 5) 1 1 (by decide)
    (by decide) (by decide) (by decide)

/-- C6: on every board whose cells are all hidden, and for every `(x, y)`,
`logically_solvable(x, y)` returns, true or false, and leaves the board as it found
it: every cell has its `is_mine` and `n_mines` and is hidden. -/
theorem logically_solvable_restores (m : minesweeper) (x y : Int) (hs : m.sized)
    (hh : m.all_hidden) :
    ∃ r m', m.logically_solvable x y = Except.ok (r, m') ∧ m'.cfg = m.cfg ∧
      m'.board = m.board ∧
      ∀ a b, m.cfg.inb a b → (m'.cell_at a b).is_mine = (m.cell_at a b).is_mine ∧
        (m'.cell_at a b).n_mines = (m.cell_at a b).n_mines ∧
        (m'.cell_at a b).state = cell_state.hidden := by
  obtain ⟨r, m', h1, h2, h3, _⟩ := logically_solvable_board hs hh x y
  refine ⟨r, m', h1, h3, h2, fun a b hab => ?_⟩
  rw [cell_at_congr (a := m') (b := m) ⟨h3, h2⟩]
  exact ⟨rfl, rfl, hh a b hab⟩

theorem logically_solvable_restores_witness :
    ∃ r m', corner_mine.logically_solvable 0 0 = Except.ok (r, m') ∧
      m'.cfg = corner_mine.cfg ∧ m'.board = corner_mine.board ∧
      ∀ a b, corner_mine.cfg.inb a b →
        (m'.cell_at a b).is_mine = (corner_mine.cell_at a b).is_mine ∧
        (m'.cell_at a b).n_mines = (corner_mine.cell_at a b).n_mines ∧
        (m'.cell_at a b).state = cell_state.hidden :=
  logically_solvable_restores corner_mine 0 0 (by decide) (all_hidden_of_coords (by decide))

theorem walk_last {m : minesweeper} :
    ∀ {l : List (Int × Int)} {a c : Int × Int}, m.walk a l c →
      m.cfg.inb c.1 c.2 ∧ (m.cell_at c.1 c.2).state = cell_state.hidden
  | [], _, _, h => h.1 ▸ h.2
  | _ :: _, _, _, h => walk_last h.2.2.2.2

/-- C7: for every board and every start `(x, y)` inside the board that is not a mine
and is hidden, `reveal(x, y)` returns, and afterwards a cell is revealed if and only
if it was revealed before or it is the end of a path of 8-adjacent cells from `(x, y)`
in which every cell was hidden before the call and every cell except possibly the
last has `n_mines = 0`; every other cell keeps its state. -/
theorem reveal_flood_fill (m : minesweeper) (x y : Int) (hs : m.sized) (hin : m.cfg.inb x y)
    (hnm : (m.cell_at x y).is_mine = false)
    (hh : (m.cell_at x y).state = cell_state.hidden) :
    ∃ m', m.reveal x y = Except.ok m' ∧ m'.cfg = m.cfg ∧
      ∀ a b, m.cfg.inb a b →
        ((m'.cell_at a b).state = cell_state.revealed ↔
          ((m.cell_at a b).state = cell_state.revealed ∨ ∃ l, m.walk (x, y) l (a, b))) ∧
        ((m'.cell_at a b).state ≠ cell_state.revealed →
          (m'.cell_at a b).state = (m.cell_at a b).state) := by
  obtain ⟨m', h1, e, _, hr⟩ := reveal_loop_reach hs hin hh
  refine ⟨m', ?_, e.cfg, fun a b hab => ⟨⟨fun h => ?_, fun h => ?_⟩, fun h => ?_⟩⟩
  · simp only [minesweeper.reveal, out_of_range_of_inb hin, get_at_ok hin, hnm, ok_bind,
      Bool.false_eq_true, if_false]
    exact h1
  · rcases e.state a b hab with h' | ⟨h', _⟩
    · left; rw [← h']; exact h
    · right; exact walk_of_reach hin hh ((hr a b hab h').1 h)
  · rcases h with h | ⟨l, hl⟩
    · rcases e.state a b hab with h' | ⟨h', _⟩
      · rw [h']; exact h
      · rw [h] at h'; cases h'
    · exact (hr a b hab (walk_last hl).2).2 (reach_of_walk l _ _ hl minesweeper.reach.start)
  · rcases e.state a b hab with h' | ⟨_, h'⟩
    · exact h'
    · exact absurd h' h

theorem reveal_flood_fill_witness :
    ∃ m', corner_mine.reveal 0 0 = Except.ok m' ∧ m'.cfg = corner_mine.cfg ∧
      ∀ a b, corner_mine.cfg.inb a b →
        ((m'.cell_at a b).state = cell_state.revealed ↔
          ((corner_mine.cell_at a b).state = cell_state.revealed ∨
            ∃ l, corner_mine.walk (0, 0) l (a, b))) ∧
        ((m'.cell_at a b).state ≠ cell_state.revealed →
          (m'.cell_at a b).state = (corner_mine.cell_at a b).state) :=
  reveal_flood_fill corner_mine 0 0 (by decide) (by decide) (by decide) (by decide)

/-- C8: for every board and every start `(x, y)` inside the board that is not a mine,
`reveal(x, y)` returns and changes no cell that was flagged or question-marked before
the call, and `cells_flagged()` returns the same value before and after. -/
theorem reveal_keeps_marks (m : minesweeper) (x y : Int) (hs : m.sized) (hin : m.cfg.inb x y)
    (hnm : (m.cell_at x y).is_mine = false) :
    ∃ m' n, m.reveal x y = Except.ok m' ∧
      (∀ a b, m.cfg.inb a b →
        (m.cell_at a b).state = cell_state.flagged ∨ (m.cell_at a b).state = cell_state.qmarked →
        m'.cell_at a b = m.cell_at a b) ∧
      m.cells_flagged = Except.ok n ∧ m'.cells_flagged = Except.ok n := by
  obtain ⟨m', h0, e, _, _⟩ := reveal_loop_uncover m.reveal_fuel [(x, y)] m hs
    (by simpa using hin) (reveal_fuel_enough m x y)
  have h1 : m.reveal x y = Except.ok m' := by
    simp only [minesweeper.reveal, out_of_range_of_inb hin, get_at_ok hin, hnm, ok_bind,
      Bool.false_eq_true, if_false]
    exact h0
  have hst : ∀ a b, m.cfg.inb a b → (m.cell_at a b).state ≠ cell_state.hidden →
      (m'.cell_at a b).state = (m.cell_at a b).state := by
    intro a b hab hne
    rcases e.state a b hab with h | ⟨h, _⟩
    · exact h
    · exact absurd h hne
  refine ⟨m', (m.flag_count : Int), h1, fun a b hab hf => ?_, cells_flagged_ok m, ?_⟩
  · have i1 := e.is_mine a b hab
    have i2 := e.n_mines a b hab
    have i3 := hst a b hab (by rcases hf with h | h <;> rw [h] <;> simp)
    cases hc : m'.cell_at a b
    cases hc0 : m.cell_at a b
    simp_all
  · rw [cells_flagged_ok]
    congr 2
    unfold minesweeper.flag_count
    rw [e.cfg]
    apply List.countP_congr
    intro p hp
    have hpin := mem_coords.1 hp
    simp only [decide_eq_true_eq]
    rcases e.state p.1 p.2 hpin with h | ⟨h, h'⟩
    · rw [h]
    · rw [h, h']; simp

theorem reveal_keeps_marks_witness :
    ∃ m' n, corner_mine_marked.reveal 0 0 = Except.ok m' ∧
      (∀ a b, corner_mine_marked.cfg.inb a b →
        (corner_mine_marked.cell_at a b).state = cell_state.flagged ∨
          (corner_mine_marked.cell_at a b).state = cell_state.qmarked →
        m'.cell_at a b = corner_mine_marked.cell_at a b) ∧
      corner_mine_marked.cells_flagged = Except.ok n ∧ m'.cells_flagged = Except.ok n :=
  reveal_keeps_marks corner_mine_marked 0 0 (by decide) (by decide) (by decide)

/-- The end of the click methods: the game state becomes won when `check_won` holds,
and nothing else changes. -/
theorem settle_ok (m : minesweeper) :
    ∃ m', m.settle = Except.ok m' ∧ same_board m' m ∧ m'.unsolvable = m.unsolvable ∧
      (m'.state = m.state ∨ m'.state = game_state.won) := by
  unfold minesweeper.settle
  rw [check_won_ok, ok_bind]
  split
  · exact ⟨_, rfl, ⟨rfl, rfl⟩, rfl, Or.inr rfl⟩
  · exact ⟨_, rfl, ⟨rfl, rfl⟩, rfl, Or.inl rfl⟩

/-- C9: for every configuration that passes `validate` with `mines ≥ 0`, after
`reset()` the first `primary_click(x, y)` at any `(x, y)` inside the board returns
with the game state playing or won, never lost; the clicked cell and all of its
neighbors are revealed and are not mines, and the clicked cell has `n_mines = 0`. -/
theorem first_click_is_safe {G : Type} (R : rng G) (hR : R.lawful) (m : minesweeper)
    (x y : Int) (hv : m.cfg.validate = true) (hm : 0 ≤ m.cfg.mines)
    (iw : is_int m.cfg.width) (ih : is_int m.cfg.height) (hin : m.cfg.inb x y) :
    ∃ m1 m', m.reset = Except.ok m1 ∧ m1.primary_click R x y = Except.ok m' ∧
      (m'.state = game_state.playing ∨ m'.state = game_state.won) ∧
      m'.state ≠ game_state.lost ∧
      (m'.cell_at x y).state = cell_state.revealed ∧ (m'.cell_at x y).is_mine = false ∧
      (m'.cell_at x y).n_mines = 0 ∧
      ∀ p ∈ m'.neighbors x y, (m'.cell_at p.1 p.2).state = cell_state.revealed ∧
        (m'.cell_at p.1 p.2).is_mine = false := by
  obtain ⟨hw1, hh1, _, _⟩ := validate_iff.1 hv
  obtain ⟨m1, r1, c1, s1, st1, _, _⟩ := reset_spec hw1 hh1 iw ih
  have hin1 : m1.cfg.inb x y := c1 ▸ hin
  obtain ⟨m2, _, _, _, _, r2, _, _, _, hg, _⟩ :=
    generate_mines_spec R hR s1 (c1 ▸ hv) (c1 ▸ hm) hin1
  have hin2 : m2.cfg.inb x y := hg.cfg ▸ hin1
  have hnm2 : (m2.cell_at x y).is_mine = false :=
    hg.forbidden (x, y) (List.mem_cons_self _ _) hin1
  have hnb2 : ∀ p ∈ m2.neighbors x y, (m2.cell_at p.1 p.2).is_mine = false := by
    intro p hp
    rw [neighbors_congr hg.cfg] at hp
    exact hg.forbidden p (List.mem_cons_of_mem _ hp) (inb_of_mem_neighbors hp)
  have hz2 : (m2.cell_at x y).n_mines = 0 := by
    rw [hg.counts x y hin1, minesweeper.mines_around, List.countP_eq_zero.2]
    · rfl
    · intro p hp
      rw [hnb2 p hp]
      simp
  have hh2 : (m2.cell_at x y).state = cell_state.hidden := hg.hidden x y hin2
  obtain ⟨m3, r3, e3, _, hr3⟩ := reveal_loop_reach hg.sized hin2 hh2
  have r3' : m2.reveal x y = Except.ok m3 := by
    simp only [minesweeper.reveal, out_of_range_of_inb hin2, get_at_ok hin2, hnm2, ok_bind,
      Bool.false_eq_true, if_false]
    exact r3
  obtain ⟨m', r4, sb, _, hst⟩ := settle_ok { m3 with state := game_state.playing }
  have hcell : ∀ a b, m'.cell_at a b = m3.cell_at a b := fun a b =>
    cell_at_congr (b := m3) ⟨sb.1, sb.2⟩ a b
  have hc' : m'.cfg = m2.cfg := sb.1.trans e3.cfg
  have hstate : m'.state = game_state.playing ∨ m'.state = game_state.won := hst
  refine ⟨m1, m', r1, ?_, hstate, ?_, ?_, ?_, ?_, ?_⟩
  · simp only [minesweeper.primary_click, out_of_range_of_inb hin1, st1, r2, ok_bind, r3',
      Bool.false_eq_true, if_false, if_true]
    exact r4
  · rcases hstate with h | h <;> rw [h] <;> simp
  · rw [hcell]
    exact (hr3 x y hin2 hh2).2 minesweeper.reach.start
  · rw [hcell, e3.is_mine x y hin2]
    exact hnm2
  · rw [hcell, e3.n_mines x y hin2]
    exact hz2
  · intro p hp
    rw [neighbors_congr hc'] at hp
    have hpin : m2.cfg.inb p.1 p.2 := inb_of_mem_neighbors hp
    have hph : (m2.cell_at p.1 p.2).state = cell_state.hidden := hg.hidden _ _ hpin
    rw [hcell, e3.is_mine _ _ hpin]
    exact ⟨(hr3 p.1 p.2 hpin hph).2 (minesweeper.reach.start.step hz2 hp hph), hnb2 p hp⟩

theorem first_click_is_safe_witness :
    ∃ m1 m', (fresh 4 4 5).reset = Except.ok m1 ∧
      m1.primary_click rng_rev 3 0 = Except.ok m' ∧
      (m'.state = game_state.playing ∨ m'.state = game_state.won) ∧
      m'.state ≠ game_state.lost ∧
      (m'.cell_at 3 0).state = cell_state.revealed ∧ (m'.cell_at 3 0).is_mine = false ∧
      (m'.cell_at 3 0).n_mines = 0 ∧
      ∀ p ∈ m'.neighbors 3 0, (m'.cell_at p.1 p.2).state = cell_state.revealed ∧
        (m'.cell_at p.1 p.2).is_mine = false :=
  first_click_is_safe rng_rev rng_rev_lawful (fresh 4 4 5) 3 0 (by decide) (by decide)
    (by decide) (by decide) (by decide)

/-- C10: for every engine in the playing state and every cell `(x, y)` inside the
board that is a mine and is neither flagged nor question-marked,
`primary_click(x, y)` returns with the game state lost and that cell revealed, its
`is_mine` and `n_mines` kept, and changes no other cell. -/
theorem click_on_mine_loses {G : Type} (R : rng G) (m : minesweeper) (x y : Int)
    (hs : m.sized) (hp : m.state = game_state.playing) (hin : m.cfg.inb x y)
    (hmine : (m.cell_at x y).is_mine = true)
    (hnf : (m.cell_at x y).state ≠ cell_state.flagged)
    (hnq : (m.cell_at x y).state ≠ cell_state.qmarked) :
    ∃ m', m.primary_click R x y = Except.ok m' ∧ m'.state = game_state.lost ∧
      m'.cfg = m.cfg ∧
      m'.cell_at x y = { m.cell_at x y with state := cell_state.revealed } ∧
      ∀ a b, m.cfg.inb a b → (a, b) ≠ (x, y) → m'.cell_at a b = m.cell_at a b := by
  refine ⟨{ m.upd x y fun c => { c with state := cell_state.revealed } with
    state := game_state.lost }, ?_, rfl, rfl, ?_, fun a b hab hne => ?_⟩
  · simp [minesweeper.primary_click, out_of_range_of_inb hin, hp, get_at_ok hin, hnf, hnq,
      hmine, modify_at_ok hin]
  · rw [cell_at_set_state, cell_at_upd_same hs hin]
  · rw [cell_at_set_state]
    exact cell_at_upd_other hin.1 hin.2.2.1 hab.1 hab.2.2.1 hne _

theorem click_on_mine_loses_witness :
    ∃ m', corner_mine.primary_click rng_id 2 2 = Except.ok m' ∧ m'.state = game_state.lost ∧
      m'.cfg = corner_mine.cfg ∧
      m'.cell_at 2 2 = { corner_mine.cell_at 2 2 with state := cell_state.revealed } ∧
      ∀ a b, corner_mine.cfg.inb a b → (a, b) ≠ (2, 2) →
        m'.cell_at a b = corner_mine.cell_at a b :=
  click_on_mine_loses rng_id corner_mine 2 2 (by decide) (by decide) (by decide) (by decide)
    (by decide) (by decide)

/-! ## Clicks outside the playing state, and outside the board -/

/-- C12: won and lost are absorbing, and `secondary_click` is inactive outside the
playing state: for every engine and every `(x, y)`, `primary_click(x, y)` returns the
engine unchanged when the game state is won or lost, and `secondary_click(x, y)`
returns it unchanged whenever the game state is not playing. -/
theorem terminal_states_absorb {G : Type} (R : rng G) (m : minesweeper) (x y : Int) :
    ((m.state = game_state.won ∨ m.state = game_state.lost) →
      m.primary_click R x y = Except.ok m) ∧
    (m.state ≠ game_state.playing → m.secondary_click x y = Except.ok m) := by
  constructor
  · intro h
    unfold minesweeper.primary_click
    split
    · rfl
    · rcases h with h | h <;> simp [h]
  · intro h
    unfold minesweeper.secondary_click
    split
    · rfl
    · simp [h]

theorem terminal_states_absorb_witness :
    ({ corner_mine with state := game_state.lost } : minesweeper).primary_click rng_id 2 2 =
        Except.ok { corner_mine with state := game_state.lost } ∧
      ({ corner_mine with state := game_state.won } : minesweeper).secondary_click 0 0 =
        Except.ok { corner_mine with state := game_state.won } :=
  ⟨(terminal_states_absorb rng_id { corner_mine with state := game_state.lost } 2 2).1
      (Or.inr rfl),
    (terminal_states_absorb rng_id { corner_mine with state := game_state.won } 0 0).2
      (by decide)⟩

/-- C16: for every engine whose game state is not the awaiting-first-click state and
every cell `(x, y)` inside the board that is revealed, is not a mine and has
`n_mines = 0`, `primary_click(x, y)` returns, changes no cell, and a second
`primary_click(x, y)` returns exactly the engine that the first one returned. -/
theorem click_revealed_zero_idempotent {G : Type} (R : rng G) (m : minesweeper) (x y : Int)
    (hns : m.state ≠ game_state.first_click) (hin : m.cfg.inb x y)
    (hr : (m.cell_at x y).state = cell_state.revealed)
    (hnm : (m.cell_at x y).is_mine = false) (hz : (m.cell_at x y).n_mines = 0) :
    ∃ m', m.primary_click R x y = Except.ok m' ∧ m'.cfg = m.cfg ∧ m'.board = m.board ∧
      m'.primary_click R x y = Except.ok m' := by
  by_cases hp : m.state = game_state.playing
  · -- in play: neither branch applies, only the win check runs
    have hclick : ∀ m1 : minesweeper, m1.cfg = m.cfg → m1.board = m.board →
        m1.state = game_state.playing → m1.primary_click R x y = m1.settle := by
      intro m1 c1 b1 s1
      have hin1 : m1.cfg.inb x y := c1 ▸ hin
      have hcell : m1.cell_at x y = m.cell_at x y := cell_at_congr ⟨c1, b1⟩ x y
      simp [minesweeper.primary_click, out_of_range_of_inb hin1, s1, get_at_ok hin1, hcell,
        hr, hnm, hz]
    have hsettle : ∀ m1 : minesweeper, m1.settle =
        Except.ok (if (m1.cfg.coords.all fun p => (m1.cell_at p.1 p.2).is_mine ||
            decide ((m1.cell_at p.1 p.2).state = cell_state.revealed)) = true
          then { m1 with state := game_state.won } else m1) := by
      intro m1
      unfold minesweeper.settle
      rw [check_won_ok, ok_bind]
      split <;> rfl
    rw [hclick m rfl rfl hp, hsettle m]
    split
    · next hw =>
      refine ⟨_, rfl, rfl, rfl, ?_⟩
      simp [minesweeper.primary_click, out_of_range_of_inb hin]
    · next hw =>
      refine ⟨m, rfl, rfl, rfl, ?_⟩
      rw [hclick m rfl rfl hp, hsettle m, if_neg hw]
  · refine ⟨m, ?_, rfl, rfl, ?_⟩ <;>
      simp [minesweeper.primary_click, out_of_range_of_inb hin, hns, hp]

theorem click_revealed_zero_idempotent_witness :
    ∃ m', corner_mine_open.primary_click rng_id 0 0 = Except.ok m' ∧
      m'.cfg = corner_mine_open.cfg ∧ m'.board = corner_mine_open.board ∧
      m'.primary_click rng_id 0 0 = Except.ok m' :=
  click_revealed_zero_idempotent rng_id corner_mine_open 0 0 (by decide) (by decide)
    (by decide) (by decide) (by decide)

/-- C17: for every engine and every pair of integers `(x, y)` outside the board,
negative values included, each of `primary_click`, `secondary_click`, `reveal`,
`speed_reveal`, `speed_flag`, `toggle` and `generate_mines` returns without an
exception and leaves the whole engine unchanged. -/
theorem out_of_bounds_is_ignored {G : Type} (R : rng G) (m : minesweeper) (x y : Int)
    (h : ¬ m.cfg.inb x y) :
    m.primary_click R x y = Except.ok m ∧ m.secondary_click x y = Except.ok m ∧
      m.reveal x y = Except.ok m ∧ m.speed_reveal x y = Except.ok m ∧
      m.speed_flag x y = Except.ok m ∧ m.toggle x y = Except.ok m ∧
      m.generate_mines R x y = Except.ok m := by
  have ho := out_of_range_of_not_inb h
  refine ⟨?_, ?_, ?_, ?_, ?_, ?_, ?_⟩
  · simp [minesweeper.primary_click, ho]
  · simp [minesweeper.secondary_click, ho]
  · simp [minesweeper.reveal, ho]
  · simp [minesweeper.speed_reveal, ho]
  · simp [minesweeper.speed_flag, ho]
  · simp [minesweeper.toggle, ho]
  · unfold minesweeper.generate_mines
    split
    · rfl
    · simp [ho]

theorem out_of_bounds_is_ignored_witness :
    corner_mine.primary_click rng_id (-1) 3 = Except.ok corner_mine ∧
      corner_mine.secondary_click (-1) 3 = Except.ok corner_mine ∧
      corner_mine.reveal (-1) 3 = Except.ok corner_mine ∧
      corner_mine.speed_reveal (-1) 3 = Except.ok corner_mine ∧
      corner_mine.speed_flag (-1) 3 = Except.ok corner_mine ∧
      corner_mine.toggle (-1) 3 = Except.ok corner_mine ∧
      corner_mine.generate_mines rng_id (-1) 3 = Except.ok corner_mine :=
  out_of_bounds_is_ignored rng_id corner_mine (-1) 3 (by decide)

/-! ## The method `reset` -/

/-- C19: for every prior engine and every configuration with `width ≥ 1` and
`height ≥ 1`, `reset()` returns an engine whose board has exactly `cfg.width` columns
of exactly `cfg.height` cells, every cell the default cell whatever the board held
before, with the game state awaiting the first click; a second `reset()` returns the
same engine. -/
theorem reset_allocates (m : minesweeper) (hw : 1 ≤ m.cfg.width) (hh : 1 ≤ m.cfg.height)
    (iw : is_int m.cfg.width) (ih : is_int m.cfg.height) :
    ∃ m', m.reset = Except.ok m' ∧ m'.cfg = m.cfg ∧ (m'.board.length : Int) = m.cfg.width ∧
      (∀ col ∈ m'.board, (col.length : Int) = m.cfg.height ∧
        ∀ c ∈ col, c = { is_mine := false, n_mines := 0, state := cell_state.hidden }) ∧
      m'.state = game_state.first_click ∧ m'.reset = Except.ok m' := by
  refine ⟨_, reset_ok hw hh iw ih, rfl, ?_, ?_, rfl, ?_⟩
  · simp only [List.length_replicate]
    omega
  · intro col hcol
    rw [List.eq_of_mem_replicate hcol]
    refine ⟨?_, fun c hc => List.eq_of_mem_replicate hc⟩
    simp only [List.length_replicate]
    omega
  · exact reset_ok (m := { m with
      state := game_state.first_click
      board := List.replicate m.cfg.width.toNat (List.replicate m.cfg.height.toNat default) })
      hw hh iw ih

theorem reset_allocates_witness :
    ∃ m', corner_mine_marked.reset = Except.ok m' ∧ m'.cfg = corner_mine_marked.cfg ∧
      (m'.board.length : Int) = 3 ∧
      (∀ col ∈ m'.board, (col.length : Int) = 3 ∧
        ∀ c ∈ col, c = { is_mine := false, n_mines := 0, state := cell_state.hidden }) ∧
      m'.state = game_state.first_click ∧ m'.reset = Except.ok m' :=
  reset_allocates corner_mine_marked (by decide) (by decide) (by decide) (by decide)

/-- C20, at the failing input: on an engine whose flag `unsolvable` is true, `reset()`
returns an engine whose flag `unsolvable` is still true; the method writes the board
and the game state only. -/
theorem reset_keeps_unsolvable :
    ({ corner_mine with unsolvable := true } : minesweeper).reset =
      Except.ok { fresh 3 3 1 with unsolvable := true } ∧
    ({ fresh 3 3 1 with unsolvable := true } : minesweeper).unsolvable = true :=
  ⟨rfl, rfl⟩

/-! ## The method `neighbors` -/

theorem neighbors_sorted (m : minesweeper) (x y : Int) :
    (m.neighbors x y).Pairwise lex_lt := by
  unfold minesweeper.neighbors
  split
  · exact List.Pairwise.nil
  · rw [List.pairwise_flatMap]
    constructor
    · intro dx _
      rw [List.pairwise_filterMap]
      simp only [offsets, List.pairwise_cons, List.mem_cons, List.mem_singleton,
        List.not_mem_nil, false_implies, implies_true, List.Pairwise.nil, and_true,
        forall_eq_or_imp, forall_eq]
      refine ⟨⟨?_, ?_⟩, ?_⟩ <;>
      · intro b hb b' hb'
        split at hb <;> [cases hb; skip]
        split at hb <;> [cases hb; skip]
        split at hb' <;> [cases hb'; skip]
        split at hb' <;> [cases hb'; skip]
        simp only [Option.mem_def, Option.some.injEq] at hb hb'
        subst hb hb'
        right
        constructor <;> simp
    · simp only [offsets, List.pairwise_cons, List.mem_cons, List.mem_singleton,
        List.not_mem_nil, false_implies, implies_true, List.Pairwise.nil, and_true,
        forall_eq_or_imp, forall_eq, List.mem_filterMap]
      refine ⟨⟨?_, ?_⟩, ?_⟩ <;>
      · rintro p ⟨dy, _, hp⟩ q ⟨dy', _, hq⟩
        split at hp <;> [cases hp; skip]
        split at hp <;> [cases hp; skip]
        split at hq <;> [cases hq; skip]
        split at hq <;> [cases hq; skip]
        simp only [Option.some.injEq] at hp hq
        subst hp hq
        left
        simp

theorem lex_lt_ne {a b : Int × Int} (h : lex_lt a b) : a ≠ b := by
  rintro rfl
  rcases h with h | ⟨_, h⟩ <;> omega

theorem nodup_neighbors (m : minesweeper) (x y : Int) : (m.neighbors x y).Nodup :=
  (neighbors_sorted m x y).imp fun h => lex_lt_ne h

/-- C18: for every `(x, y)` inside the board, `neighbors(x, y)` lists, without
repetition and in increasing lexicographic order, exactly the cells other than
`(x, y)` inside the board whose coordinates differ from `x` and `y` by at most one:
at most 8 cells, never `(x, y)` itself.  For every `(x, y)` outside the board it is the
empty sequence. -/
theorem neighbors_spec (m : minesweeper) (x y : Int) :
    (m.cfg.inb x y →
      (∀ p : Int × Int, p ∈ m.neighbors x y ↔
        (p ≠ (x, y) ∧ |p.1 - x| ≤ 1 ∧ |p.2 - y| ≤ 1 ∧ m.cfg.inb p.1 p.2)) ∧
      (m.neighbors x y).Nodup ∧ (m.neighbors x y).Pairwise lex_lt ∧
      (m.neighbors x y).length ≤ 8 ∧ (x, y) ∉ m.neighbors x y) ∧
    (¬ m.cfg.inb x y → m.neighbors x y = []) := by
  constructor
  · intro hin
    refine ⟨fun p => ?_, nodup_neighbors m x y, neighbors_sorted m x y,
      neighbors_length_le m x y, fun h => (mem_neighbors.1 h).2.2.1 rfl⟩
    rw [mem_neighbors]
    constructor
    · rintro ⟨_, h1, h2, h3, h4⟩
      exact ⟨h2, h3, h4, h1⟩
    · rintro ⟨h2, h3, h4, h1⟩
      exact ⟨hin, h1, h2, h3, h4⟩
  · intro h
    simp [minesweeper.neighbors, out_of_range_of_not_inb h]

theorem neighbors_spec_witness :
    ((∀ p : Int × Int, p ∈ corner_mine.neighbors 0 1 ↔
        (p ≠ (0, 1) ∧ |p.1 - 0| ≤ 1 ∧ |p.2 - 1| ≤ 1 ∧ corner_mine.cfg.inb p.1 p.2)) ∧
      (corner_mine.neighbors 0 1).Nodup ∧ (corner_mine.neighbors 0 1).Pairwise lex_lt ∧
      (corner_mine.neighbors 0 1).length ≤ 8 ∧ (0, 1) ∉ corner_mine.neighbors 0 1) ∧
    corner_mine.neighbors 3 0 = [] :=
  ⟨(neighbors_spec corner_mine 0 1).1 (by decide),
    (neighbors_spec corner_mine 3 0).2 (by decide)⟩

/-! ## The methods `toggle` and `speed_flag` -/

theorem toggled_thrice (s : cell_state) : toggled (toggled (toggled s)) = s := by
  cases s <;> rfl

/-- One call of `toggle` inside the board: the state of the cell moves along the
cycle, and nothing else changes. -/
theorem toggle_step {m : minesweeper} {x y : Int} (hs : m.sized) (hin : m.cfg.inb x y) :
    ∃ m1, m.toggle x y = Except.ok m1 ∧ m1.cfg = m.cfg ∧ m1.state = m.state ∧
      m1.unsolvable = m.unsolvable ∧ m1.sized ∧
      ∀ a b, m.cfg.inb a b → m1.cell_at a b =
        if (a, b) = (x, y) then
          { m.cell_at x y with state := toggled (m.cell_at x y).state }
        else m.cell_at a b := by
  have key : ∀ s : cell_state,
      ∃ m1, (Except.ok (m.upd x y fun c => { c with state := s }) : Except exn minesweeper)
          = Except.ok m1 ∧
        m1.cfg = m.cfg ∧ m1.state = m.state ∧ m1.unsolvable = m.unsolvable ∧ m1.sized ∧
        ∀ a b, m.cfg.inb a b → m1.cell_at a b =
          if (a, b) = (x, y) then { m.cell_at x y with state := s } else m.cell_at a b := by
    intro s
    refine ⟨_, rfl, rfl, rfl, rfl, sized_upd hs hin _, fun a b hab => ?_⟩
    rw [cell_at_upd hs hin hab]
  unfold minesweeper.toggle
  simp only [out_of_range_of_inb hin, get_at_ok hin, modify_at_ok hin, ok_bind,
    Bool.false_eq_true, if_false]
  by_cases h1 : (m.cell_at x y).state = cell_state.hidden
  · simp only [h1, if_true]
    exact key _
  by_cases h2 : (m.cell_at x y).state = cell_state.flagged
  · simp only [h2, reduceCtorEq, if_false, if_true]
    exact key _
  by_cases h3 : (m.cell_at x y).state = cell_state.qmarked
  · simp only [h3, reduceCtorEq, if_false, if_true]
    exact key _
  -- revealed: no branch applies
  have h4 : (m.cell_at x y).state = cell_state.revealed := by
    cases h : (m.cell_at x y).state <;> simp_all
  simp only [h1, h2, h3, if_false]
  refine ⟨m, rfl, rfl, rfl, rfl, hs, fun a b hab => ?_⟩
  split
  · next he =>
    obtain ⟨rfl, rfl⟩ := Prod.mk.inj he
    rw [h4]
    change m.cell_at a b = { m.cell_at a b with state := cell_state.revealed }
    rw [← h4]
  · rfl

theorem minesweeper_ext {a b : minesweeper} (h1 : a.cfg = b.cfg) (h2 : a.state = b.state)
    (h3 : a.unsolvable = b.unsolvable) (h4 : a.board = b.board) : a = b := by
  cases a
  cases b
  simp_all

/-- C15: for every board and every `(x, y)` inside it, `toggle(x, y)` takes the state
of the cell from hidden to flagged, from flagged to question-marked and from
question-marked to hidden, leaves a revealed cell as it is, and changes no other cell
and no other field; three successive calls return the original engine. -/
theorem toggle_cycle (m : minesweeper) (x y : Int) (hs : m.sized) (hin : m.cfg.inb x y) :
    ∃ m1 m2 m3, m.toggle x y = Except.ok m1 ∧ m1.toggle x y = Except.ok m2 ∧
      m2.toggle x y = Except.ok m3 ∧ m3 = m ∧
      m1.cfg = m.cfg ∧ m1.state = m.state ∧ m1.unsolvable = m.unsolvable ∧
      m1.cell_at x y = { m.cell_at x y with state := toggled (m.cell_at x y).state } ∧
      ∀ a b, m.cfg.inb a b → (a, b) ≠ (x, y) → m1.cell_at a b = m.cell_at a b := by
  obtain ⟨m1, r1, c1, g1, u1, s1, e1⟩ := toggle_step hs hin
  obtain ⟨m2, r2, c2, g2, u2, s2, e2⟩ := toggle_step s1 (c1 ▸ hin)
  obtain ⟨m3, r3, c3, g3, u3, s3, e3⟩ := toggle_step s2 (c2 ▸ c1 ▸ hin)
  refine ⟨m1, m2, m3, r1, r2, r3, ?_, c1, g1, u1, ?_, fun a b hab hne => ?_⟩
  · apply minesweeper_ext (c3.trans (c2.trans c1)) (g3.trans (g2.trans g1))
      (u3.trans (u2.trans u1))
    apply board_ext hs s3 (c3.trans (c2.trans c1))
    intro a b hab
    rw [e3 a b (c2 ▸ c1 ▸ hab)]
    split
    · next he =>
      obtain ⟨rfl, rfl⟩ := Prod.mk.inj he
      rw [e2 a b (c1 ▸ hab), if_pos rfl, e1 a b hab, if_pos rfl]
      simp only [toggled_thrice]
    · next he => rw [e2 a b (c1 ▸ hab), if_neg he, e1 a b hab, if_neg he]
  · rw [e1 x y hin, if_pos rfl]
  · rw [e1 a b hab, if_neg hne]

theorem toggle_cycle_witness :
    ∃ m1 m2 m3, corner_mine.toggle 1 2 = Except.ok m1 ∧ m1.toggle 1 2 = Except.ok m2 ∧
      m2.toggle 1 2 = Except.ok m3 ∧ m3 = corner_mine ∧
      m1.cfg = corner_mine.cfg ∧ m1.state = corner_mine.state ∧
      m1.unsolvable = corner_mine.unsolvable ∧
      m1.cell_at 1 2 =
        { corner_mine.cell_at 1 2 with state := toggled (corner_mine.cell_at 1 2).state } ∧
      ∀ a b, corner_mine.cfg.inb a b → (a, b) ≠ (1, 2) →
        m1.cell_at a b = corner_mine.cell_at a b :=
  toggle_cycle corner_mine 1 2 (by decide) (by decide)

theorem size_eq_iff {k : Nat} {n : Int} (hk : k ≤ 8) (hn : is_int n) :
    k = to_size_t n ↔ (k : Int) = n := by
  unfold to_size_t
  obtain ⟨h1, h2⟩ := hn
  have e : (2 ^ 64 : Int) = 18446744073709551616 := by norm_num
  rw [e]
  omega

theorem size_eq_of_eq {k : Nat} {n : Int} (hk : k ≤ 8) (h : (k : Int) = n) :
    k = to_size_t n := by
  unfold to_size_t
  have e : (2 ^ 64 : Int) = 18446744073709551616 := by norm_num
  rw [e]
  omega

/-- C14: for every board and every `(x, y)` inside it, with `c` the number of
neighbors of `(x, y)` that are not revealed: when `c` equals `n_mines` of `(x, y)`,
after `speed_flag(x, y)` every such neighbor is flagged, question-marked ones
included, and no other cell changes; when `c` differs from `n_mines`,
`speed_flag(x, y)` changes nothing.  In both cases no revealed cell, no `is_mine`, no
`n_mines` and not the game state changes. -/
theorem speed_flag_spec (m : minesweeper) (x y : Int) (hs : m.sized) (hin : m.cfg.inb x y)
    (hint : is_int (m.cell_at x y).n_mines) :
    ∃ m', m.speed_flag x y = Except.ok m' ∧ m'.cfg = m.cfg ∧ m'.state = m.state ∧
      m'.unsolvable = m.unsolvable ∧
      (∀ a b, m.cfg.inb a b → (m'.cell_at a b).is_mine = (m.cell_at a b).is_mine ∧
        (m'.cell_at a b).n_mines = (m.cell_at a b).n_mines ∧
        ((m.cell_at a b).state = cell_state.revealed → m'.cell_at a b = m.cell_at a b)) ∧
      ((m.covered_around x y : Int) = (m.cell_at x y).n_mines →
        (∀ p ∈ m.neighbors x y, (m.cell_at p.1 p.2).state ≠ cell_state.revealed →
          (m'.cell_at p.1 p.2).state = cell_state.flagged) ∧
        (∀ a b, m.cfg.inb a b →
          ¬ ((a, b) ∈ m.neighbors x y ∧ (m.cell_at a b).state ≠ cell_state.revealed) →
          m'.cell_at a b = m.cell_at a b)) ∧
      ((m.covered_around x y : Int) ≠ (m.cell_at x y).n_mines → m' = m) := by
  generalize hL : (m.neighbors x y).filter
    (fun q => decide ((m.cell_at q.1 q.2).state ≠ cell_state.revealed)) = L
  have hlen : L.length = m.covered_around x y := by
    rw [← hL, minesweeper.covered_around, List.countP_eq_length_filter]
  have hle : L.length ≤ 8 := by
    rw [← hL]
    exact (List.length_filter_le _ _).trans (neighbors_length_le m x y)
  have hLin : ∀ p ∈ L, m.cfg.inb p.1 p.2 := by
    intro p hp
    rw [← hL] at hp
    exact inb_of_mem_neighbors (List.mem_filter.1 hp).1
  have hLnd : L.Nodup := by
    rw [← hL]
    exact (nodup_neighbors m x y).filter _
  have hLmem : ∀ a b, (a, b) ∈ L ↔
      ((a, b) ∈ m.neighbors x y ∧ (m.cell_at a b).state ≠ cell_state.revealed) := by
    intro a b
    rw [← hL, List.mem_filter]
    simp
  have hrun : m.speed_flag x y =
      if L.length = to_size_t (m.cell_at x y).n_mines then m.flag_all L else Except.ok m := by
    simp only [minesweeper.speed_flag, out_of_range_of_inb hin, select_neighbors, ok_bind,
      get_at_ok hin, Bool.false_eq_true, if_false, pure_eq_ok]
    rw [show (m.neighbors x y).filter
      (fun q => decide ((m.cell_at q.1 q.2).state ≠ cell_state.revealed)) = L from hL]
  rw [hrun]
  by_cases hfire : L.length = to_size_t (m.cell_at x y).n_mines
  · rw [if_pos hfire, minesweeper.flag_all, foldlM_modify_at _ L m hLin]
    have hcount : (m.covered_around x y : Int) = (m.cell_at x y).n_mines := by
      rw [← hlen]
      exact (size_eq_iff hle hint).1 hfire
    have hin' : ∀ a b, (a, b) ∈ L →
        (m.upd_all (fun _ c => { c with state := cell_state.flagged }) L).cell_at a b =
          { m.cell_at a b with state := cell_state.flagged } := fun a b h =>
      upd_all_mem _ a b L m hs hLin hLnd h
    have hout : ∀ a b, m.cfg.inb a b → (a, b) ∉ L →
        (m.upd_all (fun _ c => { c with state := cell_state.flagged }) L).cell_at a b =
          m.cell_at a b := fun a b hab h =>
      upd_all_not_mem _ a b L m hs hLin hab h
    refine ⟨_, rfl, upd_all_cfg _ _ _, upd_all_state _ _ _, upd_all_unsolvable _ _ _,
      fun a b hab => ?_, fun _ => ⟨fun p hp hne => ?_, fun a b hab hn => ?_⟩,
      fun hne => absurd hcount hne⟩
    · by_cases hmem : (a, b) ∈ L
      · rw [hin' a b hmem]
        exact ⟨rfl, rfl, fun hr => absurd hr ((hLmem a b).1 hmem).2⟩
      · rw [hout a b hab hmem]
        exact ⟨rfl, rfl, fun _ => rfl⟩
    · rw [hin' p.1 p.2 ((hLmem p.1 p.2).2 ⟨hp, hne⟩)]
    · exact hout a b hab fun h => hn ((hLmem a b).1 h)
  · rw [if_neg hfire]
    refine ⟨m, rfl, rfl, rfl, rfl, fun a b _ => ⟨rfl, rfl, fun _ => rfl⟩, fun hc => ?_,
      fun _ => rfl⟩
    exact absurd (size_eq_of_eq hle (by rw [hlen]; exact hc)) hfire

theorem speed_flag_spec_witness :
    ∃ m', corner_mine_open.speed_flag 1 1 = Except.ok m' ∧ m'.cfg = corner_mine_open.cfg ∧
      m'.state = corner_mine_open.state ∧ m'.unsolvable = corner_mine_open.unsolvable ∧
      (∀ a b, corner_mine_open.cfg.inb a b →
        (m'.cell_at a b).is_mine = (corner_mine_open.cell_at a b).is_mine ∧
        (m'.cell_at a b).n_mines = (corner_mine_open.cell_at a b).n_mines ∧
        ((corner_mine_open.cell_at a b).state = cell_state.revealed →
          m'.cell_at a b = corner_mine_open.cell_at a b)) ∧
      ((corner_mine_open.covered_around 1 1 : Int) = (corner_mine_open.cell_at 1 1).n_mines →
        (∀ p ∈ corner_mine_open.neighbors 1 1,
          (corner_mine_open.cell_at p.1 p.2).state ≠ cell_state.revealed →
          (m'.cell_at p.1 p.2).state = cell_state.flagged) ∧
        (∀ a b, corner_mine_open.cfg.inb a b →
          ¬ ((a, b) ∈ corner_mine_open.neighbors 1 1 ∧
            (corner_mine_open.cell_at a b).state ≠ cell_state.revealed) →
          m'.cell_at a b = corner_mine_open.cell_at a b)) ∧
      ((corner_mine_open.covered_around 1 1 : Int) ≠ (corner_mine_open.cell_at 1 1).n_mines →
        m' = corner_mine_open) :=
  speed_flag_spec corner_mine_open 1 1 (by decide) (by decide) (by decide)

/-! ## Chording: `speed_reveal` through `primary_click` -/

/-- The loop of `speed_reveal` returns; a cell keeps its state or becomes revealed, and
no cell of the list is hidden afterwards. -/
theorem reveal_all_open :
    ∀ (ps : List (Int × Int)) (m : minesweeper), m.sized → (∀ p ∈ ps, m.cfg.inb p.1 p.2) →
      ∃ m', m.reveal_all ps = Except.ok m' ∧ evolves T_open m m' ∧
        ∀ p ∈ ps, (m'.cell_at p.1 p.2).state ≠ cell_state.hidden
  | [], m, hs, _ => ⟨m, rfl, evolves_refl T_open_refl hs, fun _ h => by cases h⟩
  | p :: ps, m, hs, h => by
    have hp := h p (List.mem_cons_self _ _)
    obtain ⟨m1, h1, e1, _, c1⟩ := reveal_total hs p.1 p.2
    obtain ⟨m', h2, e2, c2⟩ := reveal_all_open ps m1 e1.sized
      fun q hq => e1.cfg ▸ h q (List.mem_cons_of_mem _ hq)
    refine ⟨m', ?_, evolves_trans T_open_trans e1 e2, ?_⟩
    · unfold minesweeper.reveal_all at h2 ⊢
      rw [List.foldlM_cons, h1, ok_bind, h2]
    · intro q hq
      rcases List.mem_cons.1 hq with rfl | hq
      · exact fun hc => c1 hp (T_open_solve _ _ (e2.state _ _ (e1.cfg ▸ hp)) hc)
      · exact c2 q hq

/-- C13: for every engine in the playing state and every cell `(x, y)` inside the
board that is revealed, is not a mine and has `n_mines > 0`, with `k` the number of
its neighbors that are flagged or question-marked: `primary_click(x, y)` returns; when
`k = n_mines` every neighbor that was hidden is revealed afterwards and no neighbor is
left hidden; when `k ≠ n_mines` no cell changes. -/
theorem chord_spec {G : Type} (R : rng G) (m : minesweeper) (x y : Int) (hs : m.sized)
    (hp : m.state = game_state.playing) (hin : m.cfg.inb x y)
    (hr : (m.cell_at x y).state = cell_state.revealed)
    (hnm : (m.cell_at x y).is_mine = false) (hpos : 0 < (m.cell_at x y).n_mines)
    (hint : is_int (m.cell_at x y).n_mines) :
    ∃ m', m.primary_click R x y = Except.ok m' ∧ m'.cfg = m.cfg ∧
      ((m.marked_around x y : Int) = (m.cell_at x y).n_mines →
        (∀ p ∈ m.neighbors x y, (m.cell_at p.1 p.2).state = cell_state.hidden →
          (m'.cell_at p.1 p.2).state = cell_state.revealed) ∧
        (∀ p ∈ m.neighbors x y, (m'.cell_at p.1 p.2).state ≠ cell_state.hidden)) ∧
      ((m.marked_around x y : Int) ≠ (m.cell_at x y).n_mines → m'.board = m.board) := by
  generalize hM : (m.neighbors x y).filter
    (fun q => decide ((m.cell_at q.1 q.2).state = cell_state.flagged) ||
      decide ((m.cell_at q.1 q.2).state = cell_state.qmarked)) = marked
  generalize hH : (m.neighbors x y).filter
    (fun q => decide ((m.cell_at q.1 q.2).state = cell_state.hidden)) = hidden
  have hlen : marked.length = m.marked_around x y := by
    rw [← hM, minesweeper.marked_around, List.countP_eq_length_filter]
    congr 1
    apply List.filter_congr
    intro q _
    simp
  have hle : marked.length ≤ 8 := by
    rw [← hM]
    exact (List.length_filter_le _ _).trans (neighbors_length_le m x y)
  have hHin : ∀ p ∈ hidden, m.cfg.inb p.1 p.2 := by
    intro p hp
    rw [← hH] at hp
    exact inb_of_mem_neighbors (List.mem_filter.1 hp).1
  have hrun : m.primary_click R x y =
      (if marked.length = to_size_t (m.cell_at x y).n_mines then m.reveal_all hidden
        else Except.ok m) >>= fun m => m.settle := by
    simp only [minesweeper.primary_click, out_of_range_of_inb hin, hp, get_at_ok hin, hr, hnm,
      hpos, minesweeper.speed_reveal, select_neighbors, ok_bind, pure_eq_ok, reduceCtorEq,
      Bool.false_eq_true, if_false, if_true, ne_eq, not_true_eq_false, or_self]
    rw [show (m.neighbors x y).filter
      (fun q => decide ((m.cell_at q.1 q.2).state = cell_state.flagged) ||
        decide ((m.cell_at q.1 q.2).state = cell_state.qmarked)) = marked from hM,
      show (m.neighbors x y).filter
        (fun q => decide ((m.cell_at q.1 q.2).state = cell_state.hidden)) = hidden from hH]
  rw [hrun]
  by_cases hfire : marked.length = to_size_t (m.cell_at x y).n_mines
  · rw [if_pos hfire]
    have hcount : (m.marked_around x y : Int) = (m.cell_at x y).n_mines := by
      rw [← hlen]
      exact (size_eq_iff hle hint).1 hfire
    obtain ⟨m2, r2, e2, c2⟩ := reveal_all_open hidden m hs hHin
    obtain ⟨m', r3, sb, _, _⟩ := settle_ok m2
    have hcell : ∀ a b, m'.cell_at a b = m2.cell_at a b := fun a b => cell_at_congr sb a b
    refine ⟨m', by rw [r2, ok_bind, r3], sb.1.trans e2.cfg,
      fun _ => ⟨fun p hp hh => ?_, fun p hp => ?_⟩, fun hne => absurd hcount hne⟩
    · have hmem : p ∈ hidden := by
        rw [← hH, List.mem_filter]
        exact ⟨hp, by simpa using hh⟩
      rw [hcell]
      rcases e2.state p.1 p.2 (inb_of_mem_neighbors hp) with h | h
      · exact absurd (h.trans hh) (c2 p hmem)
      · exact h
    · rw [hcell]
      intro hc
      have h0 := T_open_solve _ _ (e2.state p.1 p.2 (inb_of_mem_neighbors hp)) hc
      have hmem : p ∈ hidden := by
        rw [← hH, List.mem_filter]
        exact ⟨hp, by simpa using h0⟩
      exact c2 p hmem hc
  · rw [if_neg hfire, ok_bind]
    obtain ⟨m', r3, sb, _, _⟩ := settle_ok m
    refine ⟨m', r3, sb.1, fun hc => ?_, fun _ => sb.2⟩
    exact absurd (size_eq_of_eq hle (by rw [hlen]; exact hc)) hfire

theorem chord_spec_witness :
    ∃ m', chord_ready.primary_click rng_id 1 1 = Except.ok m' ∧ m'.cfg = chord_ready.cfg ∧
      ((chord_ready.marked_around 1 1 : Int) = (chord_ready.cell_at 1 1).n_mines →
        (∀ p ∈ chord_ready.neighbors 1 1,
          (chord_ready.cell_at p.1 p.2).state = cell_state.hidden →
          (m'.cell_at p.1 p.2).state = cell_state.revealed) ∧
        (∀ p ∈ chord_ready.neighbors 1 1, (m'.cell_at p.1 p.2).state ≠ cell_state.hidden)) ∧
      ((chord_ready.marked_around 1 1 : Int) ≠ (chord_ready.cell_at 1 1).n_mines →
        m'.board = chord_ready.board) :=
  chord_spec rng_id chord_ready 1 1 (by decide) (by decide) (by decide) (by decide)
    (by decide) (by decide) (by decide)

/-! ## The first click on a board without mines -/

/-- On a board whose cells are all default cells, every cell is reached from every
cell: the board is connected by steps between 8-adjacent cells. -/
theorem blank_reach {m : minesweeper} (hb : m.blank) {x y : Int} (hin : m.cfg.inb x y) :
    ∀ (n : Nat) (a b : Int), m.cfg.inb a b → x - n ≤ a → a ≤ x + n → y - n ≤ b → b ≤ y + n →
      m.reach (x, y) (a, b) := by
  intro n
  induction n with
  | zero =>
    intro a b _ h1 h2 h3 h4
    have ha : a = x := by omega
    have hb' : b = y := by omega
    rw [ha, hb']
    exact minesweeper.reach.start
  | succ n ih =>
    intro a b hab h1 h2 h3 h4
    obtain ⟨i1, i2, i3, i4⟩ := hin
    obtain ⟨j1, j2, j3, j4⟩ := hab
    -- one step towards `(x, y)` on each axis that is too far
    obtain ⟨a', ha1, ha2, ha3, ha4, ha5⟩ : ∃ a' : Int, x - n ≤ a' ∧ a' ≤ x + n ∧ 0 ≤ a' ∧
        a' < m.cfg.width ∧ (a - a' = 1 ∨ a - a' = 0 ∨ a - a' = -1) := by
      by_cases c1 : a < x - n
      · exact ⟨a + 1, by omega, by omega, by omega, by omega, by omega⟩
      · by_cases c2 : x + n < a
        · exact ⟨a - 1, by omega, by omega, by omega, by omega, by omega⟩
        · exact ⟨a, by omega, by omega, by omega, by omega, by omega⟩
    obtain ⟨b', hb1, hb2, hb3, hb4, hb5⟩ : ∃ b' : Int, y - n ≤ b' ∧ b' ≤ y + n ∧ 0 ≤ b' ∧
        b' < m.cfg.height ∧ (b - b' = 1 ∨ b - b' = 0 ∨ b - b' = -1) := by
      by_cases c1 : b < y - n
      · exact ⟨b + 1, by omega, by omega, by omega, by omega, by omega⟩
      · by_cases c2 : y + n < b
        · exact ⟨b - 1, by omega, by omega, by omega, by omega, by omega⟩
        · exact ⟨b, by omega, by omega, by omega, by omega, by omega⟩
    have hin' : m.cfg.inb a' b' := ⟨ha3, ha4, hb3, hb4⟩
    have hr := ih a' b' hin' ha1 ha2 hb1 hb2
    by_cases he : (a, b) = (a', b')
    · rw [he]; exact hr
    · refine hr.step (c := (a', b')) (n := (a, b)) ?_ ?_ ?_
      · show (m.cell_at a' b').n_mines = 0
        rw [hb a' b' hin']
      · rw [mem_neighbors]
        refine ⟨hin', ⟨j1, j2, j3, j4⟩, he, ?_, ?_⟩
        · show |a - a'| ≤ 1
          rw [abs_le]; omega
        · show |b - b'| ≤ 1
          rw [abs_le]; omega
      · show (m.cell_at a b).state = cell_state.hidden
        rw [hb a b ⟨j1, j2, j3, j4⟩]

/-- On a board of default cells, `reveal` reveals every cell. -/
theorem reveal_blank {m : minesweeper} (hs : m.sized) (hb : m.blank) {x y : Int}
    (hin : m.cfg.inb x y) :
    ∃ m', m.reveal x y = Except.ok m' ∧ m'.cfg = m.cfg ∧
      ∀ a b, m.cfg.inb a b → (m'.cell_at a b).state = cell_state.revealed ∧
        (m'.cell_at a b).is_mine = false := by
  have hh : (m.cell_at x y).state = cell_state.hidden := by rw [hb x y hin]
  have hnm : (m.cell_at x y).is_mine = false := by rw [hb x y hin]
  obtain ⟨m', h1, e, _, hr⟩ := reveal_loop_reach hs hin hh
  refine ⟨m', ?_, e.cfg, fun a b hab => ⟨?_, ?_⟩⟩
  · simp only [minesweeper.reveal, out_of_range_of_inb hin, get_at_ok hin, hnm, ok_bind,
      Bool.false_eq_true, if_false]
    exact h1
  · have hab0 : (m.cell_at a b).state = cell_state.hidden := by rw [hb a b hab]
    obtain ⟨n, hn1, hn2⟩ : ∃ n : Nat, (|a - x| : Int) ≤ n ∧ (|b - y| : Int) ≤ n :=
      ⟨(|a - x| + |b - y|).toNat, by
        have := abs_nonneg (a - x); have := abs_nonneg (b - y); omega, by
        have := abs_nonneg (a - x); have := abs_nonneg (b - y); omega⟩
    rw [abs_le] at hn1 hn2
    exact (hr a b hab hab0).2
      (blank_reach hb hin n a b hab (by omega) (by omega) (by omega) (by omega))
  · rw [e.is_mine a b hab, hb a b hab]

/-- C11: for every engine reset with `width ≥ 1` and `height ≥ 1` on which generation
places no mine, because `cfg.mines = 0` or because the configuration fails `validate`
and `generate_mines` is skipped, the first `primary_click` inside the board returns
with every cell of the board revealed and the game state won. -/
theorem first_click_without_mines {G : Type} (R : rng G) (hR : R.lawful) (m : minesweeper)
    (x y : Int) (hw : 1 ≤ m.cfg.width) (hh : 1 ≤ m.cfg.height) (iw : is_int m.cfg.width)
    (ih : is_int m.cfg.height) (hno : m.cfg.mines = 0 ∨ m.cfg.validate = false)
    (hin : m.cfg.inb x y) :
    ∃ m1 m', m.reset = Except.ok m1 ∧ m1.primary_click R x y = Except.ok m' ∧
      m'.state = game_state.won ∧
      ∀ a b, m.cfg.inb a b → (m'.cell_at a b).state = cell_state.revealed ∧
        (m'.cell_at a b).is_mine = false := by
  obtain ⟨m1, r1, c1, s1, st1, _, cell1⟩ := reset_spec hw hh iw ih
  have hin1 : m1.cfg.inb x y := c1 ▸ hin
  -- generation leaves a board of default cells
  obtain ⟨m2, r2, c2, s2, b2⟩ : ∃ m2, m1.generate_mines R x y = Except.ok m2 ∧
      m2.cfg = m1.cfg ∧ m2.sized ∧ m2.blank := by
    by_cases hv : m.cfg.validate = true
    · have hm0 : m.cfg.mines = 0 := by
        rcases hno with h | h
        · exact h
        · rw [hv] at h; cases h
      obtain ⟨m2, _, _, _, _, r2, _, _, _, hg, _⟩ :=
        generate_mines_spec R hR s1 (c1 ▸ hv) (by rw [c1, hm0]) hin1
      refine ⟨m2, r2, hg.cfg, hg.sized, fun a b hab => ?_⟩
      have hab1 : m1.cfg.inb a b := hg.cfg ▸ hab
      have htot : m2.mine_count = 0 := by
        have := hg.total
        rw [c1, hm0] at this
        exact_mod_cast this
      have hnone : ∀ p : Int × Int, m2.cfg.inb p.1 p.2 → (m2.cell_at p.1 p.2).is_mine = false := by
        intro p hp
        have := List.countP_eq_zero.1 htot p (mem_coords.2 hp)
        simpa using this
      have hz : (m2.cell_at a b).n_mines = 0 := by
        rw [hg.counts a b hab1, minesweeper.mines_around, List.countP_eq_zero.2]
        · rfl
        · intro p hp
          rw [hnone p (inb_of_mem_neighbors hp)]
          simp
      have i1 := hnone (a, b) hab
      have i3 := hg.hidden a b hab
      cases hc : m2.cell_at a b
      simp_all
    · refine ⟨m1, ?_, rfl, s1, fun a b hab => cell1 a b (c1 ▸ hab)⟩
      simp [minesweeper.generate_mines, c1, hv]
  obtain ⟨m3, r3, c3, h3⟩ := reveal_blank s2 b2 (c2 ▸ hin1)
  have hall : (m3.cfg.coords.all fun p => (m3.cell_at p.1 p.2).is_mine ||
      decide ((m3.cell_at p.1 p.2).state = cell_state.revealed)) = true := by
    rw [List.all_eq_true]
    intro p hp
    have hp' : m2.cfg.inb p.1 p.2 := c3 ▸ mem_coords.1 hp
    simp [(h3 p.1 p.2 hp').1]
  have hwon : ({ m3 with state := game_state.playing } : minesweeper).settle =
      Except.ok { m3 with state := game_state.won } := by
    unfold minesweeper.settle
    rw [check_won_ok, ok_bind]
    simp only [cell_at_set_state]
    rw [if_pos hall]
    rfl
  refine ⟨m1, { m3 with state := game_state.won }, r1, ?_, rfl, fun a b hab => ?_⟩
  · simp only [minesweeper.primary_click, out_of_range_of_inb hin1, st1, r2, ok_bind, r3,
      Bool.false_eq_true, if_false, if_true]
    exact hwon
  · rw [cell_at_set_state]
    exact h3 a b (c2 ▸ c1 ▸ hab)

theorem first_click_without_mines_witness :
    ∃ m1 m', (fresh 2 2 0).reset = Except.ok m1 ∧ m1.primary_click rng_id 0 1 = Except.ok m' ∧
      m'.state = game_state.won ∧
      ∀ a b, (fresh 2 2 0).cfg.inb a b → (m'.cell_at a b).state = cell_state.revealed ∧
        (m'.cell_at a b).is_mine = false :=
  first_click_without_mines rng_id rng_id_lawful (fresh 2 2 0) 0 1 (by decide) (by decide)
    (by decide) (by decide) (by decide) (by decide)

/-! ## Determinism of the first click -/

/-- The result of `reset` depends on the configuration and the flag `unsolvable`
only. -/
theorem reset_congr {a b : minesweeper} (hc : a.cfg = b.cfg)
    (hu : a.unsolvable = b.unsolvable) : a.reset = b.reset := by
  have : ({ a with board := [] } : minesweeper).initialize_board =
      ({ b with board := [] } : minesweeper).initialize_board := by
    unfold minesweeper.initialize_board
    congr 1
    exact minesweeper_ext hc rfl hu rfl
  exact this

/-- Two engines with the same configuration and the same flag `unsolvable` are the
same engine after `reset()` and the same first click. -/
theorem first_click_deterministic {G : Type} (R : rng G) (a b : minesweeper) (x y : Int)
    (hc : a.cfg = b.cfg) (hu : a.unsolvable = b.unsolvable) :
    (a.reset >>= fun m => m.primary_click R x y) =
      (b.reset >>= fun m => m.primary_click R x y) := by
  rw [reset_congr hc hu]

/-- C21, at the failing input: two engines with the same configuration, 2x2 without
mines, one of them with the flag `unsolvable` left true by an earlier game, are reset
and receive the same first click `(0, 0)`.  Both end won with the same cells, but the
flag `unsolvable` is true in one and false in the other: `reset` keeps the flag and
`generate_mines`, which this configuration makes return at once, does not write it. -/
theorem first_click_keeps_stale_flag :
    ∃ a b : minesweeper,
      ({ fresh 2 2 0 with unsolvable := true } : minesweeper).cfg = (fresh 2 2 0).cfg ∧
      (({ fresh 2 2 0 with unsolvable := true } : minesweeper).reset >>= fun m =>
        m.primary_click rng_id 0 0) = Except.ok a ∧
      ((fresh 2 2 0).reset >>= fun m => m.primary_click rng_id 0 0) = Except.ok b ∧
      a.board = b.board ∧ a.state = b.state ∧ a.unsolvable = true ∧ b.unsolvable = false :=
  ⟨_, _, rfl, rfl, rfl, rfl, rfl, rfl, rfl⟩

/-! ## The clue cells of the deduction loop -/

/-- The scan of the deduction loop does nothing on a cell that is not hidden: a
revealed cell is never the clue cell of a rule. -/
theorem deduce_cell_skips {m : minesweeper} {x y : Int} (hin : m.cfg.inb x y)
    (h : (m.cell_at x y).state ≠ cell_state.hidden) (progress : Bool) :
    m.deduce_cell progress x y = Except.ok (m, progress) := by
  simp [minesweeper.deduce_cell, get_at_ok hin, h]

/-- C23, at the failing inputs.  On `chord_ready` the revealed cell `(1, 1)` shows 2
and has its two mines flagged, yet the scan of that cell reveals none of its hidden
neighbors.  On `guess_board`, after the reveal at `(0, 0)`, the scan of the hidden
cell `(3, 0)`, a mine with `n_mines = 0`, applies Rule A with that hidden cell as the
clue cell and reveals its hidden neighbor `(4, 1)`; this way `logically_solvable(0, 0)`
returns true on a board where the revealed numbers leave the mine undetermined. -/
theorem hidden_cells_are_the_clue_cells :
    chord_ready.deduce_cell false 1 1 = Except.ok (chord_ready, false) ∧
    (∃ m1 m2 : minesweeper, guess_board.reveal 0 0 = Except.ok m1 ∧
      (m1.cell_at 3 0).state = cell_state.hidden ∧
      (m1.cell_at 4 1).state = cell_state.hidden ∧
      m1.deduce_cell false 3 0 = Except.ok (m2, true) ∧
      (m2.cell_at 3 0).state = cell_state.hidden ∧
      (m2.cell_at 4 1).state = cell_state.revealed) ∧
    guess_board.cfg.validate = true ∧
    guess_board.logically_solvable 0 0 = Except.ok (true, guess_board) :=
  ⟨rfl, ⟨_, _, rfl, rfl, rfl, rfl, rfl, rfl⟩, rfl, rfl⟩

/-! ## A loss at the first click -/

/-- C24, counterexample: the engine awaits the first click on a board with a mine
forced at `(2, 2)`, and its configuration fails `validate`, so `generate_mines` returns
at once.  The `reveal(2, 2)` inside `primary_click(2, 2)` sets the game state to lost,
and `primary_click` returns with the mine revealed and the game state playing, not
lost. -/
theorem first_click_overwrites_loss :
    first_click_mine.state = game_state.first_click ∧ first_click_mine.cfg.inb 2 2 ∧
    first_click_mine.generate_mines rng_id 2 2 = Except.ok first_click_mine ∧
    (∃ m1, first_click_mine.reveal 2 2 = Except.ok m1 ∧ m1.state = game_state.lost) ∧
    ∃ m', first_click_mine.primary_click rng_id 2 2 = Except.ok m' ∧
      m'.state = game_state.playing ∧ (m'.cell_at 2 2).is_mine = true ∧
      (m'.cell_at 2 2).state = cell_state.revealed :=
  ⟨rfl, by decide, rfl, ⟨_, rfl, rfl⟩, _, rfl, rfl, rfl, rfl⟩

/-! ## The flood fill on exact counts reveals no mine -/

theorem exact_of_evolves {T : cell_state → cell_state → Prop} {m m' : minesweeper}
    (e : evolves T m m') (he : m.exact) : m'.exact := by
  intro x y hxy
  have hxy' : m.cfg.inb x y := e.cfg ▸ hxy
  rw [e.n_mines x y hxy', he x y hxy', mines_around_congr e.cfg e.is_mine]

theorem no_mine_around {m : minesweeper} (he : m.exact) {x y : Int} (hin : m.cfg.inb x y)
    (hz : (m.cell_at x y).n_mines = 0) :
    ∀ p ∈ m.neighbors x y, (m.cell_at p.1 p.2).is_mine = false := by
  intro p hp
  have h0 : m.mines_around x y = 0 := by
    have := he x y hin
    rw [hz] at this
    exact_mod_cast this.symm
  have := List.countP_eq_zero.1 h0 p hp
  simpa using this

/-- With exact counts, the queue loop started on cells that are not mines reveals no
mine. -/
theorem reveal_loop_safe {m : minesweeper} (hs : m.sized) (he : m.exact) (fuel : Nat)
    (q : List (Int × Int)) (hq : ∀ r ∈ q, m.cfg.inb r.1 r.2)
    (hf : q.length + 9 * m.hidden_count ≤ fuel)
    (hqm : ∀ r ∈ q, (m.cell_at r.1 r.2).is_mine = false) :
    ∃ m', reveal_loop fuel q m = Except.ok m' ∧ evolves T_uncover m m' ∧ m'.state = m.state ∧
      (∀ a b, m.cfg.inb a b → (m'.cell_at a b).state = cell_state.revealed →
        (m.cell_at a b).state = cell_state.revealed ∨ (m.cell_at a b).is_mine = false) ∧
      ∀ r ∈ q, (m'.cell_at r.1 r.2).state ≠ cell_state.hidden := by
  obtain ⟨m', h1, e, hqm', hnew⟩ := reveal_loop_rule
    (fun q' m' => evolves T_uncover m m' ∧
      (∀ r ∈ q', (m.cell_at r.1 r.2).is_mine = false) ∧
      (∀ a b, m.cfg.inb a b → (m'.cell_at a b).state = cell_state.revealed →
        (m.cell_at a b).state = cell_state.revealed ∨ (m.cell_at a b).is_mine = false))
    (by
      rintro p q' m1 _ _ ⟨e, hm, hn⟩ _
      exact ⟨e, fun r hr => hm r (List.mem_cons_of_mem _ hr), hn⟩)
    (by
      rintro p q' m1 hs1 hq1 ⟨e, hm, hn⟩ hph _
      have hp1 : m1.cfg.inb p.1 p.2 := hq1 p (List.mem_cons_self _ _)
      refine ⟨evolves_trans T_uncover_trans e (evolves_reveal_cell hs1 hp1 hph),
        fun r hr => hm r (List.mem_cons_of_mem _ hr), fun a b hab hr => ?_⟩
      rw [cell_at_upd hs1 hp1 (e.cfg ▸ hab)] at hr
      split at hr
      · next heq =>
        right
        have : (a, b) = p := heq
        rw [show a = p.1 from congrArg Prod.fst this, show b = p.2 from congrArg Prod.snd this]
        exact hm p (List.mem_cons_self _ _)
      · exact hn a b hab hr)
    (by
      rintro p q' m1 hs1 hq1 ⟨e, hm, hn⟩ hph hz
      have hp1 : m1.cfg.inb p.1 p.2 := hq1 p (List.mem_cons_self _ _)
      have hp : m.cfg.inb p.1 p.2 := e.cfg ▸ hp1
      have hpz : (m.cell_at p.1 p.2).n_mines = 0 := by rw [← e.n_mines _ _ hp]; exact hz
      refine ⟨evolves_trans T_uncover_trans e (evolves_reveal_cell hs1 hp1 hph),
        fun r hr => ?_, fun a b hab hr => ?_⟩
      · rcases List.mem_append.1 hr with h | h
        · exact hm r (List.mem_cons_of_mem _ h)
        · have hr1 := (List.mem_filter.1 h).1
          rw [neighbors_congr e.cfg] at hr1
          exact no_mine_around he hp hpz r hr1
      · rw [cell_at_upd hs1 hp1 (e.cfg ▸ hab)] at hr
        split at hr
        · next heq =>
          right
          have : (a, b) = p := heq
          rw [show a = p.1 from congrArg Prod.fst this,
            show b = p.2 from congrArg Prod.snd this]
          exact hm p (List.mem_cons_self _ _)
        · exact hn a b hab hr)
    fuel q m hs hq hf
    ⟨evolves_refl T_uncover_refl hs, hqm, fun a b _ h => Or.inl h⟩
  obtain ⟨m'', h1', _, st, hnh⟩ := reveal_loop_uncover fuel q m hs hq hf
  have : m'' = m' := by
    rw [h1] at h1'
    exact (Except.ok.inj h1').symm
  subst this
  exact ⟨m'', h1, e, st, hnew, hnh⟩

/-- With exact counts, `reveal` on a cell that is not a mine reveals no mine and keeps
the game state. -/
theorem reveal_nonmine {m : minesweeper} (hs : m.sized) (he : m.exact) {x y : Int}
    (hnm : (m.cell_at x y).is_mine = false) :
    ∃ m', m.reveal x y = Except.ok m' ∧ evolves T_uncover m m' ∧ m'.state = m.state ∧
      (∀ a b, m.cfg.inb a b → (m'.cell_at a b).state = cell_state.revealed →
        (m.cell_at a b).state = cell_state.revealed ∨ (m.cell_at a b).is_mine = false) ∧
      (m.cfg.inb x y → (m'.cell_at x y).state ≠ cell_state.hidden) := by
  by_cases hin : m.cfg.inb x y
  · obtain ⟨m', h1, e, st, hn, hh⟩ := reveal_loop_safe hs he m.reveal_fuel [(x, y)]
      (by simpa using hin) (reveal_fuel_enough m x y) (by simpa using hnm)
    refine ⟨m', ?_, e, st, hn, fun _ => hh (x, y) (List.mem_singleton_self _)⟩
    simp only [minesweeper.reveal, out_of_range_of_inb hin, get_at_ok hin, hnm, ok_bind,
      Bool.false_eq_true, if_false]
    exact h1
  · refine ⟨m, ?_, evolves_refl T_uncover_refl hs, rfl, fun a b _ h => Or.inl h,
      fun h => absurd h hin⟩
    simp [minesweeper.reveal, out_of_range_of_not_inb hin]

/-- With exact counts, the loop calling `reveal` on a list of cells that are not mines
reveals no mine, keeps the game state, and leaves no cell of the list hidden. -/
theorem reveal_all_nonmine :
    ∀ (ps : List (Int × Int)) (m : minesweeper), m.sized → m.exact →
      (∀ p ∈ ps, m.cfg.inb p.1 p.2 ∧ (m.cell_at p.1 p.2).is_mine = false) →
      ∃ m', m.reveal_all ps = Except.ok m' ∧ evolves T_uncover m m' ∧ m'.state = m.state ∧
        (∀ a b, m.cfg.inb a b → (m'.cell_at a b).state = cell_state.revealed →
          (m.cell_at a b).state = cell_state.revealed ∨ (m.cell_at a b).is_mine = false) ∧
        ∀ p ∈ ps, (m'.cell_at p.1 p.2).state ≠ cell_state.hidden
  | [], m, hs, _, _ =>
    ⟨m, rfl, evolves_refl T_uncover_refl hs, rfl, fun _ _ _ h => Or.inl h,
      fun _ h => by cases h⟩
  | p :: ps, m, hs, he, h => by
    obtain ⟨hp, hpm⟩ := h p (List.mem_cons_self _ _)
    obtain ⟨m1, r1, e1, st1, n1, c1⟩ := reveal_nonmine hs he hpm
    obtain ⟨m', r2, e2, st2, n2, c2⟩ := reveal_all_nonmine ps m1 e1.sized
      (exact_of_evolves e1 he) fun q hq =>
        ⟨e1.cfg ▸ (h q (List.mem_cons_of_mem _ hq)).1, by
          rw [e1.is_mine q.1 q.2 (h q (List.mem_cons_of_mem _ hq)).1]
          exact (h q (List.mem_cons_of_mem _ hq)).2⟩
    refine ⟨m', ?_, evolves_trans T_uncover_trans e1 e2, st2.trans st1, fun a b hab hr => ?_,
      fun q hq => ?_⟩
    · unfold minesweeper.reveal_all at r2 ⊢
      rw [List.foldlM_cons, r1, ok_bind, r2]
    · rcases n2 a b (e1.cfg ▸ hab) hr with h' | h'
      · exact n1 a b hab h'
      · right; rw [← e1.is_mine a b hab]; exact h'
    · rcases List.mem_cons.1 hq with rfl | hq
      · intro hc
        have := e2.state _ _ (e1.cfg ▸ hp)
        exact c1 hp (T_open_solve _ _ (T_uncover_open _ _ this) hc)
      · exact c2 q hq

/-! ## Soundness of the two deduction rules -/

theorem countP_imp_eq {α : Type} (p q : α → Bool) :
    ∀ l : List α, (∀ a ∈ l, p a = true → q a = true) → l.countP q ≤ l.countP p →
      ∀ a ∈ l, q a = true → p a = true
  | [], _, _, a, h, _ => by cases h
  | b :: l, himp, hle, a, ha, hq => by
    have hmono : l.countP p ≤ l.countP q :=
      List.countP_mono_left fun a ha h => himp a (List.mem_cons_of_mem _ ha) h
    have ih := countP_imp_eq p q l (fun a ha => himp a (List.mem_cons_of_mem _ ha))
    rw [List.countP_cons, List.countP_cons] at hle
    by_cases hpb : p b = true
    · have hqb := himp b (List.mem_cons_self _ _) hpb
      rw [if_pos hpb, if_pos hqb] at hle
      rcases List.mem_cons.1 ha with rfl | ha
      · exact hpb
      · exact ih (by omega) a ha hq
    · rw [if_neg hpb] at hle
      by_cases hqb : q b = true
      · rw [if_pos hqb] at hle; omega
      · rw [if_neg hqb] at hle
        rcases List.mem_cons.1 ha with rfl | ha
        · exact absurd hq hqb
        · exact ih (by omega) a ha hq

theorem countP_or_disjoint {α : Type} (p q : α → Bool) :
    ∀ l : List α, (∀ a ∈ l, p a = true → q a = false) →
      l.countP (fun a => p a || q a) = l.countP p + l.countP q
  | [], _ => rfl
  | b :: l, h => by
    have ih := countP_or_disjoint p q l fun a ha => h a (List.mem_cons_of_mem _ ha)
    have hb := h b (List.mem_cons_self _ _)
    rw [List.countP_cons, List.countP_cons, List.countP_cons, ih]
    cases hp : p b <;> cases hq : q b <;> simp_all <;> omega

theorem to_size_t_natCast {k : Nat} (h : k ≤ 8) : to_size_t (k : Int) = k := by
  rw [to_size_t_of_int (by omega) ⟨by omega, by omega⟩]
  simp

theorem exact_of_coords {m : minesweeper}
    (h : ∀ p ∈ m.cfg.coords, (m.cell_at p.1 p.2).n_mines = (m.mines_around p.1 p.2 : Int)) :
    m.exact :=
  fun x y hxy => h (x, y) (mem_coords.2 hxy)

/-- The loop of Rule 2 returns and sets the cells of the list to flagged, and no other
cell. -/
theorem flag_all_spec :
    ∀ (ps : List (Int × Int)) (m : minesweeper), m.sized → (∀ p ∈ ps, m.cfg.inb p.1 p.2) →
      ∃ m', m.flag_all ps = Except.ok m' ∧ evolves T_solve m m' ∧ m'.state = m.state ∧
        ∀ a b, m.cfg.inb a b → (m'.cell_at a b).state =
          if (a, b) ∈ ps then cell_state.flagged else (m.cell_at a b).state
  | [], m, hs, _ => ⟨m, rfl, evolves_refl T_solve_refl hs, rfl, fun a b _ => by simp⟩
  | p :: ps, m, hs, h => by
    have hp := h p (List.mem_cons_self _ _)
    have e1 : evolves T_solve m (m.upd p.1 p.2 fun c => { c with state := cell_state.flagged }) :=
      evolves_upd T_solve_refl hs hp _ rfl rfl (fun hc => by cases hc)
    obtain ⟨m', r, e2, st, c⟩ := flag_all_spec ps _ e1.sized
      (fun q hq => h q (List.mem_cons_of_mem _ hq))
    refine ⟨m', ?_, evolves_trans T_solve_trans e1 e2, st, fun a b hab => ?_⟩
    · unfold minesweeper.flag_all at r ⊢
      rw [List.foldlM_cons, modify_at_ok hp, ok_bind, r]
    · rw [c a b hab, cell_at_upd hs hp hab]
      by_cases hm : (a, b) ∈ ps
      · simp [hm]
      · by_cases he : (a, b) = (p.1, p.2)
        · have : (a, b) = p := he
          simp [this]
        · have : (a, b) ≠ p := he
          simp [hm, this, he]

/-- With exact counts, the scan of one cell keeps the flags on mines and the revealed
cells free of mines, and keeps the game state. -/
theorem deduce_cell_sound {m : minesweeper} (hs : m.sized) (he : m.exact) (hv : m.sound)
    (hu : m.unmarked) (progress : Bool) {x y : Int} (hin : m.cfg.inb x y) :
    ∃ m' p', m.deduce_cell progress x y = Except.ok (m', p') ∧ evolves T_solve m m' ∧
      m'.sound ∧ m'.unmarked ∧ m'.state = m.state := by
  unfold minesweeper.deduce_cell
  simp only [get_at_ok hin, ok_bind, select_neighbors]
  by_cases hh : (m.cell_at x y).state = cell_state.hidden
  swap
  · exact ⟨m, progress, by simp [hh], evolves_refl T_solve_refl hs, hv, hu, rfl⟩
  simp only [hh, ne_eq, not_true_eq_false, if_false]
  have hn : (m.cell_at x y).n_mines = (m.mines_around x y : Int) := he x y hin
  have hsz : to_size_t (m.cell_at x y).n_mines = m.mines_around x y := by
    rw [hn, to_size_t_natCast (mines_around_le m x y)]
  have hFlen : ((m.neighbors x y).filter
      (fun q => decide ((m.cell_at q.1 q.2).state = cell_state.flagged))).length =
      (m.neighbors x y).countP
        (fun q => decide ((m.cell_at q.1 q.2).state = cell_state.flagged)) :=
    (List.countP_eq_length_filter _ _).symm
  have hHlen : ((m.neighbors x y).filter
      (fun q => decide ((m.cell_at q.1 q.2).state = cell_state.hidden))).length =
      (m.neighbors x y).countP
        (fun q => decide ((m.cell_at q.1 q.2).state = cell_state.hidden)) :=
    (List.countP_eq_length_filter _ _).symm
  have hflag : ∀ q ∈ m.neighbors x y,
      decide ((m.cell_at q.1 q.2).state = cell_state.flagged) = true →
      (m.cell_at q.1 q.2).is_mine = true := fun q hq hf =>
    hv.1 q.1 q.2 (inb_of_mem_neighbors hq) (by simpa using hf)
  generalize hF : (m.neighbors x y).filter
    (fun q => decide ((m.cell_at q.1 q.2).state = cell_state.flagged)) = flagged at hFlen
  generalize hH : (m.neighbors x y).filter
    (fun q => decide ((m.cell_at q.1 q.2).state = cell_state.hidden)) = hidden at hHlen
  have hHin : ∀ p ∈ hidden, m.cfg.inb p.1 p.2 := by
    intro p hp
    rw [← hH] at hp
    exact inb_of_mem_neighbors (List.mem_filter.1 hp).1
  have hHn : ∀ p ∈ hidden, p ∈ m.neighbors x y := by
    intro p hp
    rw [← hH] at hp
    exact (List.mem_filter.1 hp).1
  have hHh : ∀ p ∈ hidden, (m.cell_at p.1 p.2).state = cell_state.hidden := by
    intro p hp
    rw [← hH] at hp
    simpa using (List.mem_filter.1 hp).2
  by_cases h1 : flagged.length = to_size_t (m.cell_at x y).n_mines
  · -- Rule 1: every mine around the cell carries a flag
    have hall : ∀ q ∈ m.neighbors x y, (m.cell_at q.1 q.2).is_mine = true →
        decide ((m.cell_at q.1 q.2).state = cell_state.flagged) = true :=
      countP_imp_eq _ _ _ hflag (by
        rw [← hFlen, h1, hsz]
        exact le_of_eq rfl)
    have hsafe : ∀ p ∈ hidden, m.cfg.inb p.1 p.2 ∧ (m.cell_at p.1 p.2).is_mine = false := by
      intro p hp
      refine ⟨hHin p hp, ?_⟩
      by_contra hc
      have hm : (m.cell_at p.1 p.2).is_mine = true := by simpa using hc
      have hf := hall p (hHn p hp) hm
      rw [hHh p hp] at hf
      simp at hf
    obtain ⟨m1, r1, e1, st1, n1, _⟩ := reveal_all_nonmine hidden m hs he hsafe
    have hin1 : m1.cfg.inb x y := e1.cfg ▸ hin
    have hn1 : (m1.cell_at x y).n_mines = (m.cell_at x y).n_mines := e1.n_mines x y hin
    have hv1 : m1.sound := by
      refine ⟨fun a b hab hf => ?_, fun a b hab hr => ?_⟩
      · have hab0 : m.cfg.inb a b := e1.cfg ▸ hab
        rw [e1.is_mine a b hab0]
        rcases e1.state a b hab0 with h | ⟨_, h⟩
        · exact hv.1 a b hab0 (by rw [← h]; exact hf)
        · rw [h] at hf; cases hf
      · have hab0 : m.cfg.inb a b := e1.cfg ▸ hab
        rw [e1.is_mine a b hab0]
        rcases n1 a b hab0 hr with h | h
        · exact hv.2 a b hab0 h
        · exact h
    have hu1 : m1.unmarked := by
      intro a b hab hq
      have hab0 : m.cfg.inb a b := e1.cfg ▸ hab
      rcases e1.state a b hab0 with h | ⟨_, h⟩
      · exact hu a b hab0 (by rw [← h]; exact hq)
      · rw [h] at hq; cases hq
    simp only [h1, if_true, r1, ok_bind, pure_eq_ok, get_at_ok hin1, hn1]
    by_cases h2 : to_size_t (m.cell_at x y).n_mines + hidden.length
        = to_size_t (m.cell_at x y).n_mines
    · have hnil : hidden = [] := List.length_eq_zero.1 (by omega)
      subst hnil
      simp only [List.length_nil, add_zero, if_true]
      exact ⟨m1, _, rfl, evolves_mono (fun a b h => T_open_solve a b (T_uncover_open a b h)) e1,
        hv1, hu1, st1⟩
    · simp only [h2, if_false]
      exact ⟨m1, _, rfl, evolves_mono (fun a b h => T_open_solve a b (T_uncover_open a b h)) e1,
        hv1, hu1, st1⟩
  · simp only [h1, if_false, ok_bind, pure_eq_ok, get_at_ok hin]
    by_cases h2 : flagged.length + hidden.length = to_size_t (m.cell_at x y).n_mines
    · -- Rule 2: every hidden cell around the cell is a mine
      have hdis : ∀ q ∈ m.neighbors x y,
          decide ((m.cell_at q.1 q.2).state = cell_state.flagged) = true →
          decide ((m.cell_at q.1 q.2).state = cell_state.hidden) = false := by
        intro q _ hf
        have : (m.cell_at q.1 q.2).state = cell_state.flagged := by simpa using hf
        simp [this]
      have hcount := countP_or_disjoint
        (fun q : Int × Int => decide ((m.cell_at q.1 q.2).state = cell_state.flagged))
        (fun q : Int × Int => decide ((m.cell_at q.1 q.2).state = cell_state.hidden))
        (m.neighbors x y) hdis
      have hmine : ∀ q ∈ m.neighbors x y, (m.cell_at q.1 q.2).is_mine = true →
          (decide ((m.cell_at q.1 q.2).state = cell_state.flagged) ||
            decide ((m.cell_at q.1 q.2).state = cell_state.hidden)) = true := by
        intro q hq hm
        have hqi := inb_of_mem_neighbors hq
        have hnr : (m.cell_at q.1 q.2).state ≠ cell_state.revealed := fun hr => by
          have := hv.2 q.1 q.2 hqi hr
          rw [hm] at this
          cases this
        have hnq := hu q.1 q.2 hqi
        cases hst : (m.cell_at q.1 q.2).state <;> simp_all
      have hall := countP_imp_eq _ _ _ hmine (by
        rw [hcount, ← hFlen, ← hHlen, h2, hsz]
        exact le_of_eq rfl)
      have hmines : ∀ p ∈ hidden, (m.cell_at p.1 p.2).is_mine = true := by
        intro p hp
        apply hall p (hHn p hp)
        simp [hHh p hp]
      obtain ⟨m2, r2, e2, st2, c2⟩ := flag_all_spec hidden m hs hHin
      simp only [h2, if_true, r2, ok_bind]
      refine ⟨m2, _, rfl, e2, ⟨fun a b hab hf => ?_, fun a b hab hr => ?_⟩,
        fun a b hab hq => ?_, st2⟩
      · have hab0 : m.cfg.inb a b := e2.cfg ▸ hab
        rw [e2.is_mine a b hab0]
        rw [c2 a b hab0] at hf
        split at hf
        · next hm => exact hmines (a, b) hm
        · exact hv.1 a b hab0 hf
      · have hab0 : m.cfg.inb a b := e2.cfg ▸ hab
        rw [e2.is_mine a b hab0]
        rw [c2 a b hab0] at hr
        split at hr
        · cases hr
        · exact hv.2 a b hab0 hr
      · have hab0 : m.cfg.inb a b := e2.cfg ▸ hab
        rw [c2 a b hab0] at hq
        split at hq
        · cases hq
        · exact hu a b hab0 hq
    · simp only [h2, if_false]
      exact ⟨m, progress, rfl, evolves_refl T_solve_refl hs, hv, hu, rfl⟩

/-- With exact counts, the scan of any list of cells of the board keeps the flags on
mines and the revealed cells free of mines, and keeps the game state. -/
theorem scan_sound {m : minesweeper} (hs : m.sized) (he : m.exact) (hv : m.sound)
    (hu : m.unmarked) (ps : List (Int × Int)) (hps : ∀ p ∈ ps, m.cfg.inb p.1 p.2) :
    ∃ m' p', m.scan ps = Except.ok (m', p') ∧ evolves T_solve m m' ∧
      m'.sound ∧ m'.unmarked ∧ m'.state = m.state := by
  obtain ⟨⟨m', p'⟩, h1, h2, h3, h4, h5⟩ := foldlM_rule
    (fun (s : minesweeper × Bool) (p : Int × Int) => s.1.deduce_cell s.2 p.1 p.2)
    (fun s => evolves T_solve m s.1 ∧ s.1.sound ∧ s.1.unmarked ∧ s.1.state = m.state)
    ps (m, false) ⟨evolves_refl T_solve_refl hs, hv, hu, rfl⟩
    (by
      rintro ⟨m1, p1⟩ p hp ⟨e1, v1, u1, st1⟩
      have hin : m1.cfg.inb p.1 p.2 := e1.cfg ▸ hps p hp
      obtain ⟨m2, p2, r, e2, v2, u2, st2⟩ :=
        deduce_cell_sound e1.sized (exact_of_evolves e1 he) v1 u1 p1 hin
      exact ⟨(m2, p2), r, evolves_trans T_solve_trans e1 e2, v2, u2, st2.trans st1⟩)
  exact ⟨m', p', h1, h2, h3, h4, h5⟩

theorem deduce_pass_sound {m : minesweeper} (hs : m.sized) (he : m.exact) (hv : m.sound)
    (hu : m.unmarked) :
    ∃ m' p', m.deduce_pass = Except.ok (m', p') ∧ evolves T_solve m m' ∧
      m'.sound ∧ m'.unmarked ∧ m'.state = m.state :=
  scan_sound hs he hv hu m.cfg.coords fun _ hp => mem_coords.1 hp

theorem passes_sound :
    ∀ (k : Nat) (m : minesweeper), m.sized → m.exact → m.sound → m.unmarked →
      ∃ m', passes k m = Except.ok m' ∧ evolves T_solve m m' ∧
        m'.sound ∧ m'.unmarked ∧ m'.state = m.state
  | 0, m, hs, _, hv, hu => ⟨m, rfl, evolves_refl T_solve_refl hs, hv, hu, rfl⟩
  | k + 1, m, hs, he, hv, hu => by
    obtain ⟨m1, p1, r1, e1, v1, u1, st1⟩ := deduce_pass_sound hs he hv hu
    obtain ⟨m', r, e2, v2, u2, st2⟩ := passes_sound k m1 e1.sized (exact_of_evolves e1 he) v1 u1
    refine ⟨m', ?_, evolves_trans T_solve_trans e1 e2, v2, u2, st2.trans st1⟩
    simp only [passes, r1, ok_bind, r]

theorem deduction_loop_sound :
    ∀ (fuel : Nat) (m : minesweeper), m.sized → m.exact → m.sound → m.unmarked →
      m.hidden_count < fuel →
      ∃ m', deduction_loop fuel m = Except.ok m' ∧ evolves T_solve m m' ∧
        m'.sound ∧ m'.unmarked ∧ m'.state = m.state
  | 0, _, _, _, _, _, h => by omega
  | fuel + 1, m, hs, he, hv, hu, h => by
    obtain ⟨m1, p1, r1, e1, v1, u1, st1⟩ := deduce_pass_sound hs he hv hu
    obtain ⟨m1', p1', r1', _, c1⟩ := deduce_pass_total hs
    rw [r1] at r1'
    obtain ⟨rfl, rfl⟩ := Prod.mk.inj (Except.ok.inj r1')
    cases p1 with
    | false =>
      refine ⟨m1, ?_, e1, v1, u1, st1⟩
      simp [deduction_loop, r1]
    | true =>
      have hlt := c1 rfl
      obtain ⟨m', r', e', v', u', st'⟩ := deduction_loop_sound fuel m1 e1.sized
        (exact_of_evolves e1 he) v1 u1 (by omega)
      refine ⟨m', ?_, evolves_trans T_solve_trans e1 e', v', u', st'.trans st1⟩
      simp [deduction_loop, r1, r']

/-- C22: for every board of the configured size with every cell hidden and exact
`n_mines` values, and every start cell `(x, y)` inside the board that is not a mine:
the initial `reveal(x, y)` returns; after it, after any number of passes of the
deduction loop, after the scan of any further cells, and at the end of the loop, every
flagged cell is a mine and no revealed cell is a mine; the game state is never changed,
so `logically_solvable(x, y)` returns without setting the game state to lost. -/
theorem solvability_check_sound (m : minesweeper) (x y : Int) (hs : m.sized)
    (hh : m.all_hidden) (he : m.exact) (_hin : m.cfg.inb x y)
    (hnm : (m.cell_at x y).is_mine = false) :
    ∃ m1, m.reveal x y = Except.ok m1 ∧ m1.sound ∧ m1.state = m.state ∧
      (∀ (k : Nat) (ps : List (Int × Int)), (∀ p ∈ ps, m.cfg.inb p.1 p.2) →
        ∃ mk s, passes k m1 = Except.ok mk ∧ mk.sound ∧ mk.state = m.state ∧
          mk.scan ps = Except.ok s ∧ s.1.sound ∧ s.1.state = m.state) ∧
      ∃ m2, deduction_loop m1.deduction_fuel m1 = Except.ok m2 ∧ m2.sound ∧
        m2.state = m.state ∧
        ∃ r m', m.logically_solvable x y = Except.ok (r, m') ∧ m'.state = m.state := by
  obtain ⟨m1, r1, e1, st1, n1, _⟩ := reveal_nonmine hs he hnm
  have he1 := exact_of_evolves e1 he
  have hv1 : m1.sound := by
    refine ⟨fun a b hab hf => ?_, fun a b hab hr => ?_⟩
    · have hab0 : m.cfg.inb a b := e1.cfg ▸ hab
      rcases e1.state a b hab0 with h | ⟨_, h⟩
      · rw [h, hh a b hab0] at hf; cases hf
      · rw [h] at hf; cases hf
    · have hab0 : m.cfg.inb a b := e1.cfg ▸ hab
      rw [e1.is_mine a b hab0]
      rcases n1 a b hab0 hr with h | h
      · rw [hh a b hab0] at h; cases h
      · exact h
  have hu1 : m1.unmarked := by
    intro a b hab hq
    have hab0 : m.cfg.inb a b := e1.cfg ▸ hab
    rcases e1.state a b hab0 with h | ⟨_, h⟩
    · rw [h, hh a b hab0] at hq; cases hq
    · rw [h] at hq; cases hq
  refine ⟨m1, r1, hv1, st1, fun k ps hps => ?_, ?_⟩
  · obtain ⟨mk, rk, ek, vk, uk, stk⟩ := passes_sound k m1 e1.sized he1 hv1 hu1
    obtain ⟨m', p', rs, _, vs, _, sts⟩ := scan_sound ek.sized (exact_of_evolves ek he1) vk uk ps
      (fun p hp => ek.cfg ▸ e1.cfg ▸ hps p hp)
    exact ⟨mk, (m', p'), rk, vk, stk.trans st1, rs, vs, sts.trans (stk.trans st1)⟩
  · obtain ⟨m2, r2, e2, v2, _, st2⟩ := deduction_loop_sound m1.deduction_fuel m1 e1.sized he1
      hv1 hu1 (deduction_fuel_enough m1)
    obtain ⟨m3, r3, _, st3, _⟩ := hide_all_ok e2.sized
    refine ⟨m2, r2, v2, st2.trans st1, m2.cfg.coords.all fun p =>
        (m2.cell_at p.1 p.2).is_mine || decide ((m2.cell_at p.1 p.2).state = cell_state.revealed),
      m3, ?_, st3.trans (st2.trans st1)⟩
    simp only [minesweeper.logically_solvable, r1, ok_bind, r2, check_won_ok, r3, pure_eq_ok]

theorem solvability_check_sound_witness :
    ∃ m1, corner_mine.reveal 0 0 = Except.ok m1 ∧ m1.sound ∧ m1.state = corner_mine.state ∧
      (∀ (k : Nat) (ps : List (Int × Int)), (∀ p ∈ ps, corner_mine.cfg.inb p.1 p.2) →
        ∃ mk s, passes k m1 = Except.ok mk ∧ mk.sound ∧ mk.state = corner_mine.state ∧
          mk.scan ps = Except.ok s ∧ s.1.sound ∧ s.1.state = corner_mine.state) ∧
      ∃ m2, deduction_loop m1.deduction_fuel m1 = Except.ok m2 ∧ m2.sound ∧
        m2.state = corner_mine.state ∧
        ∃ r m', corner_mine.logically_solvable 0 0 = Except.ok (r, m') ∧
          m'.state = corner_mine.state :=
  solvability_check_sound corner_mine 0 0 (by decide) (all_hidden_of_coords (by decide))
    (exact_of_coords (by decide)) (by decide) rfl

/-! ## Termination of the loops -/

/-- The scan of one cell returns; when it does not set `progress` it leaves the engine
as it was. -/
theorem deduce_cell_idle {m : minesweeper} (hs : m.sized) (progress : Bool) {x y : Int}
    (hin : m.cfg.inb x y) :
    ∃ m' p', m.deduce_cell progress x y = Except.ok (m', p') ∧
      ((p' = progress ∧ m' = m) ∨ p' = true) := by
  unfold minesweeper.deduce_cell
  simp only [get_at_ok hin, ok_bind, select_neighbors]
  by_cases hh : (m.cell_at x y).state = cell_state.hidden
  swap
  · exact ⟨m, progress, by simp [hh], Or.inl ⟨rfl, rfl⟩⟩
  simp only [hh, ne_eq, not_true_eq_false, if_false]
  generalize hF : (m.neighbors x y).filter
    (fun q => decide ((m.cell_at q.1 q.2).state = cell_state.flagged)) = flagged
  generalize hH : (m.neighbors x y).filter
    (fun q => decide ((m.cell_at q.1 q.2).state = cell_state.hidden)) = hidden
  have hHin : ∀ p ∈ hidden, m.cfg.inb p.1 p.2 := by
    intro p hp
    rw [← hH] at hp
    exact inb_of_mem_neighbors (List.mem_filter.1 hp).1
  by_cases h1 : flagged.length = to_size_t (m.cell_at x y).n_mines
  · cases hidden with
    | nil =>
      refine ⟨m, progress, ?_, Or.inl ⟨rfl, rfl⟩⟩
      simp [h1, minesweeper.reveal_all, minesweeper.flag_all, get_at_ok hin]
    | cons p ps =>
      obtain ⟨m1, r1, e1, _⟩ := reveal_all_total hs (p :: ps) hHin
      have hin1 : m1.cfg.inb x y := e1.cfg ▸ hin
      have hn1 : (m1.cell_at x y).n_mines = (m.cell_at x y).n_mines := e1.n_mines x y hin
      simp only [h1, if_true, r1, ok_bind, pure_eq_ok, get_at_ok hin1, hn1]
      have h2 : ¬ to_size_t (m.cell_at x y).n_mines + (p :: ps).length
          = to_size_t (m.cell_at x y).n_mines := by
        simp
      simp only [h2, if_false]
      exact ⟨m1, _, rfl, Or.inr (by simp)⟩
  · simp only [h1, if_false, ok_bind, pure_eq_ok, get_at_ok hin]
    by_cases h2 : flagged.length + hidden.length = to_size_t (m.cell_at x y).n_mines
    · cases hidden with
      | nil =>
        refine ⟨m, progress, ?_, Or.inl ⟨rfl, rfl⟩⟩
        simp [h2, minesweeper.flag_all]
      | cons p ps =>
        obtain ⟨m2, r2, _, _⟩ := flag_all_total hs (p :: ps) hHin
        simp only [h2, if_true, r2, ok_bind]
        exact ⟨m2, _, rfl, Or.inr (by simp)⟩
    · simp only [h2, if_false]
      exact ⟨m, progress, rfl, Or.inl ⟨rfl, rfl⟩⟩

/-- A pass of the deduction loop returns; a pass that sets `progress` strictly decreases
the number of hidden cells, and a pass that does not leaves the engine as it was. -/
theorem deduce_pass_cases {m : minesweeper} (hs : m.sized) :
    ∃ m' p', m.deduce_pass = Except.ok (m', p') ∧ evolves T_solve m m' ∧
      (p' = true → m'.hidden_count < m.hidden_count) ∧ (p' = false → m' = m) := by
  obtain ⟨m', p', r, e, c⟩ := deduce_pass_total hs
  obtain ⟨⟨m1, p1⟩, r1, _, i1⟩ := foldlM_rule
    (fun (s : minesweeper × Bool) (p : Int × Int) => s.1.deduce_cell s.2 p.1 p.2)
    (fun s => evolves T_solve m s.1 ∧ (s.2 = false → s.1 = m))
    m.cfg.coords (m, false) ⟨evolves_refl T_solve_refl hs, fun _ => rfl⟩
    (by
      rintro ⟨m1, p1⟩ p hp ⟨e1, i1⟩
      have hin : m1.cfg.inb p.1 p.2 := e1.cfg ▸ mem_coords.1 hp
      obtain ⟨m2, p2, r2, c2⟩ := deduce_cell_idle e1.sized p1 hin
      obtain ⟨m2', p2', r2', e2, _⟩ := deduce_cell_total e1.sized p1 hin
      rw [r2] at r2'
      obtain ⟨rfl, rfl⟩ := Prod.mk.inj (Except.ok.inj r2')
      refine ⟨(m2, p2), r2, evolves_trans T_solve_trans e1 e2, fun h => ?_⟩
      rcases c2 with ⟨h1, h2⟩ | h1
      · dsimp only at h ⊢
        rw [h2]
        exact i1 (h1 ▸ h)
      · dsimp only at h
        rw [h1] at h
        cases h)
  have r' : m.deduce_pass = Except.ok (m1, p1) := r1
  rw [r] at r'
  obtain ⟨rfl, rfl⟩ := Prod.mk.inj (Except.ok.inj r')
  exact ⟨m', p', r, e, c, i1⟩

/-- The deduction loop ends after at most as many passes that set `progress` as there
are hidden cells, in a state that a further pass leaves as it is. -/
theorem deduction_loop_fixed :
    ∀ (fuel : Nat) (m : minesweeper), m.sized → m.hidden_count < fuel →
      ∃ k m', k ≤ m.hidden_count ∧ passes k m = Except.ok m' ∧
        m'.deduce_pass = Except.ok (m', false) ∧ deduction_loop fuel m = Except.ok m'
  | 0, _, _, h => by omega
  | fuel + 1, m, hs, h => by
    obtain ⟨m1, p1, r, e1, c1, i1⟩ := deduce_pass_cases hs
    cases p1 with
    | false =>
      have := i1 rfl
      subst this
      refine ⟨0, m1, Nat.zero_le _, rfl, r, ?_⟩
      simp [deduction_loop, r]
    | true =>
      have hlt := c1 rfl
      obtain ⟨k, m', hk, rk, fx, r'⟩ := deduction_loop_fixed fuel m1 e1.sized (by omega)
      refine ⟨k + 1, m', by omega, ?_, fx, ?_⟩
      · simp only [passes, r, ok_bind, rk]
      · simp [deduction_loop, r, r']

/-- An attempt of `generate_mines` returns, or throws `runtime_error`. -/
theorem attempt_total {G : Type} (R : rng G) (hR : R.lawful) {m : minesweeper} (hs : m.sized)
    (forb : List (Int × Int)) (x y : Int) (g : G) :
    (∃ r g' m', m.attempt R forb x y g = Except.ok (r, g', m') ∧ m'.sized) ∨
      m.attempt R forb x y g = Except.error exn.runtime_error := by
  obtain ⟨m1, r1, c1, s1, _, _, _⟩ := clear_all_ok hs
  by_cases hthrow : (m1.allowed forb).length < to_size_t m1.cfg.mines
  · right
    simp only [minesweeper.attempt, r1, ok_bind, hthrow, if_true]
  · left
    have hperm := hR g (m1.allowed forb)
    have hshin : ∀ p ∈ (R.shuffle g (m1.allowed forb)).1, m1.cfg.inb p.1 p.2 := by
      intro p hp
      have := hperm.subset hp
      unfold minesweeper.allowed at this
      exact mem_coords.1 (List.mem_filter.1 this).1
    have hnd : (R.shuffle g (m1.allowed forb)).1.Nodup :=
      hperm.nodup_iff.2 ((nodup_coords _).filter _)
    obtain ⟨m2, r2, _, s2, _⟩ := place_mines_ok s1 _ hshin hnd
    obtain ⟨m3, r3, _, s3, _⟩ := count_all_ok s2
    obtain ⟨r, m4, r4, e4, _⟩ := logically_solvable_total s3 x y
    refine ⟨r, (R.shuffle g (m1.allowed forb)).2, m4, ?_, e4.sized⟩
    simp only [minesweeper.attempt, r1, ok_bind, hthrow, if_false, r2, r3, r4, pure_eq_ok]

theorem generate_loop_total {G : Type} (R : rng G) (hR : R.lawful) (forb : List (Int × Int))
    (x y : Int) :
    ∀ (n : Nat) (g : G) (m : minesweeper), m.sized →
      (∃ m', generate_loop R forb x y n g m = Except.ok m') ∨
        generate_loop R forb x y n g m = Except.error exn.runtime_error
  | 0, _, m, _ => Or.inl ⟨m, rfl⟩
  | n + 1, g, m, hs => by
    rcases attempt_total R hR hs forb x y g with ⟨r, g', m', ra, s'⟩ | ra
    · cases r with
      | true =>
        left
        exact ⟨_, by simp only [generate_loop, ra, ok_bind, if_true]; rfl⟩
      | false =>
        rcases generate_loop_total R hR forb x y n g' m' s' with ⟨m'', rl⟩ | rl
        · left
          exact ⟨m'', by simp only [generate_loop, ra, ok_bind, Bool.false_eq_true, if_false, rl]⟩
        · right
          simp only [generate_loop, ra, ok_bind, Bool.false_eq_true, if_false, rl]
    · right
      simp only [generate_loop, ra, error_bind]

/-- The method `generate_mines` returns, or throws `runtime_error`. -/
theorem generate_mines_total_or_throws {G : Type} (R : rng G) (hR : R.lawful)
    {m : minesweeper} (hs : m.sized) (x y : Int) :
    (∃ m', m.generate_mines R x y = Except.ok m') ∨
      m.generate_mines R x y = Except.error exn.runtime_error := by
  unfold minesweeper.generate_mines
  split
  · exact Or.inl ⟨m, rfl⟩
  · split
    · exact Or.inl ⟨m, rfl⟩
    · exact generate_loop_total R hR _ x y _ _ _ hs

/-- C25: on every board of the configured size, whatever the cell states, mines and
counts, and for every `(x, y)`: `reveal(x, y)` returns; the queue loop of `reveal`
started on any queue of cells of the board, duplicates included, ends within
`length + 9 * hidden` dequeues; a pass of the deduction loop returns, strictly
decreases the number of hidden cells when it sets `progress`, and changes nothing when
it does not; the loop `while (progress)` ends after at most as many passes as there are
hidden cells, in a state that a further pass leaves unchanged; `logically_solvable`
returns; and `generate_mines` returns or throws `runtime_error`, for a shuffle that
permutes its argument. -/
theorem loops_terminate {G : Type} (R : rng G) (hR : R.lawful) (m : minesweeper)
    (x y : Int) (hs : m.sized) :
    (∃ m', m.reveal x y = Except.ok m') ∧
    (∀ q : List (Int × Int), (∀ p ∈ q, m.cfg.inb p.1 p.2) →
      ∃ m', reveal_loop (q.length + 9 * m.hidden_count) q m = Except.ok m') ∧
    (∃ m' p, m.deduce_pass = Except.ok (m', p) ∧
      (p = true → m'.hidden_count < m.hidden_count) ∧ (p = false → m' = m)) ∧
    (∃ k m', k ≤ m.hidden_count ∧ passes k m = Except.ok m' ∧
      m'.deduce_pass = Except.ok (m', false) ∧
      deduction_loop m.deduction_fuel m = Except.ok m') ∧
    (∃ r m', m.logically_solvable x y = Except.ok (r, m')) ∧
    ((∃ m', m.generate_mines R x y = Except.ok m') ∨
      m.generate_mines R x y = Except.error exn.runtime_error) := by
  refine ⟨?_, fun q hq => ?_, ?_, ?_, ?_, generate_mines_total_or_throws R hR hs x y⟩
  · obtain ⟨m', r, _⟩ := reveal_total hs x y
    exact ⟨m', r⟩
  · obtain ⟨m', r, _⟩ := reveal_loop_uncover _ q m hs hq (le_refl _)
    exact ⟨m', r⟩
  · obtain ⟨m', p', r, _, c, i⟩ := deduce_pass_cases hs
    exact ⟨m', p', r, c, i⟩
  · exact deduction_loop_fixed _ m hs (deduction_fuel_enough m)
  · obtain ⟨r, m', h, _⟩ := logically_solvable_total hs x y
    exact ⟨r, m', h⟩

theorem loops_terminate_witness :
    rng_rev.lawful ∧ guess_board.sized ∧
    (∃ m', guess_board.reveal 3 0 = Except.ok m') ∧
    (∀ q : List (Int × Int), (∀ p ∈ q, guess_board.cfg.inb p.1 p.2) →
      ∃ m', reveal_loop (q.length + 9 * guess_board.hidden_count) q guess_board
        = Except.ok m') ∧
    (∃ m' p, guess_board.deduce_pass = Except.ok (m', p) ∧
      (p = true → m'.hidden_count < guess_board.hidden_count) ∧
      (p = false → m' = guess_board)) ∧
    (∃ k m', k ≤ guess_board.hidden_count ∧ passes k guess_board = Except.ok m' ∧
      m'.deduce_pass = Except.ok (m', false) ∧
      deduction_loop guess_board.deduction_fuel guess_board = Except.ok m') ∧
    (∃ r m', guess_board.logically_solvable 3 0 = Except.ok (r, m')) ∧
    ((∃ m', guess_board.generate_mines rng_rev 3 0 = Except.ok m') ∨
      guess_board.generate_mines rng_rev 3 0 = Except.error exn.runtime_error) :=
  ⟨rng_rev_lawful, by decide, loops_terminate rng_rev rng_rev_lawful guess_board 3 0 (by decide)⟩

/-! ## What a click keeps -/

theorem T_keep_refl (s : cell_state) : T_keep s s := fun h => h

theorem T_keep_trans (a b c : cell_state) (h1 : T_keep a b) (h2 : T_keep b c) : T_keep a c :=
  fun h => h2 (h1 h)

theorem T_open_keep (a b : cell_state) (h : T_open a b) : T_keep a b := by
  intro ha
  rcases h with h | h
  · rw [h]; exact ha
  · exact h

theorem T_mark_refl (s : cell_state) : T_mark s s := Iff.rfl

theorem T_mark_trans (a b c : cell_state) (h1 : T_mark a b) (h2 : T_mark b c) : T_mark a c :=
  h1.trans h2

theorem T_mark_keep (a b : cell_state) (h : T_mark a b) : T_keep a b := h.1

theorem settle_evolves {T : cell_state → cell_state → Prop} {m0 m : minesweeper}
    (e : evolves T m0 m) : ∃ m', m.settle = Except.ok m' ∧ evolves T m0 m' := by
  unfold minesweeper.settle
  rw [check_won_ok, ok_bind]
  split
  · exact ⟨_, rfl, evolves_game_state e _⟩
  · exact ⟨_, rfl, e⟩

/-- The method `speed_reveal` returns on every board of the configured size; a cell
keeps its state or becomes revealed. -/
theorem speed_reveal_open {m : minesweeper} (hs : m.sized) (x y : Int) :
    ∃ m', m.speed_reveal x y = Except.ok m' ∧ evolves T_open m m' := by
  by_cases hin : m.cfg.inb x y
  swap
  · exact ⟨m, by simp [minesweeper.speed_reveal, out_of_range_of_not_inb hin],
      evolves_refl T_open_refl hs⟩
  simp only [minesweeper.speed_reveal, out_of_range_of_inb hin, select_neighbors, ok_bind,
    get_at_ok hin, Bool.false_eq_true, if_false]
  split
  · obtain ⟨m', r, e, _⟩ := reveal_all_open
      ((m.neighbors x y).filter fun q =>
        decide ((m.cell_at q.1 q.2).state = cell_state.hidden)) m hs
      (fun p hp => inb_of_mem_neighbors (List.mem_filter.1 hp).1)
    exact ⟨m', r, e⟩
  · exact ⟨m, rfl, evolves_refl T_open_refl hs⟩

/-- The method `toggle` returns on every board of the configured size, keeps the game
state, and neither reveals nor covers a cell. -/
theorem toggle_mark {m : minesweeper} (hs : m.sized) (x y : Int) :
    ∃ m', m.toggle x y = Except.ok m' ∧ evolves T_mark m m' ∧ m'.state = m.state := by
  by_cases hin : m.cfg.inb x y
  swap
  · exact ⟨m, by simp [minesweeper.toggle, out_of_range_of_not_inb hin],
      evolves_refl T_mark_refl hs, rfl⟩
  simp only [minesweeper.toggle, out_of_range_of_inb hin, ok_bind, get_at_ok hin,
    Bool.false_eq_true, if_false, modify_at_ok hin]
  split
  · next h =>
    exact ⟨_, rfl, evolves_upd T_mark_refl hs hin _ rfl rfl (by simp [T_mark, h]), rfl⟩
  · split
    · next h =>
      exact ⟨_, rfl, evolves_upd T_mark_refl hs hin _ rfl rfl (by simp [T_mark, h]), rfl⟩
    · split
      · next h =>
        exact ⟨_, rfl, evolves_upd T_mark_refl hs hin _ rfl rfl (by simp [T_mark, h]), rfl⟩
      · exact ⟨m, rfl, evolves_refl T_mark_refl hs, rfl⟩

/-- The method `speed_flag` returns on every board of the configured size, keeps the
game state, and neither reveals nor covers a cell. -/
theorem speed_flag_mark {m : minesweeper} (hs : m.sized) (x y : Int) :
    ∃ m', m.speed_flag x y = Except.ok m' ∧ evolves T_mark m m' ∧ m'.state = m.state := by
  by_cases hin : m.cfg.inb x y
  swap
  · exact ⟨m, by simp [minesweeper.speed_flag, out_of_range_of_not_inb hin],
      evolves_refl T_mark_refl hs, rfl⟩
  simp only [minesweeper.speed_flag, out_of_range_of_inb hin, select_neighbors, ok_bind,
    get_at_ok hin, Bool.false_eq_true, if_false]
  split
  · generalize hL : (m.neighbors x y).filter
      (fun q => decide ((m.cell_at q.1 q.2).state ≠ cell_state.revealed)) = L
    have hLin : ∀ p ∈ L, m.cfg.inb p.1 p.2 := by
      intro p hp
      rw [← hL] at hp
      exact inb_of_mem_neighbors (List.mem_filter.1 hp).1
    have hLc : ∀ p ∈ L, (m.cell_at p.1 p.2).state ≠ cell_state.revealed := by
      intro p hp
      rw [← hL] at hp
      simpa using (List.mem_filter.1 hp).2
    obtain ⟨m', r, e, st, c⟩ := flag_all_spec L m hs hLin
    refine ⟨m', r, ⟨e.cfg, e.sized, e.unsolvable, e.is_mine, e.n_mines, fun a b hab => ?_⟩, st⟩
    rw [c a b hab]
    split
    · next hm =>
      have := hLc (a, b) hm
      simp [T_mark, this]
    · exact Iff.rfl
  · exact ⟨m, rfl, evolves_refl T_mark_refl hs, rfl⟩

/-- C28: for every engine of the configured size whose game state is not the one
awaiting the first click, and every `(x, y)`: `primary_click(x, y)` and
`secondary_click(x, y)` return, keep the configuration, the flag `unsolvable` and every
cell's `is_mine` and `n_mines`, and every cell revealed before the call is revealed
after it; so counts that are exact before the call are exact after it. -/
theorem clicks_keep_the_layout {G : Type} (R : rng G) (m : minesweeper) (x y : Int)
    (hs : m.sized) (hst : m.state ≠ game_state.first_click) :
    (∃ m', m.primary_click R x y = Except.ok m' ∧ evolves T_keep m m' ∧
      (m.exact → m'.exact)) ∧
    (∃ m', m.secondary_click x y = Except.ok m' ∧ evolves T_keep m m' ∧
      (m.exact → m'.exact)) := by
  have fin : ∀ {op : Except exn minesweeper},
      (∃ m', op = Except.ok m' ∧ evolves T_keep m m') →
      ∃ m', op = Except.ok m' ∧ evolves T_keep m m' ∧ (m.exact → m'.exact) := by
    rintro op ⟨m', r, e⟩
    exact ⟨m', r, e, exact_of_evolves e⟩
  have idle : ∃ m', (Except.ok m : Except exn minesweeper) = Except.ok m' ∧
      evolves T_keep m m' := ⟨m, rfl, evolves_refl T_keep_refl hs⟩
  constructor
  · apply fin
    unfold minesweeper.primary_click
    by_cases hin : m.cfg.inb x y
    swap
    · simpa [out_of_range_of_not_inb hin] using idle
    simp only [out_of_range_of_inb hin, Bool.false_eq_true, if_false, hst]
    by_cases hp : m.state = game_state.playing
    swap
    · simpa [hp] using idle
    simp only [hp, ne_eq, not_true_eq_false, if_false, get_at_ok hin, ok_bind]
    split
    · exact idle
    · split
      · rw [modify_at_ok hin, ok_bind]
        exact ⟨_, rfl, evolves_game_state
          (evolves_upd T_keep_refl hs hin _ rfl rfl (fun _ => rfl)) _⟩
      · split
        · obtain ⟨m1, r1, e1, _⟩ := reveal_total hs x y
          obtain ⟨m2, r2, e2⟩ := settle_evolves (evolves_mono T_open_keep e1)
          exact ⟨m2, by rw [r1, ok_bind, r2], e2⟩
        · split
          · obtain ⟨m1, r1, e1⟩ := speed_reveal_open hs x y
            obtain ⟨m2, r2, e2⟩ := settle_evolves (evolves_mono T_open_keep e1)
            exact ⟨m2, by rw [r1, ok_bind, r2], e2⟩
          · obtain ⟨m2, r2, e2⟩ := settle_evolves (evolves_refl T_keep_refl hs)
            exact ⟨m2, by rw [pure_eq_ok, ok_bind, r2], e2⟩
  · apply fin
    unfold minesweeper.secondary_click
    by_cases hin : m.cfg.inb x y
    swap
    · simpa [out_of_range_of_not_inb hin] using idle
    simp only [out_of_range_of_inb hin, Bool.false_eq_true, if_false]
    by_cases hp : m.state = game_state.playing
    swap
    · simpa [hp] using idle
    simp only [hp, ne_eq, not_true_eq_false, if_false, get_at_ok hin, ok_bind]
    split
    · obtain ⟨m1, r1, e1, _⟩ := toggle_mark hs x y
      obtain ⟨m2, r2, e2⟩ := settle_evolves (evolves_mono T_mark_keep e1)
      exact ⟨m2, by rw [r1, ok_bind, r2], e2⟩
    · obtain ⟨m1, r1, e1, _⟩ := speed_flag_mark hs x y
      obtain ⟨m2, r2, e2⟩ := settle_evolves (evolves_mono T_mark_keep e1)
      exact ⟨m2, by rw [r1, ok_bind, r2], e2⟩

theorem clicks_keep_the_layout_witness :
    chord_ready.sized ∧ chord_ready.state ≠ game_state.first_click ∧
    (∃ m', chord_ready.primary_click rng_id 1 1 = Except.ok m' ∧
      evolves T_keep chord_ready m' ∧ (chord_ready.exact → m'.exact)) ∧
    (∃ m', chord_ready.secondary_click 1 1 = Except.ok m' ∧
      evolves T_keep chord_ready m' ∧ (chord_ready.exact → m'.exact)) :=
  ⟨by decide, by decide, clicks_keep_the_layout rng_id chord_ready 1 1 (by decide) (by decide)⟩

/-! ## The invariant of a game -/

theorem check_won_iff (m : minesweeper) :
    (m.cfg.coords.all fun p =>
      (m.cell_at p.1 p.2).is_mine || decide ((m.cell_at p.1 p.2).state = cell_state.revealed))
      = true ↔ m.cleared := by
  rw [List.all_eq_true]
  constructor
  · intro h x y hxy hnm
    have := h (x, y) (mem_coords.2 hxy)
    simpa [hnm] using this
  · intro h p hp
    cases hm : (m.cell_at p.1 p.2).is_mine
    · simpa using h p.1 p.2 (mem_coords.1 hp) hm
    · simp

/-- The win check at the end of a click: the state becomes won exactly when every cell
that is not a mine is revealed. -/
theorem settle_spec (m : minesweeper) :
    (m.cleared → m.settle = Except.ok { m with state := game_state.won }) ∧
    (¬ m.cleared → m.settle = Except.ok m) := by
  unfold minesweeper.settle
  rw [check_won_ok, ok_bind]
  constructor
  · intro h
    rw [if_pos ((check_won_iff m).2 h)]
    rfl
  · intro h
    rw [if_neg (fun hc => h ((check_won_iff m).1 hc))]
    rfl

theorem settle_inv {c : config} {m : minesweeper} (hc : m.cfg = c) (hs : m.sized)
    (he : m.exact) (hst : m.state = game_state.lost ∨ m.state = game_state.playing)
    (hl : m.state = game_state.lost ↔ m.mine_revealed)
    (hx : m.mine_revealed → ¬ m.cleared) :
    ∃ m', m.settle = Except.ok m' ∧ game_inv c m' ∧ (¬ m.cleared → m' = m) := by
  by_cases hcl : m.cleared
  · refine ⟨_, (settle_spec m).1 hcl, ⟨hc, hs, he, (fun h => by simp at h),
      ⟨fun _ => hcl, fun _ => rfl⟩, ⟨(fun h => by simp at h), fun h => absurd hcl (hx h)⟩⟩,
      fun h => absurd hcl h⟩
  · refine ⟨m, (settle_spec m).2 hcl, ⟨hc, hs, he, fun h => ?_,
      ⟨fun h => ?_, fun h => absurd h hcl⟩, hl⟩, fun _ => rfl⟩
    · rcases hst with h' | h' <;> rw [h'] at h <;> cases h
    · rcases hst with h' | h' <;> rw [h'] at h <;> cases h

theorem exact_of_blank {m : minesweeper} (hb : m.blank) : m.exact := by
  intro x y hxy
  have h0 : m.mines_around x y = 0 := by
    unfold minesweeper.mines_around
    rw [List.countP_eq_zero]
    intro p hp
    rw [hb p.1 p.2 (inb_of_mem_neighbors hp)]
    simp
  rw [hb x y hxy, h0]
  rfl

theorem not_cleared_of_blank {m : minesweeper} (hw : 1 ≤ m.cfg.width) (hh : 1 ≤ m.cfg.height)
    (hb : m.blank) : ¬ m.cleared := by
  intro h
  have hin : m.cfg.inb 0 0 := ⟨le_refl _, by omega, le_refl _, by omega⟩
  have := h 0 0 hin (by rw [hb 0 0 hin])
  rw [hb 0 0 hin] at this
  cases this

theorem not_mine_revealed_of_blank {m : minesweeper} (hb : m.blank) : ¬ m.mine_revealed := by
  rintro ⟨x, y, hin, hm, _⟩
  rw [hb x y hin] at hm
  cases hm

theorem inv_reset {m0 m : minesweeper} (hw : 1 ≤ m0.cfg.width) (hh : 1 ≤ m0.cfg.height)
    (iw : is_int m0.cfg.width) (ih : is_int m0.cfg.height) (h : m0.reset = Except.ok m) :
    game_inv m0.cfg m := by
  obtain ⟨m', r, c, s, st, _, b⟩ := reset_spec hw hh iw ih
  rw [h] at r
  obtain rfl := Except.ok.inj r
  have hb : m.blank := fun x y hxy => b x y (c ▸ hxy)
  exact ⟨c, s, exact_of_blank hb, fun _ => hb,
    ⟨(fun h' => by rw [st] at h'; cases h'),
      fun h' => absurd h' (not_cleared_of_blank (by rw [c]; exact hw) (by rw [c]; exact hh) hb)⟩,
    ⟨(fun h' => by rw [st] at h'; cases h'),
      fun h' => absurd h' (not_mine_revealed_of_blank hb)⟩⟩

theorem cleared_of_mark {m m1 : minesweeper} (e : evolves T_mark m m1) :
    m1.cleared ↔ m.cleared := by
  constructor
  · intro h a b hab hnm
    have hab1 : m1.cfg.inb a b := e.cfg ▸ hab
    exact (e.state a b hab).2 (h a b hab1 (by rw [e.is_mine a b hab]; exact hnm))
  · intro h a b hab hnm
    have hab0 : m.cfg.inb a b := e.cfg ▸ hab
    rw [e.is_mine a b hab0] at hnm
    exact (e.state a b hab0).1 (h a b hab0 hnm)

theorem mine_revealed_of_mark {m m1 : minesweeper} (e : evolves T_mark m m1) :
    m1.mine_revealed ↔ m.mine_revealed := by
  constructor
  · rintro ⟨a, b, hab, hmn, hr⟩
    have hab0 : m.cfg.inb a b := e.cfg ▸ hab
    rw [e.is_mine a b hab0] at hmn
    exact ⟨a, b, hab0, hmn, (e.state a b hab0).2 hr⟩
  · rintro ⟨a, b, hab, hmn, hr⟩
    exact ⟨a, b, e.cfg ▸ hab, by rw [e.is_mine a b hab]; exact hmn, (e.state a b hab).1 hr⟩

/-- With exact counts, `reveal` changes cells that are not mines from hidden to
revealed only, reveals no mine but the cell it is called on, and sets the game state to
lost exactly when it reveals a mine. -/
theorem reveal_exact {m : minesweeper} (hs : m.sized) (he : m.exact) (x y : Int) :
    ∃ m', m.reveal x y = Except.ok m' ∧ evolves T_open m m' ∧
      (∀ a b, m.cfg.inb a b → (m.cell_at a b).is_mine = false →
        T_uncover (m.cell_at a b).state (m'.cell_at a b).state) ∧
      (∀ a b, m.cfg.inb a b → (m.cell_at a b).is_mine = true →
        (m'.cell_at a b).state = cell_state.revealed →
        (m.cell_at a b).state = cell_state.revealed ∨ (a, b) = (x, y)) ∧
      (m'.state = m.state ∨ m'.state = game_state.lost) ∧
      ((m.state = game_state.lost ↔ m.mine_revealed) →
        (m'.state = game_state.lost ↔ m'.mine_revealed)) := by
  by_cases hin : m.cfg.inb x y
  swap
  · exact ⟨m, by simp [minesweeper.reveal, out_of_range_of_not_inb hin],
      evolves_refl T_open_refl hs, fun _ _ _ _ => Or.inl rfl, fun _ _ _ _ h => Or.inl h,
      Or.inl rfl, id⟩
  by_cases hm : (m.cell_at x y).is_mine = true
  · refine ⟨_, reveal_mine hin hm,
      evolves_game_state (evolves_upd T_open_refl hs hin _ rfl rfl (Or.inr rfl)) _,
      fun a b hab hnm => ?_, fun a b hab _ hr => ?_, Or.inr rfl,
      fun _ => ⟨fun _ => ⟨x, y, hin, ?_, ?_⟩, fun _ => rfl⟩⟩
    · change T_uncover _
        ((m.upd x y fun c => { c with state := cell_state.revealed }).cell_at a b).state
      rw [cell_at_upd hs hin hab]
      split
      · next heq =>
        obtain ⟨rfl, rfl⟩ := Prod.mk.inj heq
        rw [hm] at hnm
        cases hnm
      · exact Or.inl rfl
    · rw [cell_at_set_state, cell_at_upd hs hin hab] at hr
      split at hr
      · next heq => exact Or.inr heq
      · exact Or.inl hr
    · rw [cell_at_set_state, cell_at_upd_same hs hin]
      exact hm
    · rw [cell_at_set_state, cell_at_upd_same hs hin]
  · have hnm : (m.cell_at x y).is_mine = false := by simpa using hm
    obtain ⟨m', r, e, st, n1, _⟩ := reveal_nonmine hs he hnm
    refine ⟨m', r, evolves_mono T_uncover_open e, fun a b hab _ => e.state a b hab,
      fun a b hab hmn hr => ?_, Or.inl st, fun hL => ?_⟩
    · rcases n1 a b hab hr with h | h
      · exact Or.inl h
      · rw [hmn] at h; cases h
    · rw [st, hL]
      constructor
      · rintro ⟨a, b, hab, hmn, hr⟩
        refine ⟨a, b, e.cfg ▸ hab, by rw [e.is_mine a b hab]; exact hmn, ?_⟩
        rcases e.state a b hab with h | ⟨h, _⟩
        · rw [h]; exact hr
        · rw [hr] at h; cases h
      · rintro ⟨a, b, hab, hmn, hr⟩
        have hab0 : m.cfg.inb a b := e.cfg ▸ hab
        rw [e.is_mine a b hab0] at hmn
        rcases n1 a b hab0 hr with h | h
        · exact ⟨a, b, hab0, hmn, h⟩
        · rw [hmn] at h; cases h

theorem reveal_all_exact :
    ∀ (ps : List (Int × Int)) (m : minesweeper), m.sized → m.exact →
      ∃ m', m.reveal_all ps = Except.ok m' ∧ evolves T_open m m' ∧
        (∀ a b, m.cfg.inb a b → (m.cell_at a b).is_mine = false →
          T_uncover (m.cell_at a b).state (m'.cell_at a b).state) ∧
        (∀ a b, m.cfg.inb a b → (m.cell_at a b).is_mine = true →
          (m'.cell_at a b).state = cell_state.revealed →
          (m.cell_at a b).state = cell_state.revealed ∨ (a, b) ∈ ps) ∧
        (m'.state = m.state ∨ m'.state = game_state.lost) ∧
        ((m.state = game_state.lost ↔ m.mine_revealed) →
          (m'.state = game_state.lost ↔ m'.mine_revealed))
  | [], m, hs, _ =>
    ⟨m, rfl, evolves_refl T_open_refl hs, fun _ _ _ _ => Or.inl rfl,
      fun _ _ _ _ h => Or.inl h, Or.inl rfl, id⟩
  | p :: ps, m, hs, he => by
    obtain ⟨m1, r1, e1, u1, k1, s1, l1⟩ := reveal_exact hs he p.1 p.2
    obtain ⟨m', r2, e2, u2, k2, s2, l2⟩ :=
      reveal_all_exact ps m1 e1.sized (exact_of_evolves e1 he)
    refine ⟨m', ?_, evolves_trans T_open_trans e1 e2, fun a b hab hnm => ?_,
      fun a b hab hmn hr => ?_, ?_, fun h => l2 (l1 h)⟩
    · unfold minesweeper.reveal_all at r2 ⊢
      rw [List.foldlM_cons, r1, ok_bind, r2]
    · exact T_uncover_trans _ _ _ (u1 a b hab hnm)
        (u2 a b (e1.cfg ▸ hab) (by rw [e1.is_mine a b hab]; exact hnm))
    · rcases k2 a b (e1.cfg ▸ hab) (by rw [e1.is_mine a b hab]; exact hmn) hr with h | h
      · rcases k1 a b hab hmn h with h' | h'
        · exact Or.inl h'
        · right
          rw [h']
          exact List.mem_cons_self _ _
      · exact Or.inr (List.mem_cons_of_mem _ h)
    · rcases s2 with h | h
      · rw [h]; exact s1
      · exact Or.inr h

/-- A chord in a game in play with exact counts and no mine revealed: the state is lost
exactly when the chord reveals a mine, and then a neighbor that carries a mark and is
not a mine stays unrevealed, so the board is not cleared. -/
theorem speed_reveal_inv {m : minesweeper} (hs : m.sized) (he : m.exact)
    (hp : m.state = game_state.playing) (hnl : ¬ m.mine_revealed) {x y : Int}
    (hin : m.cfg.inb x y) :
    ∃ m1, m.speed_reveal x y = Except.ok m1 ∧ evolves T_open m m1 ∧
      (m1.state = game_state.lost ∨ m1.state = game_state.playing) ∧
      (m1.state = game_state.lost ↔ m1.mine_revealed) ∧
      (m1.mine_revealed → ¬ m1.cleared) := by
  have hL : m.state = game_state.lost ↔ m.mine_revealed :=
    ⟨(fun h => by rw [hp] at h; cases h), fun h => absurd h hnl⟩
  simp only [minesweeper.speed_reveal, out_of_range_of_inb hin, select_neighbors, ok_bind,
    get_at_ok hin, Bool.false_eq_true, if_false]
  generalize hM : (m.neighbors x y).filter
    (fun q => decide ((m.cell_at q.1 q.2).state = cell_state.flagged) ||
      decide ((m.cell_at q.1 q.2).state = cell_state.qmarked)) = marked
  generalize hH : (m.neighbors x y).filter
    (fun q => decide ((m.cell_at q.1 q.2).state = cell_state.hidden)) = hidden
  by_cases hfire : marked.length = to_size_t (m.cell_at x y).n_mines
  swap
  · rw [if_neg hfire]
    exact ⟨m, rfl, evolves_refl T_open_refl hs, Or.inr hp, hL, fun h => absurd h hnl⟩
  rw [if_pos hfire]
  obtain ⟨m1, r1, e1, u1, k1, s1, l1⟩ := reveal_all_exact hidden m hs he
  refine ⟨m1, r1, e1, ?_, l1 hL, ?_⟩
  · rcases s1 with h | h
    · exact Or.inr (h.trans hp)
    · exact Or.inl h
  · rintro ⟨a, b, hab, hmn, hr⟩ hcl
    have hab0 : m.cfg.inb a b := e1.cfg ▸ hab
    rw [e1.is_mine a b hab0] at hmn
    rcases k1 a b hab0 hmn hr with h | h
    · exact hnl ⟨a, b, hab0, hmn, h⟩
    · rw [← hH, List.mem_filter] at h
      obtain ⟨hN, hhid⟩ := h
      have hhid' : (m.cell_at a b).state = cell_state.hidden := by simpa using hhid
      have hcount : (m.neighbors x y).countP (fun q => (m.cell_at q.1 q.2).is_mine) ≤
          (m.neighbors x y).countP (fun q =>
            decide ((m.cell_at q.1 q.2).state = cell_state.flagged) ||
              decide ((m.cell_at q.1 q.2).state = cell_state.qmarked)) := by
        rw [List.countP_eq_length_filter
          (fun q : Int × Int => decide ((m.cell_at q.1 q.2).state = cell_state.flagged) ||
            decide ((m.cell_at q.1 q.2).state = cell_state.qmarked)), hM, hfire, he x y hin,
          to_size_t_natCast (mines_around_le m x y)]
        exact le_of_eq rfl
      have hex : ∃ q ∈ m.neighbors x y,
          ((m.cell_at q.1 q.2).state = cell_state.flagged ∨
            (m.cell_at q.1 q.2).state = cell_state.qmarked) ∧
          (m.cell_at q.1 q.2).is_mine = false := by
        by_contra hno
        have himp : ∀ q ∈ m.neighbors x y,
            (decide ((m.cell_at q.1 q.2).state = cell_state.flagged) ||
              decide ((m.cell_at q.1 q.2).state = cell_state.qmarked)) = true →
            (m.cell_at q.1 q.2).is_mine = true := by
          intro q hq hmk
          by_contra hc
          exact hno ⟨q, hq, by simpa using hmk, by simpa using hc⟩
        have := countP_imp_eq _ _ _ himp hcount (a, b) hN hmn
        simp [hhid'] at this
      obtain ⟨q, hq, hmk, hqm⟩ := hex
      have hqi := inb_of_mem_neighbors hq
      have hq1 : m1.cfg.inb q.1 q.2 := e1.cfg ▸ hqi
      have hrev := hcl q.1 q.2 hq1 (by rw [e1.is_mine q.1 q.2 hqi]; exact hqm)
      rcases u1 q.1 q.2 hqi hqm with h' | ⟨h', _⟩
      · rw [h'] at hrev
        rcases hmk with h'' | h'' <;> rw [h''] at hrev <;> cases hrev
      · rcases hmk with h'' | h'' <;> rw [h''] at h' <;> cases h'

/-- From an engine state that satisfies the invariant, `primary_click` returns and the
invariant holds afterwards. -/
theorem inv_primary {G : Type} (R : rng G) (hR : R.lawful) {c : config} {m : minesweeper}
    (hi : game_inv c m) (hm : 0 ≤ c.mines) (x y : Int) :
    ∃ m', m.primary_click R x y = Except.ok m' ∧ game_inv c m' := by
  have idle : ∃ m', (Except.ok m : Except exn minesweeper) = Except.ok m' ∧ game_inv c m' :=
    ⟨m, rfl, hi⟩
  obtain ⟨hc, hs, he, hfb, hwon, hlost⟩ := hi
  unfold minesweeper.primary_click
  by_cases hin : m.cfg.inb x y
  swap
  · simpa [out_of_range_of_not_inb hin] using idle
  simp only [out_of_range_of_inb hin, Bool.false_eq_true, if_false]
  by_cases hf : m.state = game_state.first_click
  · rw [if_pos hf]
    have hb := hfb hf
    have hgen : ∃ g, m.generate_mines R x y = Except.ok g ∧ g.cfg = m.cfg ∧ g.sized ∧
        g.all_hidden ∧ g.exact ∧ (g.cell_at x y).is_mine = false := by
      by_cases hv : m.cfg.validate = true
      · obtain ⟨g, _, _, _, _, rg, _, _, _, gen, _⟩ :=
          generate_mines_spec R hR hs hv (hc ▸ hm) hin
        exact ⟨g, rg, gen.cfg, gen.sized, gen.hidden,
          fun a b hab => gen.counts a b (gen.cfg ▸ hab),
          gen.forbidden (x, y) (List.mem_cons_self _ _) hin⟩
      · refine ⟨m, by simp [minesweeper.generate_mines, hv], rfl, hs,
          fun a b hab => by rw [hb a b hab], exact_of_blank hb, by rw [hb x y hin]⟩
    obtain ⟨g, rg, cg, sg, hg, eg, ng⟩ := hgen
    obtain ⟨m1, r1, e1, st1, n1, _⟩ := reveal_nonmine sg eg ng
    have hnr : ¬ m1.mine_revealed := by
      rintro ⟨a, b, hab, hmn, hr⟩
      have hab0 : g.cfg.inb a b := e1.cfg ▸ hab
      rw [e1.is_mine a b hab0] at hmn
      rcases n1 a b hab0 hr with h | h
      · rw [hg a b hab0] at h; cases h
      · rw [hmn] at h; cases h
    obtain ⟨m', r', inv', _⟩ := @settle_inv c { m1 with state := game_state.playing }
      (e1.cfg.trans (cg.trans hc)) e1.sized
      (exact_of_evolves (evolves_game_state e1 game_state.playing) eg) (Or.inr rfl)
      ⟨(fun h => by simp at h), fun h => absurd h hnr⟩ (fun h => absurd h hnr)
    exact ⟨m', by rw [rg, ok_bind, r1, ok_bind]; exact r', inv'⟩
  rw [if_neg hf]
  by_cases hp : m.state = game_state.playing
  swap
  · simpa [hp] using idle
  have hnl : ¬ m.mine_revealed := fun h => by
    have := hlost.2 h
    rw [hp] at this
    cases this
  have hncl : ¬ m.cleared := fun h => by
    have := hwon.2 h
    rw [hp] at this
    cases this
  have hL : m.state = game_state.lost ↔ m.mine_revealed :=
    ⟨(fun h => by rw [hp] at h; cases h), fun h => absurd h hnl⟩
  simp only [hp, ne_eq, not_true_eq_false, if_false, get_at_ok hin, ok_bind]
  split
  · exact ⟨m, rfl, hc, hs, he, hfb, hwon, hlost⟩
  · split
    · next hmine =>
      rw [modify_at_ok hin, ok_bind]
      have e1 : evolves T_open m
          ({ m.upd x y fun c => { c with state := cell_state.revealed } with
            state := game_state.lost } : minesweeper) :=
        evolves_game_state (evolves_upd T_open_refl hs hin _ rfl rfl (Or.inr rfl)) _
      refine ⟨_, rfl, hc, e1.sized, exact_of_evolves e1 he, (fun h => by simp at h),
        ⟨(fun h => by simp at h), fun hcl => absurd ?_ hncl⟩,
        ⟨fun _ => ⟨x, y, hin, ?_, ?_⟩, fun _ => rfl⟩⟩
      · intro a b hab hnm
        have hne : (a, b) ≠ (x, y) := fun heq => by
          obtain ⟨rfl, rfl⟩ := Prod.mk.inj heq
          rw [hmine] at hnm
          cases hnm
        have := hcl a b hab (by rw [e1.is_mine a b hab]; exact hnm)
        rw [cell_at_set_state, cell_at_upd hs hin hab, if_neg hne] at this
        exact this
      · rw [cell_at_set_state, cell_at_upd_same hs hin]
        exact hmine
      · rw [cell_at_set_state, cell_at_upd_same hs hin]
    · next hnmine =>
      have hnm : (m.cell_at x y).is_mine = false := by simpa using hnmine
      split
      · obtain ⟨m1, r1, e1, st1, n1, _⟩ := reveal_nonmine hs he hnm
        have hnr : ¬ m1.mine_revealed := by
          rintro ⟨a, b, hab, hmn, hr⟩
          have hab0 : m.cfg.inb a b := e1.cfg ▸ hab
          rw [e1.is_mine a b hab0] at hmn
          rcases n1 a b hab0 hr with h | h
          · exact hnl ⟨a, b, hab0, hmn, h⟩
          · rw [hmn] at h; cases h
        obtain ⟨m', r', inv', _⟩ := @settle_inv c m1 (e1.cfg.trans hc) e1.sized
          (exact_of_evolves e1 he) (Or.inr (st1.trans hp))
          ⟨(fun h => by rw [st1, hp] at h; cases h), fun h => absurd h hnr⟩
          (fun h => absurd h hnr)
        exact ⟨m', by rw [r1, ok_bind, r'], inv'⟩
      · split
        · obtain ⟨m1, r1, e1, st1, l1, x1⟩ := speed_reveal_inv hs he hp hnl hin
          obtain ⟨m', r', inv', _⟩ := @settle_inv c m1 (e1.cfg.trans hc) e1.sized
            (exact_of_evolves e1 he) st1 l1 x1
          exact ⟨m', by rw [r1, ok_bind, r'], inv'⟩
        · obtain ⟨m', r', inv', _⟩ := @settle_inv c m hc hs he (Or.inr hp) hL
            (fun h => absurd h hnl)
          exact ⟨m', by rw [pure_eq_ok, ok_bind, r'], inv'⟩

/-- From an engine state that satisfies the invariant, `secondary_click` returns, keeps
the game state, and the invariant holds afterwards. -/
theorem inv_secondary {c : config} {m : minesweeper} (hi : game_inv c m) (x y : Int) :
    ∃ m', m.secondary_click x y = Except.ok m' ∧ game_inv c m' ∧ m'.state = m.state := by
  have idle : ∃ m', (Except.ok m : Except exn minesweeper) = Except.ok m' ∧ game_inv c m' ∧
      m'.state = m.state := ⟨m, rfl, hi, rfl⟩
  obtain ⟨hc, hs, he, hfb, hwon, hlost⟩ := hi
  unfold minesweeper.secondary_click
  by_cases hin : m.cfg.inb x y
  swap
  · simpa [out_of_range_of_not_inb hin] using idle
  simp only [out_of_range_of_inb hin, Bool.false_eq_true, if_false]
  by_cases hp : m.state = game_state.playing
  swap
  · simpa [hp] using idle
  have hnl : ¬ m.mine_revealed := fun h => by
    have := hlost.2 h
    rw [hp] at this
    cases this
  have hncl : ¬ m.cleared := fun h => by
    have := hwon.2 h
    rw [hp] at this
    cases this
  have fin : ∀ m1 : minesweeper, evolves T_mark m m1 → m1.state = m.state →
      ∃ m', m1.settle = Except.ok m' ∧ game_inv c m' ∧ m'.state = m.state := by
    intro m1 e1 st1
    have hnl1 : ¬ m1.mine_revealed := fun h => hnl ((mine_revealed_of_mark e1).1 h)
    have hncl1 : ¬ m1.cleared := fun h => hncl ((cleared_of_mark e1).1 h)
    obtain ⟨m', r', inv', same⟩ := @settle_inv c m1 (e1.cfg.trans hc) e1.sized
      (exact_of_evolves e1 he) (Or.inr (st1.trans hp))
      ⟨(fun h => by rw [st1, hp] at h; cases h), fun h => absurd h hnl1⟩
      (fun h => absurd h hnl1)
    refine ⟨m', r', inv', ?_⟩
    rw [same hncl1]
    exact st1
  simp only [hp, ne_eq, not_true_eq_false, if_false, get_at_ok hin, ok_bind]
  split
  · obtain ⟨m1, r1, e1, st1⟩ := toggle_mark hs x y
    obtain ⟨m', r', h'⟩ := fin m1 e1 st1
    exact ⟨m', by rw [r1, ok_bind, r'], h'.1, h'.2.trans hp⟩
  · obtain ⟨m1, r1, e1, st1⟩ := speed_flag_mark hs x y
    obtain ⟨m', r', h'⟩ := fin m1 e1 st1
    exact ⟨m', by rw [r1, ok_bind, r'], h'.1, h'.2.trans hp⟩

/-- Every engine state reached from `reset()` by clicks satisfies the invariant. -/
theorem reachable_inv {G : Type} (R : rng G) (hR : R.lawful) {m0 m : minesweeper}
    (hw : 1 ≤ m0.cfg.width) (hh : 1 ≤ m0.cfg.height) (iw : is_int m0.cfg.width)
    (ih : is_int m0.cfg.height) (hm : 0 ≤ m0.cfg.mines) (hr : reachable R m0 m) :
    game_inv m0.cfg m := by
  induction hr with
  | start h => exact inv_reset hw hh iw ih h
  | primary x y _ h ihm =>
    obtain ⟨m'', r, i⟩ := inv_primary R hR ihm hm x y
    rw [h] at r
    obtain rfl := Except.ok.inj r
    exact i
  | secondary x y _ h ihm =>
    obtain ⟨m'', r, i, _⟩ := inv_secondary ihm x y
    rw [h] at r
    obtain rfl := Except.ok.inj r
    exact i

/-- C26: in every engine state reached from `reset()` on a configuration with
`width ≥ 1`, `height ≥ 1` and `mines ≥ 0`, valid or not, by any finite sequence of
`primary_click` and `secondary_click` calls with any coordinates: `check_won()` returns a
value that is true exactly when every cell that is not a mine is revealed, and the game
state is won exactly when that value is true, so `check_won()` is false in the three
other states; every further click returns, and `secondary_click` leaves the game state
as it is, so it never produces the state won. -/
theorem won_iff_check_won {G : Type} (R : rng G) (hR : R.lawful) (m0 m : minesweeper)
    (hw : 1 ≤ m0.cfg.width) (hh : 1 ≤ m0.cfg.height) (iw : is_int m0.cfg.width)
    (ih : is_int m0.cfg.height) (hm : 0 ≤ m0.cfg.mines) (hr : reachable R m0 m) :
    (∃ b, m.check_won = Except.ok b ∧ (m.state = game_state.won ↔ b = true) ∧
      (b = true ↔ m.cleared)) ∧
    (∀ x y, ∃ m', m.primary_click R x y = Except.ok m') ∧
    (∀ x y, ∃ m', m.secondary_click x y = Except.ok m' ∧ m'.state = m.state) := by
  have hi := reachable_inv R hR hw hh iw ih hm hr
  refine ⟨⟨_, check_won_ok m, hi.won_iff.trans (check_won_iff m).symm, check_won_iff m⟩,
    fun x y => ?_, fun x y => ?_⟩
  · obtain ⟨m', r, _⟩ := inv_primary R hR hi hm x y
    exact ⟨m', r⟩
  · obtain ⟨m', r, _, st⟩ := inv_secondary hi x y
    exact ⟨m', r, st⟩

theorem won_iff_check_won_witness :
    ∃ m, rng_id.lawful ∧ 1 ≤ (fresh 5 2 1).cfg.width ∧ 1 ≤ (fresh 5 2 1).cfg.height ∧
      is_int (fresh 5 2 1).cfg.width ∧ is_int (fresh 5 2 1).cfg.height ∧
      0 ≤ (fresh 5 2 1).cfg.mines ∧ reachable rng_id (fresh 5 2 1) m ∧
      ((fresh 5 2 1).reset >>= fun a => a.primary_click rng_id 0 0 >>= fun a =>
        a.primary_click rng_id 2 1 >>= fun a => a.primary_click rng_id 4 0) = Except.ok m ∧
      m.state = game_state.won ∧ (m.cell_at 2 0).is_mine = true ∧
      (m.cell_at 2 0).state = cell_state.hidden ∧
      (∃ b, m.check_won = Except.ok b ∧ (m.state = game_state.won ↔ b = true) ∧
        (b = true ↔ m.cleared)) ∧
      (∀ x y, ∃ m', m.primary_click rng_id x y = Except.ok m') ∧
      (∀ x y, ∃ m', m.secondary_click x y = Except.ok m' ∧ m'.state = m.state) :=
  ⟨_, rng_id_lawful, by decide, by decide, by decide, by decide, by decide,
    reachable.primary 4 0 (reachable.primary 2 1 (reachable.primary 0 0
      (reachable.start rfl) rfl) rfl) rfl,
    rfl, rfl, rfl, rfl,
    won_iff_check_won rng_id rng_id_lawful (fresh 5 2 1) _ (by decide) (by decide)
      (by decide) (by decide) (by decide)
      (reachable.primary 4 0 (reachable.primary 2 1 (reachable.primary 0 0
        (reachable.start rfl) rfl) rfl) rfl)⟩

/-- C27: in every engine state reached from `reset()` on a configuration with
`width ≥ 1`, `height ≥ 1` and `mines ≥ 0` by any finite sequence of `primary_click` and
`secondary_click` calls: the game state is lost exactly when some mine is revealed; and
every further click returns in a state where this holds again, so when a click reveals
a mine, through a chord or on the first click, the state it leaves is lost, not won
or playing. -/
theorem lost_iff_mine_revealed {G : Type} (R : rng G) (hR : R.lawful) (m0 m : minesweeper)
    (hw : 1 ≤ m0.cfg.width) (hh : 1 ≤ m0.cfg.height) (iw : is_int m0.cfg.width)
    (ih : is_int m0.cfg.height) (hm : 0 ≤ m0.cfg.mines) (hr : reachable R m0 m) :
    (m.state = game_state.lost ↔ m.mine_revealed) ∧
    (∀ x y, ∃ m', m.primary_click R x y = Except.ok m' ∧
      (m'.state = game_state.lost ↔ m'.mine_revealed)) ∧
    (∀ x y, ∃ m', m.secondary_click x y = Except.ok m' ∧
      (m'.state = game_state.lost ↔ m'.mine_revealed)) := by
  have hi := reachable_inv R hR hw hh iw ih hm hr
  refine ⟨hi.lost_iff, fun x y => ?_, fun x y => ?_⟩
  · obtain ⟨m', r, i⟩ := inv_primary R hR hi hm x y
    exact ⟨m', r, i.lost_iff⟩
  · obtain ⟨m', r, i, _⟩ := inv_secondary hi x y
    exact ⟨m', r, i.lost_iff⟩

theorem lost_iff_mine_revealed_witness :
    ∃ m, rng_id.lawful ∧ 1 ≤ (fresh 5 2 1).cfg.width ∧ 1 ≤ (fresh 5 2 1).cfg.height ∧
      is_int (fresh 5 2 1).cfg.width ∧ is_int (fresh 5 2 1).cfg.height ∧
      0 ≤ (fresh 5 2 1).cfg.mines ∧ reachable rng_id (fresh 5 2 1) m ∧
      ((fresh 5 2 1).reset >>= fun a => a.primary_click rng_id 0 0 >>= fun a =>
        a.secondary_click 2 1 >>= fun a => a.primary_click rng_id 1 0) = Except.ok m ∧
      m.state = game_state.lost ∧ (m.cell_at 1 0).n_mines = 1 ∧
      (m.cell_at 2 0).is_mine = true ∧ (m.cell_at 2 0).state = cell_state.revealed ∧
      (m.cell_at 2 1).is_mine = false ∧ (m.cell_at 2 1).state = cell_state.flagged ∧
      (m.state = game_state.lost ↔ m.mine_revealed) ∧
      (∀ x y, ∃ m', m.primary_click rng_id x y = Except.ok m' ∧
        (m'.state = game_state.lost ↔ m'.mine_revealed)) ∧
      (∀ x y, ∃ m', m.secondary_click x y = Except.ok m' ∧
        (m'.state = game_state.lost ↔ m'.mine_revealed)) :=
  ⟨_, rng_id_lawful, by decide, by decide, by decide, by decide, by decide,
    reachable.primary 1 0 (reachable.secondary 2 1 (reachable.primary 0 0
      (reachable.start rfl) rfl) rfl) rfl,
    rfl, rfl, rfl, rfl, rfl, rfl, rfl,
    lost_iff_mine_revealed rng_id rng_id_lawful (fresh 5 2 1) _ (by decide) (by decide)
      (by decide) (by decide) (by decide)
      (reachable.primary 1 0 (reachable.secondary 2 1 (reachable.primary 0 0
        (reachable.start rfl) rfl) rfl) rfl)⟩

/-! ## The game state through the generation and the first click -/

/-- On an all-hidden board with exact counts and a start cell that is not a mine,
`logically_solvable` returns and leaves the game state as it was. -/
theorem logically_solvable_state {m : minesweeper} (hs : m.sized) (hh : m.all_hidden)
    (he : m.exact) {x y : Int} (hnm : (m.cell_at x y).is_mine = false) :
    ∃ r m', m.logically_solvable x y = Except.ok (r, m') ∧ m'.state = m.state := by
  obtain ⟨m1, r1, e1, st1, n1, _⟩ := reveal_nonmine hs he hnm
  have he1 := exact_of_evolves e1 he
  have hv1 : m1.sound := by
    refine ⟨fun a b hab hf => ?_, fun a b hab hr => ?_⟩
    · have hab0 : m.cfg.inb a b := e1.cfg ▸ hab
      rcases e1.state a b hab0 with h | ⟨_, h⟩
      · rw [h, hh a b hab0] at hf; cases hf
      · rw [h] at hf; cases hf
    · have hab0 : m.cfg.inb a b := e1.cfg ▸ hab
      rw [e1.is_mine a b hab0]
      rcases n1 a b hab0 hr with h | h
      · rw [hh a b hab0] at h; cases h
      · exact h
  have hu1 : m1.unmarked := by
    intro a b hab hq
    have hab0 : m.cfg.inb a b := e1.cfg ▸ hab
    rcases e1.state a b hab0 with h | ⟨_, h⟩
    · rw [h, hh a b hab0] at hq; cases hq
    · rw [h] at hq; cases hq
  obtain ⟨m2, r2, e2, _, _, st2⟩ := deduction_loop_sound m1.deduction_fuel m1 e1.sized he1
    hv1 hu1 (deduction_fuel_enough m1)
  obtain ⟨m3, r3, _, st3, _⟩ := hide_all_ok e2.sized
  refine ⟨m2.cfg.coords.all fun p =>
      (m2.cell_at p.1 p.2).is_mine || decide ((m2.cell_at p.1 p.2).state = cell_state.revealed),
    m3, ?_, st3.trans (st2.trans st1)⟩
  simp only [minesweeper.logically_solvable, r1, ok_bind, r2, check_won_ok, r3, pure_eq_ok]

/-- An attempt of `generate_mines` whose forbidden cells include the clicked cell leaves
the game state as it was. -/
theorem attempt_state {G : Type} (R : rng G) (hR : R.lawful) {m : minesweeper} (hs : m.sized)
    (forb : List (Int × Int)) (x y : Int) (g : G) (hm : 0 ≤ m.cfg.mines)
    (hroom : m.cfg.mines.toNat ≤ (m.cfg.coords.filter fun p => decide (p ∉ forb)).length)
    (hxy : (x, y) ∈ forb) (hin : m.cfg.inb x y) :
    ∃ r g' m', m.attempt R forb x y g = Except.ok (r, g', m') ∧ generated m forb m' ∧
      m'.state = m.state := by
  obtain ⟨r, g', m', ra, gen, _, _⟩ := attempt_spec R hR hs forb x y g hm hroom
  refine ⟨r, g', m', ra, gen, ?_⟩
  obtain ⟨m1, r1, c1, s1, _, st1, cell1⟩ := clear_all_ok hs
  have hperm := hR g (m1.allowed forb)
  have hshin : ∀ p ∈ (R.shuffle g (m1.allowed forb)).1, m1.cfg.inb p.1 p.2 := by
    intro p hp
    have := hperm.subset hp
    unfold minesweeper.allowed at this
    exact mem_coords.1 (List.mem_filter.1 this).1
  have hnd : (R.shuffle g (m1.allowed forb)).1.Nodup :=
    hperm.nodup_iff.2 ((nodup_coords _).filter _)
  obtain ⟨m2, r2, c2, s2, _, st2, cell2⟩ := place_mines_ok s1 _ hshin hnd
  obtain ⟨m3, r3, c3, s3, _, st3, cell3⟩ := count_all_ok s2
  obtain ⟨r0, m4, r4, e4, _⟩ := logically_solvable_total s3 x y
  have hthrow : ¬ (m1.allowed forb).length < to_size_t m1.cfg.mines := by
    intro h
    simp only [minesweeper.attempt, r1, ok_bind, h, if_true] at ra
    cases ra
  simp only [minesweeper.attempt, r1, ok_bind, hthrow, if_false, r2, r3, r4, pure_eq_ok] at ra
  have h4 : m4 = m' := congrArg (fun t : Bool × G × minesweeper => t.2.2) (Except.ok.inj ra)
  subst h4
  have c31 : m3.cfg = m.cfg := c3.trans (c2.trans c1)
  have h3hid : m3.all_hidden := by
    intro a b hab
    have hab0 : m.cfg.inb a b := c31 ▸ hab
    rw [cell3 a b (c2 ▸ c1 ▸ hab0), cell2 a b (c1 ▸ hab0), cell1 a b hab0]
    split <;> rfl
  have h3ex : m3.exact := by
    intro a b hab
    have hab0 : m.cfg.inb a b := c31 ▸ hab
    rw [← e4.n_mines a b hab, gen.counts a b hab0, mines_around_congr e4.cfg e4.is_mine]
  have h3nm : (m3.cell_at x y).is_mine = false := by
    rw [← e4.is_mine x y (c31 ▸ hin)]
    exact gen.forbidden (x, y) hxy hin
  obtain ⟨r', m4', r4', st4⟩ := logically_solvable_state s3 h3hid h3ex h3nm
  rw [r4] at r4'
  have h4' : m4 = m4' := congrArg (fun t : Bool × minesweeper => t.2) (Except.ok.inj r4')
  rw [h4', st4, st3, st2, st1]

theorem generate_loop_state {G : Type} (R : rng G) (hR : R.lawful) (forb : List (Int × Int))
    (x y : Int) (hxy : (x, y) ∈ forb) :
    ∀ (n : Nat) (g : G) (m : minesweeper), m.sized → 0 ≤ m.cfg.mines →
      m.cfg.mines.toNat ≤ (m.cfg.coords.filter fun p => decide (p ∉ forb)).length →
      m.cfg.inb x y →
      ∃ m', generate_loop R forb x y n g m = Except.ok m' ∧ m'.state = m.state
  | 0, _, m, _, _, _, _ => ⟨m, rfl, rfl⟩
  | n + 1, g, m, hs, hm, hroom, hin => by
    obtain ⟨r, g', m1, ra, gen, st⟩ := attempt_state R hR hs forb x y g hm hroom hxy hin
    cases r with
    | true =>
      exact ⟨{ m1 with unsolvable := false },
        by simp only [generate_loop, ra, ok_bind, if_true]; rfl, st⟩
    | false =>
      obtain ⟨m', rl, st'⟩ := generate_loop_state R hR forb x y hxy n g' m1 gen.sized
        (by rw [gen.cfg]; exact hm) (by rw [gen.cfg]; exact hroom) (by rw [gen.cfg]; exact hin)
      exact ⟨m', by simp only [generate_loop, ra, ok_bind, Bool.false_eq_true, if_false, rl],
        st'.trans st⟩

/-- With `mines ≥ 0`, `generate_mines` returns and leaves the game state as it was. -/
theorem generate_mines_state {G : Type} (R : rng G) (hR : R.lawful) {m : minesweeper}
    (hs : m.sized) (hm : 0 ≤ m.cfg.mines) (x y : Int) :
    ∃ g, m.generate_mines R x y = Except.ok g ∧ g.state = m.state := by
  unfold minesweeper.generate_mines
  split
  · exact ⟨m, rfl, rfl⟩
  · next hv =>
    split
    · exact ⟨m, rfl, rfl⟩
    · next ho =>
      have hv' : m.cfg.validate = true := by simpa using hv
      have hin : m.cfg.inb x y := by
        by_contra hc
        exact ho (out_of_range_of_not_inb hc)
      have hs' : ({ m with unsolvable := true } : minesweeper).sized := hs
      exact generate_loop_state R hR _ x y (List.mem_cons_self _ _) _ _
        { m with unsolvable := true } hs' hm (allowed_room _ hv' (forb_length_le m x y)) hin

theorem generate_loop_sized {G : Type} (R : rng G) (hR : R.lawful) (forb : List (Int × Int))
    (x y : Int) :
    ∀ (n : Nat) (g : G) (m : minesweeper), m.sized →
      (∃ m', generate_loop R forb x y n g m = Except.ok m' ∧ m'.sized) ∨
        generate_loop R forb x y n g m = Except.error exn.runtime_error
  | 0, _, m, hs => Or.inl ⟨m, rfl, hs⟩
  | n + 1, g, m, hs => by
    rcases attempt_total R hR hs forb x y g with ⟨r, g', m', ra, s'⟩ | ra
    · cases r with
      | true =>
        left
        exact ⟨{ m' with unsolvable := false },
          by simp only [generate_loop, ra, ok_bind, if_true]; rfl, s'⟩
      | false =>
        rcases generate_loop_sized R hR forb x y n g' m' s' with ⟨m'', rl, s''⟩ | rl
        · left
          exact ⟨m'', by
            simp only [generate_loop, ra, ok_bind, Bool.false_eq_true, if_false, rl], s''⟩
        · right
          simp only [generate_loop, ra, ok_bind, Bool.false_eq_true, if_false, rl]
    · right
      simp only [generate_loop, ra, error_bind]

/-- The method `generate_mines` returns a board of the configured size, or throws
`runtime_error`. -/
theorem generate_mines_sized {G : Type} (R : rng G) (hR : R.lawful) {m : minesweeper}
    (hs : m.sized) (x y : Int) :
    (∃ g, m.generate_mines R x y = Except.ok g ∧ g.sized) ∨
      m.generate_mines R x y = Except.error exn.runtime_error := by
  unfold minesweeper.generate_mines
  split
  · exact Or.inl ⟨m, rfl, hs⟩
  · split
    · exact Or.inl ⟨m, rfl, hs⟩
    · exact generate_loop_sized R hR _ x y _ _ _ hs

/-- The first-click branch of `primary_click`, once `generate_mines` and `reveal` have
returned: the state is set to playing whatever `reveal` left, then to won when every
cell that is not a mine is revealed. -/
theorem first_click_branch {G : Type} (R : rng G) {m g m1 : minesweeper} {x y : Int}
    (hf : m.state = game_state.first_click) (hin : m.cfg.inb x y)
    (rg : m.generate_mines R x y = Except.ok g) (r1 : g.reveal x y = Except.ok m1) :
    ∃ m', m.primary_click R x y = Except.ok m' ∧ m'.board = m1.board ∧ m'.cfg = m1.cfg ∧
      (m'.state = game_state.playing ∨ m'.state = game_state.won) ∧
      (m'.state = game_state.won ↔ m1.cleared) := by
  have hrun : m.primary_click R x y =
      minesweeper.settle { m1 with state := game_state.playing } := by
    unfold minesweeper.primary_click
    simp only [out_of_range_of_inb hin, Bool.false_eq_true, if_false, hf, if_true, rg, ok_bind,
      r1]
  rw [hrun]
  by_cases hcl : m1.cleared
  · exact ⟨_, (settle_spec _).1 hcl, rfl, rfl, Or.inr rfl, fun _ => hcl, fun _ => rfl⟩
  · refine ⟨_, (settle_spec _).2 hcl, rfl, rfl, Or.inl rfl, fun h => ?_, fun h => absurd h hcl⟩
    simp at h

/-- C24, as amended: for every engine of the configured size that awaits the first
click, every `(x, y)` inside the board and a shuffle that permutes its argument,
`primary_click(x, y)` either lets the `runtime_error` of `generate_mines` through, or
returns after `generate_mines` and `reveal(x, y)` with the cells `reveal` left and the
game state playing, or won when every cell that is not a mine is revealed: the state is
set to playing whatever `reveal` left, so it is never lost.  When the engine state is
reached from `reset()` (`width ≥ 1`, `height ≥ 1`, `mines ≥ 0`) by clicks,
`generate_mines` returns with the game state kept and the clicked cell not a mine, and
`reveal(x, y)` reveals no mine and does not set the game state to lost. -/
theorem first_click_sets_playing {G : Type} (R : rng G) (hR : R.lawful) (m : minesweeper)
    (x y : Int) (hs : m.sized) (hf : m.state = game_state.first_click)
    (hin : m.cfg.inb x y) :
    (m.primary_click R x y = Except.error exn.runtime_error ∨
      ∃ g m1 m', m.generate_mines R x y = Except.ok g ∧ g.reveal x y = Except.ok m1 ∧
        m.primary_click R x y = Except.ok m' ∧ m'.board = m1.board ∧
        (m'.state = game_state.playing ∨ m'.state = game_state.won) ∧
        (m'.state = game_state.won ↔ m1.cleared)) ∧
    ∀ m0 : minesweeper, 1 ≤ m0.cfg.width → 1 ≤ m0.cfg.height → is_int m0.cfg.width →
      is_int m0.cfg.height → 0 ≤ m0.cfg.mines → reachable R m0 m →
      ∃ g m1 m', m.generate_mines R x y = Except.ok g ∧
        g.state = game_state.first_click ∧ (g.cell_at x y).is_mine = false ∧
        g.reveal x y = Except.ok m1 ∧ m1.state = game_state.first_click ∧
        ¬ m1.mine_revealed ∧
        m.primary_click R x y = Except.ok m' ∧ m'.board = m1.board ∧
        (m'.state = game_state.playing ∨ m'.state = game_state.won) := by
  constructor
  · rcases generate_mines_sized R hR hs x y with ⟨g, rg, sg⟩ | rg
    · obtain ⟨m1, r1, _⟩ := reveal_total sg x y
      obtain ⟨m', r', b', _, st', w'⟩ := first_click_branch R hf hin rg r1
      exact Or.inr ⟨g, m1, m', rg, r1, r', b', st', w'⟩
    · left
      unfold minesweeper.primary_click
      simp only [out_of_range_of_inb hin, Bool.false_eq_true, if_false, hf, if_true, rg,
        error_bind]
  · intro m0 hw hh iw ih hm hr
    have hi := reachable_inv R hR hw hh iw ih hm hr
    have hb := hi.fresh_blank hf
    have hm' : 0 ≤ m.cfg.mines := by rw [hi.cfg]; exact hm
    obtain ⟨g, rg, stg⟩ := generate_mines_state R hR hs hm' x y
    have hgen : g.sized ∧ g.all_hidden ∧ g.exact ∧ (g.cell_at x y).is_mine = false := by
      by_cases hv : m.cfg.validate = true
      · obtain ⟨g', _, _, _, _, rg', _, _, _, gen, _⟩ := generate_mines_spec R hR hs hv hm' hin
        rw [rg] at rg'
        obtain rfl := Except.ok.inj rg'
        exact ⟨gen.sized, gen.hidden, fun a b hab => gen.counts a b (gen.cfg ▸ hab),
          gen.forbidden (x, y) (List.mem_cons_self _ _) hin⟩
      · have hg : m.generate_mines R x y = Except.ok m := by
          simp [minesweeper.generate_mines, hv]
        rw [rg] at hg
        obtain rfl := Except.ok.inj hg
        exact ⟨hs, fun a b hab => by rw [hb a b hab], exact_of_blank hb, by rw [hb x y hin]⟩
    obtain ⟨sg, hg, eg, ng⟩ := hgen
    obtain ⟨m1, r1, e1, st1, n1, _⟩ := reveal_nonmine sg eg ng
    have hnr : ¬ m1.mine_revealed := by
      rintro ⟨a, b, hab, hmn, hr⟩
      have hab0 : g.cfg.inb a b := e1.cfg ▸ hab
      rw [e1.is_mine a b hab0] at hmn
      rcases n1 a b hab0 hr with h | h
      · rw [hg a b hab0] at h; cases h
      · rw [hmn] at h; cases h
    obtain ⟨m', r', b', _, st', _⟩ := first_click_branch R hf hin rg r1
    exact ⟨g, m1, m', rg, stg.trans hf, ng, r1, st1.trans (stg.trans hf), hnr, r', b', st'⟩

theorem first_click_sets_playing_witness :
    rng_id.lawful ∧ (fresh 5 2 1).sized ∧ (fresh 5 2 1).state = game_state.first_click ∧
    (fresh 5 2 1).cfg.inb 0 0 ∧
    ((fresh 5 2 1).primary_click rng_id 0 0 = Except.error exn.runtime_error ∨
      ∃ g m1 m', (fresh 5 2 1).generate_mines rng_id 0 0 = Except.ok g ∧
        g.reveal 0 0 = Except.ok m1 ∧
        (fresh 5 2 1).primary_click rng_id 0 0 = Except.ok m' ∧ m'.board = m1.board ∧
        (m'.state = game_state.playing ∨ m'.state = game_state.won) ∧
        (m'.state = game_state.won ↔ m1.cleared)) ∧
    (∃ g, (fresh 5 2 1).generate_mines rng_id 0 0 = Except.ok g ∧
      (g.cell_at 2 0).is_mine = true) ∧
    reachable rng_id (fresh 5 2 1) (fresh 5 2 1) ∧
    ∃ g m1 m', (fresh 5 2 1).generate_mines rng_id 0 0 = Except.ok g ∧
      g.state = game_state.first_click ∧ (g.cell_at 0 0).is_mine = false ∧
      g.reveal 0 0 = Except.ok m1 ∧ m1.state = game_state.first_click ∧
      ¬ m1.mine_revealed ∧
      (fresh 5 2 1).primary_click rng_id 0 0 = Except.ok m' ∧ m'.board = m1.board ∧
      (m'.state = game_state.playing ∨ m'.state = game_state.won) :=
  ⟨rng_id_lawful, by decide, rfl, by decide,
    (first_click_sets_playing rng_id rng_id_lawful (fresh 5 2 1) 0 0 (by decide) rfl
      (by decide)).1,
    ⟨_, rfl, rfl⟩, reachable.start rfl,
    (first_click_sets_playing rng_id rng_id_lawful (fresh 5 2 1) 0 0 (by decide) rfl
      (by decide)).2 (fresh 5 2 1) (by decide) (by decide) (by decide) (by decide) (by decide)
      (reachable.start rfl)⟩

end rlms
